import Mathlib

/-!
# Openbox action parser (`openbox/action_parser.c`)

A shallow embedding of the recursive-descent parser of `action_parser.c`.

The `GScanner` of GLib is an external collaborator.  It is represented by the
sequence of tokens it hands out: `g_scanner_get_next_token` removes the first
token of the sequence, `g_scanner_peek_next_token` looks at it, and an exhausted
sequence yields `G_TOKEN_EOF` for ever.  The three character sets of the scanner
configuration that `parse_string` rewrites are part of the state.

A chain of `ObActionList` nodes linked through `next` and ended by `NULL` is a
Lean list of nodes; the `NULL` chain is `[]`.  The same holds for
`ObActionListTest`.

The mutually recursive parsers are defined by structural recursion on a fuel
argument; running out of fuel is the result `none`, which is different from
every result of the C code.
-/

namespace Openbox

/-! ## Tokens and scanner state -/

/-- The token kinds of `GTokenType` the parser distinguishes.  With
`char_2_token` a character is its own token kind; `OTHER` stands for every other
kind (`G_TOKEN_NONE = 256`, `G_TOKEN_ERROR`, `G_TOKEN_FLOAT`, ...) with its
numeric code. -/
inductive Token where
  | EOF
  | IDENTIFIER (v_string : String)
  | CHAR (c : Char)
  | OTHER (code : Nat)
deriving DecidableEq, Repr

/-- The test `t == G_TOKEN_IDENTIFIER`. -/
def Token.isIdentifier : Token → Bool
  | Token.IDENTIFIER _ => true
  | _ => false

/-- The token kind `G_TOKEN_NONE`. -/
def G_TOKEN_NONE : Token := Token.OTHER 256

def G_CSET_a_2_z : String := "abcdefghijklmnopqrstuvwxyz"
def G_CSET_A_2_Z : String := "ABCDEFGHIJKLMNOPQRSTUVWXYZ"
def G_CSET_DIGITS : String := "0123456789"
/-- Latin-1 capital letters `\300`..`\326`, `\330`..`\336`. -/
def G_CSET_LATINC : String :=
  String.mk (((List.range 23).map fun i => Char.ofNat (192 + i)) ++
    ((List.range 7).map fun i => Char.ofNat (216 + i)))
/-- Latin-1 small letters `\337`..`\366`, `\370`..`\377`. -/
def G_CSET_LATINS : String :=
  String.mk (((List.range 24).map fun i => Char.ofNat (223 + i)) ++
    ((List.range 8).map fun i => Char.ofNat (248 + i)))

def SKIP : String := " \t"
def IDENTIFIER_FIRST : String := G_CSET_a_2_z ++ G_CSET_A_2_Z ++ G_CSET_DIGITS ++ "-_"
def IDENTIFIER_NTH : String := IDENTIFIER_FIRST ++ G_CSET_LATINS ++ G_CSET_LATINC
def ESCAPE_SEQS : String := "\"()"

/-- One diagnostic handed to `g_scanner_unexp_token`: the expected token and the
message (`none` for a `NULL` message). -/
structure Diagnostic where
  expected : Token
  message : Option String
deriving DecidableEq, Repr

/-- The mutable state the parsing functions share: the scanner `p->scan` (the
three character sets of its configuration and the tokens it will still deliver),
the diagnostics emitted so far, and the error flag `*e`. -/
structure ParseState where
  cset_skip_characters : String
  cset_identifier_first : String
  cset_identifier_nth : String
  toks : List Token
  msgs : List Diagnostic
  e : Bool
deriving DecidableEq, Repr

/-- The scanner as `action_parser_new` configures it, loaded with the tokens of
an input, with `e = FALSE`. -/
def ParseState.init (toks : List Token) : ParseState :=
  { cset_skip_characters := SKIP
    cset_identifier_first := IDENTIFIER_FIRST
    cset_identifier_nth := IDENTIFIER_NTH
    toks := toks
    msgs := []
    e := false }

def g_scanner_peek_next_token (s : ParseState) : Token :=
  s.toks.headD Token.EOF

def g_scanner_get_next_token (s : ParseState) : Token × ParseState :=
  (s.toks.headD Token.EOF, { s with toks := s.toks.tail })

/-! ## Parse tree -/

mutual
/-- An `ObActionValue`: a string (`NULL` when built from a failed literal) or a
nested action list. -/
inductive ObActionValue where
  | string (s : Option String)
  | action_list (l : List ObActionList)
/-- One `ObActionList` node without its `next` link: an action (name and option
table, the arguments given to `action_new`) or a filter set. -/
inductive ObActionList where
  | action (name : String) (config : List (String × ObActionValue))
  | filterset (test : List ObActionListTest) (thendo : List ObActionList)
      (elsedo : List ObActionList)
/-- One `ObActionListTest` node without its `next` link: the filter (the key and
value given to `action_filter_new`) and the `and` flag. -/
inductive ObActionListTest where
  | mk (key : String) (value : Option ObActionValue) (and : Bool)
end

/-- Modelled from the spec: `action_value_new_string` of `action_value.c`, which
is not among the sources, "wrapping the result as a string value"; the value
holds the string it is given, also when that is `NULL`. -/
def action_value_new_string (s : Option String) : Option ObActionValue :=
  some (ObActionValue.string s)

/-- Modelled from the spec: `action_value_new_action_list` of `action_value.c`,
which is not among the sources, "wrapping the result as a nested-list value". -/
def action_value_new_action_list (l : List ObActionList) : Option ObActionValue :=
  some (ObActionValue.action_list l)

/-- The option table `config` is a `GHashTable` keyed by strings; it is kept as
an association list with at most one entry per key.  `g_hash_table_replace`
drops an entry with an equal key and stores the new one. -/
def g_hash_table_replace (config : List (String × ObActionValue)) (key : String)
    (value : ObActionValue) : List (String × ObActionValue) :=
  config.filter (fun kv => kv.1 != key) ++ [(key, value)]

def g_hash_table_lookup (config : List (String × ObActionValue)) (key : String) :
    Option ObActionValue :=
  (config.find? (fun kv => kv.1 == key)).map Prod.snd

/-! ## Parser functions -/

/-- The function `parse_error`: one diagnostic, and the error flag is set. -/
def parse_error (s : ParseState) (exp : Token) (message : Option String) : ParseState :=
  { s with msgs := s.msgs ++ [⟨exp, message⟩], e := true }

/-- The character `g_string_append_c (buf, t)` appends for a token `t`: the
token code cut to one byte. -/
def Token.toChar : Token → Char
  | Token.EOF => Char.ofNat 0
  | Token.IDENTIFIER _ => Char.ofNat (266 % 256)
  | Token.CHAR c => c
  | Token.OTHER code => Char.ofNat (code % 256)

/-- The test `strchr (ESCAPE_SEQS, t) != NULL`; `strchr` also finds the
terminating NUL of the string. -/
def strchr_ESCAPE_SEQS (t : Token) : Bool :=
  t.toChar == Char.ofNat 0 || ESCAPE_SEQS.toList.contains t.toChar

/-- The test `t == end` of `parse_string`, where `end` is a character: a character
token is its own code, and the end-of-input token `G_TOKEN_EOF` is 0, the code
of NUL, so the end of the input is the terminator when `end` is NUL. -/
def Token.isEnd (end_ : Char) (t : Token) : Bool :=
  t == Token.CHAR end_ || (t == Token.EOF && end_ == Char.ofNat 0)

/-- The `while (t != end)` loop of `parse_string` over the tokens still to be
delivered, with the buffer `buf`.  The test `t != end` comes first, also for the
end-of-input token.  The result is the remaining tokens and either the buffer
(the terminator was read) or the error message of the `parse_string_error`
exit. -/
def parse_string_loop (end_ : Char) : List Token → String → Except String String × List Token
  | [], buf =>
    -- the token read is EOF
    if Token.EOF.isEnd end_ then (Except.ok buf, [])
    else (Except.error "Missing end of quoted string", [])
  | t :: rest, buf =>
    if t.isEnd end_ then (Except.ok buf, rest)
    else match t with
      | Token.IDENTIFIER v_string => parse_string_loop end_ rest (buf ++ v_string)
      | Token.EOF => (Except.error "Missing end of quoted string", rest)
      | Token.CHAR c =>
        if c = '\\' then
          match rest with
          | [] =>
            -- the next token is EOF, which `strchr` accepts and which is appended;
            -- the token after it is EOF again
            if Token.EOF.isEnd end_ then (Except.ok (buf.push Token.EOF.toChar), [])
            else (Except.error "Missing end of quoted string", [])
          | t2 :: rest2 =>
            if strchr_ESCAPE_SEQS t2 then parse_string_loop end_ rest2 (buf.push t2.toChar)
            else (Except.error "Unknown escape sequence", rest2)
        else parse_string_loop end_ rest (buf.push c)
      | Token.OTHER code => parse_string_loop end_ rest (buf.push (Token.OTHER code).toChar)

/-- The function `parse_string`.  The result is the string, `none` for `NULL`. -/
def parse_string (end_ : Char) (s : ParseState) : Option String × ParseState :=
  let s1 := { s with
    cset_skip_characters := ""
    cset_identifier_first := IDENTIFIER_NTH ++ " "
    cset_identifier_nth := IDENTIFIER_NTH ++ " " }
  match parse_string_loop end_ s1.toks "" with
  | (Except.ok v, rest) =>
    (some v, { s1 with
      toks := rest
      cset_skip_characters := SKIP
      cset_identifier_first := IDENTIFIER_FIRST
      cset_identifier_nth := IDENTIFIER_NTH })
  | (Except.error error_message, rest) =>
    (none, { s1 with
      toks := rest
      msgs := s1.msgs ++ [⟨G_TOKEN_NONE, some error_message⟩]
      e := true })

/-- Where the local pointer `last` of `parse_list` points: nowhere, at the node
with index `i` of the chain that starts at `first`, or at a node that cannot be
reached from `first`. -/
inductive LastPtr where
  | NULL
  | reachable (i : Nat)
  | unreachable
deriving DecidableEq, Repr

/-- The three statements of `parse_list` that append the chain `next`:
`if (last) last->next = next; if (!first) first = next; last = next;`.
Writing `last->next` cuts the chain from `first` after the node `last` and
continues it with `next`; a write to a node out of reach of `first` leaves the
chain from `first` as it is. -/
def parse_list_append (first : List ObActionList) (last : LastPtr)
    (next : List ObActionList) : List ObActionList × LastPtr :=
  let first1 := match last with
    | LastPtr.reachable i => first.take (i + 1) ++ next
    | _ => first
  let first2 := if first.isEmpty then next else first1
  let last2 := if next.isEmpty then LastPtr.NULL else
    match last with
    | LastPtr.reachable i => LastPtr.reachable (i + 1)
    | LastPtr.NULL => if first.isEmpty then LastPtr.reachable 0 else LastPtr.unreachable
    | LastPtr.unreachable => LastPtr.unreachable
  (first2, last2)

/-- The result of a parsing function on a state: `none` when the fuel ran out,
else the returned value and the state it leaves. -/
abbrev Res (α : Type) := Option (α × ParseState)

mutual
/-- The function `parse_list`; `end_` is the terminator token. -/
def parse_list (action_filter_new : String → Option ObActionValue → Bool) :
    Nat → Token → ParseState → Res (List ObActionList)
  | 0, _, _ => none
  | fuel + 1, end_, s => parse_list_loop action_filter_new fuel end_ [] LastPtr.NULL s

/-- The `while` loop of `parse_list` with the locals `first` and `last`, followed
by the statements after the loop. -/
def parse_list_loop (action_filter_new : String → Option ObActionValue → Bool) :
    Nat → Token → List ObActionList → LastPtr → ParseState → Res (List ObActionList)
  | 0, _, _, _, _ => none
  | fuel + 1, end_, first, last, s =>
    let t := g_scanner_peek_next_token s
    if t ≠ end_ ∧ t ≠ Token.EOF then
      if t = Token.CHAR '\n' ∨ t = Token.CHAR ';' then
        let s1 := (g_scanner_get_next_token s).2
        if s1.e then some (first, (g_scanner_get_next_token s1).2)
        else parse_list_loop action_filter_new fuel end_ first last s1
      else if t.isIdentifier ∨ t = Token.CHAR '[' ∨ t = Token.CHAR '{' then
        match parse_action action_filter_new fuel s with
        | none => none
        | some (next, s1) =>
          let fl := parse_list_append first last next
          if s1.e then some (fl.1, (g_scanner_get_next_token s1).2)
          else parse_list_loop action_filter_new fuel end_ fl.1 fl.2 s1
      else
        let s1 := parse_error (g_scanner_get_next_token s).2
          (if end_ = Token.EOF then G_TOKEN_NONE else end_)
          (some "Expected an action or end of action list")
        some (first, (g_scanner_get_next_token s1).2)
    else some (first, (g_scanner_get_next_token s).2)

/-- The function `parse_action`. -/
def parse_action (action_filter_new : String → Option ObActionValue → Bool) :
    Nat → ParseState → Res (List ObActionList)
  | 0, _ => none
  | fuel + 1, s =>
    let (t, s1) := g_scanner_get_next_token s
    if t = Token.CHAR '[' then parse_filter action_filter_new fuel s1
    else if t = Token.CHAR '{' then parse_list action_filter_new fuel (Token.CHAR '}') s1
    else match t with
      | Token.IDENTIFIER name =>
        match parse_action_options action_filter_new fuel [] s1 with
        | none => none
        | some (config, s2) => some ([ObActionList.action name config], s2)
      | _ => some ([], parse_error s1 G_TOKEN_NONE (some "Expected an action name"))

/-- The `while` loop of `parse_action` that reads the options into the table
`config`. -/
def parse_action_options (action_filter_new : String → Option ObActionValue → Bool) :
    Nat → List (String × ObActionValue) → ParseState →
      Res (List (String × ObActionValue))
  | 0, _, _ => none
  | fuel + 1, config, s =>
    match g_scanner_peek_next_token s with
    | Token.CHAR c =>
      if c = '\\' then
        let s1 := (g_scanner_get_next_token s).2
        let (t, s2) := g_scanner_get_next_token s1
        let s3 := if t ≠ Token.CHAR '\n' then
          parse_error s2 G_TOKEN_NONE (some "Expected newline") else s2
        if s3.e then some (config, s3)
        else parse_action_options action_filter_new fuel config s3
      else some (config, s)
    | Token.IDENTIFIER key =>
      let s1 := (g_scanner_get_next_token s).2
      if g_scanner_peek_next_token s1 ≠ Token.CHAR ':' then
        some (config, parse_error (g_scanner_get_next_token s1).2 (Token.CHAR ':') none)
      else
        let s2 := (g_scanner_get_next_token s1).2
        match parse_value action_filter_new fuel true s2 with
        | none => none
        | some (value, s3) =>
          let config1 := match value with
            | some v => g_hash_table_replace config key v
            | none => config
          if s3.e then some (config1, s3)
          else parse_action_options action_filter_new fuel config1 s3
    | _ => some (config, s)

/-- The function `parse_filter`. -/
def parse_filter (action_filter_new : String → Option ObActionValue → Bool) :
    Nat → ParseState → Res (List ObActionList)
  | 0, _ => none
  | fuel + 1, s =>
    match parse_filter_test action_filter_new fuel s with
    | none => none
    | some (test, s1) =>
      if s1.e then some ([], s1)
      else
        match parse_action action_filter_new fuel s1 with
        | none => none
        | some (thendo, s2) =>
          if ¬ s2.e ∧ g_scanner_peek_next_token s2 = Token.CHAR '|' then
            match parse_action action_filter_new fuel (g_scanner_get_next_token s2).2 with
            | none => none
            | some (elsedo, s3) => some ([ObActionList.filterset test thendo elsedo], s3)
          else some ([ObActionList.filterset test thendo []], s2)

/-- The function `parse_filter_test`. -/
def parse_filter_test (action_filter_new : String → Option ObActionValue → Bool) :
    Nat → ParseState → Res (List ObActionListTest)
  | 0, _ => none
  | fuel + 1, s =>
    let (t, s1) := g_scanner_get_next_token s
    if t = Token.CHAR ']' then some ([], s1)
    else match t with
      | Token.IDENTIFIER key =>
        let rv : Res (Option ObActionValue) :=
          if g_scanner_peek_next_token s1 = Token.CHAR '=' then
            parse_value action_filter_new fuel false (g_scanner_get_next_token s1).2
          else some (none, s1)
        match rv with
        | none => none
        | some (value, s2) =>
          if s2.e then some ([], s2)
          else if ¬ action_filter_new key value then
            some ([], parse_error s2 G_TOKEN_NONE (some ("Unable to create filter: " ++ key)))
          else
            let (t, s3) := g_scanner_get_next_token s2
            let rn : Res (Bool × List ObActionListTest) :=
              if t = Token.CHAR ',' then
                (parse_filter_test action_filter_new fuel s3).map fun r => ((true, r.1), r.2)
              else if t = Token.CHAR '|' then
                (parse_filter_test action_filter_new fuel s3).map fun r => ((false, r.1), r.2)
              else if t = Token.CHAR ']' then some ((false, []), s3)
              else some ((false, []), parse_error s3 (Token.CHAR ']') none)
            match rn with
            | none => none
            | some ((and, next), s4) =>
              if s4.e then some ([], s4)
              else some (ObActionListTest.mk key value and :: next, s4)
      | _ => some ([], parse_error s1 G_TOKEN_NONE (some "Expected a filter test lvalue"))

/-- The function `parse_value`.  The result is the value, `none` for `NULL`. -/
def parse_value (action_filter_new : String → Option ObActionValue → Bool) :
    Nat → Bool → ParseState → Res (Option ObActionValue)
  | 0, _, _ => none
  | fuel + 1, allow_actions, s =>
    let (t, s1) := g_scanner_get_next_token s
    match t with
    | Token.IDENTIFIER v_string => some (action_value_new_string (some v_string), s1)
    | _ =>
      if t = Token.CHAR '"' then
        let (str, s2) := parse_string '"' s1
        some (action_value_new_string str, s2)
      else if t = Token.CHAR '(' then
        let (str, s2) := parse_string ')' s1
        some (action_value_new_string str, s2)
      else if t = Token.CHAR '{' ∧ allow_actions then
        match parse_list action_filter_new fuel (Token.CHAR '}') s1 with
        | none => none
        | some (l, s2) =>
          some (if l.isEmpty then none else action_value_new_action_list l, s2)
      else some (none, parse_error s1 G_TOKEN_NONE (some "Expected an option value"))
end

/-- The function `action_parser_read_string`: the scanner is loaded with the
tokens of `text`, `e` is cleared, and the result of `parse_list` is returned.
The fuel is four units for each token and eight more. -/
def action_parser_read_string (action_filter_new : String → Option ObActionValue → Bool)
    (text : List Token) : Option (List ObActionList) :=
  (parse_list action_filter_new (4 * text.length + 8) Token.EOF (ParseState.init text)).map
    Prod.fst

/-! ## Shapes of input and output used in the statements -/

/-- A separator token of an action list: a newline or `;`. -/
def Token.isSeparator (t : Token) : Bool :=
  t == Token.CHAR '\n' || t == Token.CHAR ';'

/-- A token at which the option loop of `parse_action` stops: neither an
identifier nor a backslash. -/
def Token.endsOptions : Token → Bool
  | Token.IDENTIFIER _ => false
  | Token.CHAR c => c != '\\'
  | _ => true

/-- The tokens of options `k1:v1 ... kn:vn` whose values are identifiers. -/
def optionToks : List (String × String) → List Token
  | [] => []
  | kv :: opts =>
    Token.IDENTIFIER kv.1 :: Token.CHAR ':' :: Token.IDENTIFIER kv.2 :: optionToks opts

/-- The option table `parse_action` builds from options read in order, starting
from the table `config`. -/
def optionTable (config : List (String × ObActionValue)) :
    List (String × String) → List (String × ObActionValue)
  | [] => config
  | kv :: opts =>
    optionTable (g_hash_table_replace config kv.1 (ObActionValue.string (some kv.2))) opts

/-- The value of the last occurrence of `key` in a sequence of options. -/
def lastValue (opts : List (String × String)) (key : String) : Option String :=
  (opts.reverse.find? (fun kv => kv.1 == key)).map Prod.snd

/-- The tokens of one test: `key`, or `key = value` with an identifier as value. -/
def testToks (t : String × Option String) : List Token :=
  match t.2 with
  | none => [Token.IDENTIFIER t.1]
  | some v => [Token.IDENTIFIER t.1, Token.CHAR '=', Token.IDENTIFIER v]

/-- The separator of two tests: `,` (and) or `|` (or). -/
def testSeparator (and : Bool) : Token :=
  if and then Token.CHAR ',' else Token.CHAR '|'

/-- The tokens `t1 s1 t2 s2 ... tn ]`: the tests of `init`, each followed by its
separator, the test `last` and the closing bracket. -/
def filterToks (init : List ((String × Option String) × Bool))
    (last : String × Option String) : List Token :=
  match init with
  | [] => testToks last ++ [Token.CHAR ']']
  | ta :: init => testToks ta.1 ++ testSeparator ta.2 :: filterToks init last

/-- The test node for a test and its `and` flag. -/
def testNode (t : String × Option String) (and : Bool) : ObActionListTest :=
  ObActionListTest.mk t.1 (t.2.map fun v => ObActionValue.string (some v)) and

/-- The chain of test nodes for `t1 s1 ... tn ]`: node `i < n` has the flag of
its separator, the last node has the flag `FALSE`. -/
def filterChain (init : List ((String × Option String) × Bool))
    (last : String × Option String) : List ObActionListTest :=
  init.map (fun ta => testNode ta.1 ta.2) ++ [testNode last false]

/-- A piece of the text of a literal, as the scanner delivers it in literal
mode: an identifier lexeme, a single character, or a backslash and the character
after it. -/
inductive LiteralItem where
  | lexeme (v_string : String)
  | single (c : Char)
  | escape (c : Char)
deriving DecidableEq, Repr

/-- The tokens of a piece of literal text. -/
def LiteralItem.toks : LiteralItem → List Token
  | LiteralItem.lexeme v_string => [Token.IDENTIFIER v_string]
  | LiteralItem.single c => [Token.CHAR c]
  | LiteralItem.escape c => [Token.CHAR '\\', Token.CHAR c]

/-- The text a piece contributes to the value: a lexeme whole, a character
itself, an escape pair only its escaped character. -/
def LiteralItem.text : LiteralItem → String
  | LiteralItem.lexeme v_string => v_string
  | LiteralItem.single c => String.singleton c
  | LiteralItem.escape c => String.singleton c

/-- A piece that lies before the first unescaped terminator `end_`, every
backslash being followed by `"`, `(` or `)`: a single character is neither the
terminator nor a backslash, and a backslash that starts an escape pair is not
itself the terminator. -/
def LiteralItem.wellFormed (end_ : Char) : LiteralItem → Bool
  | LiteralItem.lexeme _ => true
  | LiteralItem.single c => c != end_ && c != '\\'
  | LiteralItem.escape c => end_ != '\\' && (c == '"' || c == '(' || c == ')')

/-- The tokens of a sequence of pieces. -/
def literalToks : List LiteralItem → List Token
  | [] => []
  | i :: items => i.toks ++ literalToks items

/-- The text of a sequence of pieces, after the text `buf`. -/
def literalText (buf : String) : List LiteralItem → String
  | [] => buf
  | i :: items => literalText (buf ++ i.text) items

/-- A token at which the loop of `parse_list` reports "Expected an action or end
of action list" when the terminator is the end of input. -/
def Token.isUnexpected (t : Token) : Bool :=
  t != Token.EOF && !t.isSeparator && !t.isIdentifier && t != Token.CHAR '[' &&
    t != Token.CHAR '{'

/-- The tokens of a plain action: its name and its options. -/
def actionToks (a : String × List (String × String)) : List Token :=
  Token.IDENTIFIER a.1 :: optionToks a.2

/-- The Action node of a plain action. -/
def actionNode (a : String × List (String × String)) : ObActionList :=
  ObActionList.action a.1 (optionTable [] a.2)

/-- The tokens of a sequence of plain actions, each followed by the separator
`sep`. -/
def actionsToks (sep : Token) : List (String × List (String × String)) → List Token
  | [] => []
  | a :: as => actionToks a ++ sep :: actionsToks sep as

/-- The pointer `last` of `parse_list` when every element appended so far was a
single node: it points at the last node of the chain from `first`. -/
def lastOf (first : List ObActionList) : LastPtr :=
  if first.isEmpty then LastPtr.NULL else LastPtr.reachable (first.length - 1)

/-- The diagnostics and the error flag of a state `s'` reached from a state `s`:
either the flag is clear and no diagnostic was emitted, or the flag is set and
exactly one diagnostic was emitted. -/
def Diagnosed (s s' : ParseState) : Prop :=
  (s'.e = false ∧ s'.msgs = s.msgs) ∨ (s'.e = true ∧ ∃ d, s'.msgs = s.msgs ++ [d])

/-- A parsing function `run`, given `fuel`, returns on every state that has at
most `(fuel - c) / 3` tokens left; it leaves at most the tokens it found, at
least `d` of them being read when there are that many; and when it starts with
the error flag clear it emits one diagnostic if it sets the flag and none
otherwise. -/
def Returns {α : Type} (c d fuel : Nat) (run : ParseState → Res α) : Prop :=
  ∀ s : ParseState, 3 * s.toks.length + c ≤ fuel →
    ∃ r s', run s = some (r, s') ∧ s'.toks.length ≤ s.toks.length - d ∧
      (s.e = false → Diagnosed s s')

/-! ## Theorems -/

/-! ## The list loop on separators -/

theorem parse_list_loop_separators (F : String → Option ObActionValue → Bool) (end_ : Token)
    (hend : end_.isSeparator = false) (seps : List Token) :
    ∀ (rest : List Token) (fuel : Nat) (first : List ObActionList) (last : LastPtr)
      (s : ParseState), (∀ t ∈ seps, t.isSeparator = true) → s.e = false →
      s.toks = seps ++ rest →
      parse_list_loop F (fuel + seps.length) end_ first last s =
        parse_list_loop F fuel end_ first last { s with toks := rest } := by
  induction seps with
  | nil =>
    intro rest fuel first last s _ _ hs
    simp at hs
    simp [← hs]
  | cons t seps ih =>
    intro rest fuel first last s hs he htoks
    have ht : t.isSeparator = true := hs t (List.mem_cons_self _ _)
    have hs2 : ∀ t ∈ seps, t.isSeparator = true := fun u hu => hs u (List.mem_cons_of_mem _ hu)
    have hte : t ≠ end_ := by
      intro h; rw [h] at ht; rw [ht] at hend; exact absurd hend (by simp)
    have hsep : t = Token.CHAR '\n' ∨ t = Token.CHAR ';' := by
      simpa [Token.isSeparator] using ht
    have hne : t ≠ Token.EOF := by
      rcases hsep with h | h <;> simp [h]
    rw [List.length_cons, ← Nat.add_assoc, parse_list_loop]
    simp [g_scanner_peek_next_token, g_scanner_get_next_token, htoks, hte, hne, hsep, he]
    exact ih rest fuel first last _ hs2 rfl rfl

/-- C2: on a token stream made only of separators (newlines and `;`), followed by
the end of input, the top-level `parse_list` returns the `NULL` chain, has read
the whole input, has emitted no diagnostic and leaves the error flag unset; so
`action_parser_read_string` returns `NULL`.  The empty input is the case of no
separator. -/
theorem parse_list_only_separators (F : String → Option ObActionValue → Bool)
    (seps : List Token) (h : ∀ t ∈ seps, t.isSeparator = true) :
    parse_list F (4 * seps.length + 8) Token.EOF (ParseState.init seps) =
        some ([], ParseState.init []) ∧
      action_parser_read_string F seps = some [] := by
  have key : parse_list F (4 * seps.length + 8) Token.EOF (ParseState.init seps) =
      some ([], ParseState.init []) := by
    have h1 : 4 * seps.length + 8 = (3 * seps.length + 6 + 1 + seps.length) + 1 := by omega
    rw [h1, parse_list]
    rw [parse_list_loop_separators F Token.EOF (by decide) seps [] _ [] LastPtr.NULL
      (ParseState.init seps) h rfl (by simp [ParseState.init])]
    rw [parse_list_loop]
    simp [g_scanner_peek_next_token, g_scanner_get_next_token, ParseState.init]
  exact ⟨key, by simp [action_parser_read_string, key]⟩

theorem parse_list_only_separators_witness :
    (∀ t ∈ [Token.CHAR '\n', Token.CHAR ';'], t.isSeparator = true) ∧
      (parse_list (fun _ _ => true) (4 * [Token.CHAR '\n', Token.CHAR ';'].length + 8)
          Token.EOF (ParseState.init [Token.CHAR '\n', Token.CHAR ';']) =
          some ([], ParseState.init []) ∧
        action_parser_read_string (fun _ _ => true) [Token.CHAR '\n', Token.CHAR ';'] =
          some []) :=
  ⟨by decide,
    parse_list_only_separators (fun _ _ => true) [Token.CHAR '\n', Token.CHAR ';'] (by decide)⟩

/-! ## Plain actions -/

theorem parse_action_options_plain (F : String → Option ObActionValue → Bool)
    (opts : List (String × String)) :
    ∀ (rest : List Token) (fuel : Nat) (config : List (String × ObActionValue))
      (s : ParseState), s.e = false → s.toks = optionToks opts ++ rest →
      (rest.headD Token.EOF).endsOptions = true → opts.length + 1 ≤ fuel →
      parse_action_options F fuel config s =
        some (optionTable config opts, { s with toks := rest }) := by
  induction opts with
  | nil =>
    intro rest fuel config s he htoks hstop hfuel
    obtain ⟨fuel, rfl⟩ : ∃ f, fuel = f + 1 := ⟨fuel - 1, by simp at hfuel; omega⟩
    simp [optionToks] at htoks
    rw [parse_action_options]
    simp only [g_scanner_peek_next_token, htoks, optionTable]
    cases hr : rest.headD Token.EOF with
    | EOF => simp [← htoks]
    | IDENTIFIER v => rw [hr] at hstop; simp [Token.endsOptions] at hstop
    | CHAR c =>
      rw [hr] at hstop
      have hc : c ≠ '\\' := by simpa [Token.endsOptions] using hstop
      simp [hc, ← htoks]
    | OTHER n => simp [← htoks]
  | cons kv opts ih =>
    intro rest fuel config s he htoks hstop hfuel
    obtain ⟨fuel, rfl⟩ : ∃ f, fuel = f + 1 := ⟨fuel - 1, by simp at hfuel; omega⟩
    obtain ⟨fuel, rfl⟩ : ∃ f, fuel = f + 1 := ⟨fuel - 1, by simp at hfuel; omega⟩
    simp only [optionToks, List.cons_append] at htoks
    rw [parse_action_options]
    simp only [g_scanner_peek_next_token, g_scanner_get_next_token, htoks, List.headD_cons,
      List.tail_cons, parse_value, action_value_new_string]
    simp only [ne_eq, not_true_eq_false, if_false, he, optionTable]
    have := ih rest (fuel + 1) (g_hash_table_replace config kv.1 (ObActionValue.string (some kv.2)))
      { s with toks := optionToks opts ++ rest } he rfl hstop (by simp at hfuel; omega)
    simpa [he] using this

theorem parse_action_plain (F : String → Option ObActionValue → Bool) (name : String)
    (opts : List (String × String)) (rest : List Token) (fuel : Nat) (s : ParseState)
    (he : s.e = false) (htoks : s.toks = Token.IDENTIFIER name :: optionToks opts ++ rest)
    (hstop : (rest.headD Token.EOF).endsOptions = true) (hfuel : opts.length + 2 ≤ fuel) :
    parse_action F fuel s =
      some ([ObActionList.action name (optionTable [] opts)], { s with toks := rest }) := by
  obtain ⟨fuel, rfl⟩ : ∃ f, fuel = f + 1 := ⟨fuel - 1, by omega⟩
  rw [parse_action]
  simp only [g_scanner_get_next_token, htoks, List.headD_cons, List.cons_append, List.tail_cons]
  have h := parse_action_options_plain F opts rest fuel []
    { s with toks := optionToks opts ++ rest } he rfl hstop (by omega)
  simp [h]
/-! ## The option table -/

theorem g_hash_table_lookup_replace (config : List (String × ObActionValue)) (k key : String)
    (v : ObActionValue) :
    g_hash_table_lookup (g_hash_table_replace config k v) key =
      if k = key then some v else g_hash_table_lookup config key := by
  unfold g_hash_table_lookup g_hash_table_replace
  rw [List.find?_append, List.find?_filter]
  by_cases hk : k = key
  · subst hk
    have hp : (fun a : String × ObActionValue => (a.1 != k && a.1 == k)) = fun _ => false := by
      funext a
      by_cases h : a.1 = k <;> simp [h]
    simp [hp]
  · simp only [List.find?_cons, List.find?_nil, hk, if_false]
    have hk2 : (k == key) = false := by simp [hk]
    simp only [hk2, Option.or_none]
    congr 2
    funext a
    by_cases h : a.1 = key
    · have : ¬ key = k := fun h2 => hk h2.symm
      simp [h, this]
    · simp [h]

theorem g_hash_table_replace_keys_nodup (config : List (String × ObActionValue)) (k : String)
    (v : ObActionValue) (h : (config.map Prod.fst).Nodup) :
    ((g_hash_table_replace config k v).map Prod.fst).Nodup := by
  unfold g_hash_table_replace
  rw [List.map_append, List.nodup_append]
  refine ⟨?_, by simp, ?_⟩
  · exact (List.Nodup.sublist (List.Sublist.map _ (List.filter_sublist _)) h)
  · intro a ha hb
    simp at hb
    subst hb
    simp at ha

theorem lastValue_cons (kv : String × String) (opts : List (String × String)) (key : String) :
    lastValue (kv :: opts) key =
      match lastValue opts key with
      | some v => some v
      | none => if kv.1 = key then some kv.2 else none := by
  unfold lastValue
  rw [List.reverse_cons, List.find?_append]
  cases h : List.find? (fun kv => kv.1 == key) opts.reverse with
  | none => by_cases hk : kv.1 = key <;> simp [hk]
  | some a => simp

theorem optionTable_lookup (opts : List (String × String)) :
    ∀ (config : List (String × ObActionValue)) (key : String),
      g_hash_table_lookup (optionTable config opts) key =
        match lastValue opts key with
        | some v => some (ObActionValue.string (some v))
        | none => g_hash_table_lookup config key := by
  induction opts with
  | nil => intro config key; simp [optionTable, lastValue]
  | cons kv opts ih =>
    intro config key
    rw [optionTable, ih, lastValue_cons, g_hash_table_lookup_replace]
    cases h : lastValue opts key with
    | none => by_cases hk : kv.1 = key <;> simp [hk]
    | some v => simp

theorem optionTable_keys_nodup (opts : List (String × String)) :
    ∀ (config : List (String × ObActionValue)), (config.map Prod.fst).Nodup →
      ((optionTable config opts).map Prod.fst).Nodup := by
  induction opts with
  | nil => intro config h; simpa [optionTable] using h
  | cons kv opts ih =>
    intro config h
    rw [optionTable]
    exact ih _ (g_hash_table_replace_keys_nodup config _ _ h)

theorem optionToks_length (opts : List (String × String)) :
    (optionToks opts).length = 3 * opts.length := by
  induction opts with
  | nil => rfl
  | cons kv opts ih => simp [optionToks, ih]; omega

/-- The list loop at the end of the input, or at the terminator: the terminator
is eaten and `first` is returned. -/
theorem parse_list_loop_end (F : String → Option ObActionValue → Bool) (fuel : Nat)
    (end_ : Token) (first : List ObActionList) (last : LastPtr) (s : ParseState)
    (h : g_scanner_peek_next_token s = end_ ∨ g_scanner_peek_next_token s = Token.EOF) :
    parse_list_loop F (fuel + 1) end_ first last s =
      some (first, (g_scanner_get_next_token s).2) := by
  rw [parse_list_loop]
  rcases h with h | h <;> simp [h]

/-- The list loop on a plain action that is followed by a token that ends its
options: the action is appended and the loop goes on behind it. -/
theorem parse_list_loop_plain (F : String → Option ObActionValue → Bool) (name : String)
    (opts : List (String × String)) (rest : List Token) (fuel : Nat) (end_ : Token)
    (first : List ObActionList) (last : LastPtr) (s : ParseState)
    (he : s.e = false) (htoks : s.toks = Token.IDENTIFIER name :: optionToks opts ++ rest)
    (hstop : (rest.headD Token.EOF).endsOptions = true) (hfuel : opts.length + 2 ≤ fuel)
    (hend : end_.isIdentifier = false) :
    parse_list_loop F (fuel + 1) end_ first last s =
      parse_list_loop F fuel end_
        (parse_list_append first last [ObActionList.action name (optionTable [] opts)]).1
        (parse_list_append first last [ObActionList.action name (optionTable [] opts)]).2
        { s with toks := rest } := by
  rw [parse_list_loop]
  have hne : Token.IDENTIFIER name ≠ end_ := by
    intro h; rw [← h] at hend; simp [Token.isIdentifier] at hend
  have h := parse_action_plain F name opts rest fuel s he htoks hstop hfuel
  simp [g_scanner_peek_next_token, htoks, hne, Token.isIdentifier, h, he]

/-- C3: the tokens `name k1 : v1 ... kn : vn newline`, with identifiers as keys
and values, parse at top level without error to a chain of exactly one Action
node named `name`, the whole input being read; its option table sends each key
to the string value of the last occurrence of the key among the options, and to
nothing a key that does not occur, and it has no key twice. -/
theorem parse_list_plain_action (F : String → Option ObActionValue → Bool) (name : String)
    (opts : List (String × String)) :
    ∃ config : List (String × ObActionValue),
      parse_list F (4 * (Token.IDENTIFIER name :: optionToks opts ++ [Token.CHAR '\n']).length + 8)
          Token.EOF
          (ParseState.init (Token.IDENTIFIER name :: optionToks opts ++ [Token.CHAR '\n'])) =
        some ([ObActionList.action name config], ParseState.init []) ∧
      (∀ key, g_hash_table_lookup config key =
        (lastValue opts key).map fun v => ObActionValue.string (some v)) ∧
      (config.map Prod.fst).Nodup := by
  refine ⟨optionTable [] opts, ?_, ?_, optionTable_keys_nodup opts [] (by simp)⟩
  · obtain ⟨m, hk⟩ : ∃ m, 4 * (Token.IDENTIFIER name :: optionToks opts ++
        [Token.CHAR '\n']).length + 8 = (opts.length + m + 1 + 1 + 1) + 1 :=
      ⟨11 * opts.length + 12, by simp [optionToks_length]; omega⟩
    rw [hk, parse_list]
    rw [parse_list_loop_plain F name opts [Token.CHAR '\n'] (opts.length + m + 1 + 1) Token.EOF []
      LastPtr.NULL (ParseState.init _) rfl rfl (by decide) (by omega) rfl]
    have h1 := parse_list_loop_separators F Token.EOF (by decide) [Token.CHAR '\n'] []
      (opts.length + m + 1) (parse_list_append [] LastPtr.NULL
        [ObActionList.action name (optionTable [] opts)]).1 (parse_list_append [] LastPtr.NULL
        [ObActionList.action name (optionTable [] opts)]).2
      { ParseState.init (Token.IDENTIFIER name :: optionToks opts ++ [Token.CHAR '\n']) with
        toks := [Token.CHAR '\n'] } (by decide) rfl rfl
    simp only [List.length_singleton] at h1
    rw [h1, parse_list_loop_end _ _ _ _ _ _ (Or.inr (by rfl))]
    simp [parse_list_append, g_scanner_get_next_token, ParseState.init]
  · intro key
    rw [optionTable_lookup]
    cases lastValue opts key <;> simp [g_hash_table_lookup]


/-! ## Filter tests -/

/-- The filter-test parser on one test `t` followed by a token `sep` other than
`=`: the key, the value if there is one, and `sep` are read, and what is done
next depends on `sep`. -/
theorem parse_filter_test_step (F : String → Option ObActionValue → Bool)
    (hF : ∀ k v, F k v = true) (t : String × Option String) (sep : Token)
    (rest : List Token) (fuel : Nat) (s : ParseState) (he : s.e = false)
    (htoks : s.toks = testToks t ++ sep :: rest) (hsep : sep ≠ Token.CHAR '=')
    (hfuel : 1 ≤ fuel) :
    parse_filter_test F (fuel + 1) s =
      if sep = Token.CHAR ',' then
        (parse_filter_test F fuel { s with toks := rest }).bind fun r =>
          if r.2.e then some ([], r.2) else some (testNode t true :: r.1, r.2)
      else if sep = Token.CHAR '|' then
        (parse_filter_test F fuel { s with toks := rest }).bind fun r =>
          if r.2.e then some ([], r.2) else some (testNode t false :: r.1, r.2)
      else if sep = Token.CHAR ']' then some ([testNode t false], { s with toks := rest })
      else some ([], parse_error { s with toks := rest } (Token.CHAR ']') none) := by
  obtain ⟨fuel, rfl⟩ : ∃ f, fuel = f + 1 := ⟨fuel - 1, by omega⟩
  obtain ⟨key, value⟩ := t
  obtain ⟨sk, i1, i2, toks, msgs, e⟩ := s
  dsimp only at he htoks ⊢
  subst he
  rw [parse_filter_test]
  cases value with
  | none =>
    simp only [testToks, List.singleton_append] at htoks
    simp only [g_scanner_get_next_token, g_scanner_peek_next_token, htoks, List.headD_cons,
      List.tail_cons, hsep, if_false, hF, testNode]
    by_cases h1 : sep = Token.CHAR ','
    · subst h1
      cases h : parse_filter_test F (fuel + 1) ⟨sk, i1, i2, rest, msgs, false⟩ <;> simp [h]
    · by_cases h2 : sep = Token.CHAR '|'
      · subst h2
        cases h : parse_filter_test F (fuel + 1) ⟨sk, i1, i2, rest, msgs, false⟩ <;> simp [h]
      · by_cases h3 : sep = Token.CHAR ']'
        · subst h3; simp
        · simp [h1, h2, h3, parse_error]
  | some v =>
    simp only [testToks, List.cons_append, List.nil_append] at htoks
    simp only [g_scanner_get_next_token, g_scanner_peek_next_token, htoks, List.headD_cons,
      List.tail_cons, if_true, parse_value, action_value_new_string, hF, testNode]
    by_cases h1 : sep = Token.CHAR ','
    · subst h1
      cases h : parse_filter_test F (fuel + 1) ⟨sk, i1, i2, rest, msgs, false⟩ <;> simp [h]
    · by_cases h2 : sep = Token.CHAR '|'
      · subst h2
        cases h : parse_filter_test F (fuel + 1) ⟨sk, i1, i2, rest, msgs, false⟩ <;> simp [h]
      · by_cases h3 : sep = Token.CHAR ']'
        · subst h3; simp
        · simp [h1, h2, h3, parse_error]

theorem parse_filter_test_chain (F : String → Option ObActionValue → Bool)
    (hF : ∀ k v, F k v = true) (init : List ((String × Option String) × Bool)) :
    ∀ (last : String × Option String) (rest : List Token) (fuel : Nat) (s : ParseState),
      s.e = false → s.toks = filterToks init last ++ rest → init.length + 2 ≤ fuel →
      parse_filter_test F fuel s = some (filterChain init last, { s with toks := rest }) := by
  induction init with
  | nil =>
    intro last rest fuel s he htoks hfuel
    obtain ⟨fuel, rfl⟩ : ∃ f, fuel = f + 1 := ⟨fuel - 1, by simp at hfuel; omega⟩
    simp only [filterToks, List.append_assoc, List.singleton_append] at htoks
    rw [parse_filter_test_step F hF last _ rest fuel s he htoks (by decide)
      (by simp at hfuel; omega)]
    simp [filterChain]
  | cons ta init ih =>
    intro last rest fuel s he htoks hfuel
    obtain ⟨fuel, rfl⟩ : ∃ f, fuel = f + 1 := ⟨fuel - 1, by simp at hfuel; omega⟩
    simp only [filterToks, List.append_assoc, List.cons_append] at htoks
    rw [parse_filter_test_step F hF ta.1 _ _ fuel s he htoks
      (by cases ta.2 <;> simp [testSeparator]) (by simp at hfuel; omega)]
    obtain ⟨sk, i1, i2, toks, msgs, e⟩ := s
    dsimp only at he htoks ⊢
    subst he
    have h := ih last rest fuel ⟨sk, i1, i2, filterToks init last ++ rest, msgs, false⟩ rfl rfl
      (by simp at hfuel; omega)
    cases hb : ta.2 <;> simp [testSeparator, h, filterChain, hb]

theorem testSeparator_eq_comma (and : Bool) :
    testSeparator and = Token.CHAR ',' ↔ and = true := by
  cases and <;> simp [testSeparator]

/-- C5: with a filter factory that accepts every key, `parse_filter_test` on the
tokens `t1 s1 t2 s2 ... tn ]` (each test `key` or `key = value`, each separator
`,` or `|`, `n >= 1`) returns without error, having read up to the `]`, a chain
of exactly `n` test nodes in input order; node `i < n` has the filter of test
`i` and its `and` flag is set exactly when separator `i` is `,`; the last node
has the flag `FALSE` and ends the chain. -/
theorem parse_filter_test_builds_chain (F : String → Option ObActionValue → Bool)
    (hF : ∀ k v, F k v = true) (init : List ((String × Option String) × Bool))
    (last : String × Option String) (rest : List Token) (fuel : Nat) (s : ParseState)
    (he : s.e = false) (htoks : s.toks = filterToks init last ++ rest)
    (hfuel : init.length + 2 ≤ fuel) :
    parse_filter_test F fuel s =
        some (init.map (fun ta => testNode ta.1 ta.2) ++ [testNode last false],
          { s with toks := rest }) ∧
      (init.map (fun ta => testNode ta.1 ta.2) ++ [testNode last false]).length =
        init.length + 1 ∧
      (∀ ta ∈ init, (testSeparator ta.2 = Token.CHAR ',' ↔ ta.2 = true)) := by
  refine ⟨?_, by simp, fun ta _ => testSeparator_eq_comma ta.2⟩
  exact parse_filter_test_chain F hF init last rest fuel s he htoks hfuel

theorem parse_filter_test_builds_chain_witness :
    (∀ k v, (fun (_ : String) (_ : Option ObActionValue) => true) k v = true) ∧
    (ParseState.init [Token.IDENTIFIER "desktop", Token.CHAR '=', Token.IDENTIFIER "1",
      Token.CHAR ',', Token.IDENTIFIER "maximized", Token.CHAR ']',
      Token.IDENTIFIER "action"]).e = false ∧
    (ParseState.init [Token.IDENTIFIER "desktop", Token.CHAR '=', Token.IDENTIFIER "1",
      Token.CHAR ',', Token.IDENTIFIER "maximized", Token.CHAR ']',
      Token.IDENTIFIER "action"]).toks =
      filterToks [(("desktop", some "1"), true)] ("maximized", none) ++
        [Token.IDENTIFIER "action"] ∧
    [(("desktop", some "1"), true)].length + 2 ≤ 3 ∧
    (parse_filter_test (fun _ _ => true) 3
        (ParseState.init [Token.IDENTIFIER "desktop", Token.CHAR '=', Token.IDENTIFIER "1",
          Token.CHAR ',', Token.IDENTIFIER "maximized", Token.CHAR ']',
          Token.IDENTIFIER "action"]) =
        some ([(("desktop", some "1"), true)].map (fun ta => testNode ta.1 ta.2) ++
            [testNode ("maximized", none) false],
          { ParseState.init [Token.IDENTIFIER "desktop", Token.CHAR '=', Token.IDENTIFIER "1",
              Token.CHAR ',', Token.IDENTIFIER "maximized", Token.CHAR ']',
              Token.IDENTIFIER "action"] with toks := [Token.IDENTIFIER "action"] }) ∧
      ([(("desktop", some "1"), true)].map (fun ta => testNode ta.1 ta.2) ++
          [testNode ("maximized", none) false]).length =
        [(("desktop", some "1"), true)].length + 1 ∧
      (∀ ta ∈ [(("desktop", some "1"), true)],
        (testSeparator ta.2 = Token.CHAR ',' ↔ ta.2 = true))) :=
  ⟨fun _ _ => rfl, rfl, rfl, by decide,
    parse_filter_test_builds_chain (fun _ _ => true) (fun _ _ => rfl)
      [(("desktop", some "1"), true)] ("maximized", none) [Token.IDENTIFIER "action"] 3
      (ParseState.init [Token.IDENTIFIER "desktop", Token.CHAR '=', Token.IDENTIFIER "1",
        Token.CHAR ',', Token.IDENTIFIER "maximized", Token.CHAR ']',
        Token.IDENTIFIER "action"]) rfl rfl (by decide)⟩

/-! ## Conditionals -/

/-- C4: with a filter factory that accepts every key, `parse_action` on
`[ tests ] A1 | A2`, where `tests` is `t1 s1 ... tn` and `A1`, `A2` are plain
actions, `A2` being followed by a token that ends its options, returns without
error one filter-set node whose test is the chain of `tests`, whose `thendo` is
the Action of `A1` and whose `elsedo` is the Action of `A2`; on `[ tests ] A1`
followed by a token that ends the options of `A1` and is not `|`, `elsedo` is
`NULL` and that token is the next one to be read. -/
theorem parse_action_conditional (F : String → Option ObActionValue → Bool)
    (hF : ∀ k v, F k v = true) (init : List ((String × Option String) × Bool))
    (last : String × Option String) (name1 name2 : String)
    (opts1 opts2 : List (String × String)) (rest : List Token) (fuel : Nat) (s : ParseState)
    (he : s.e = false) (hstop : (rest.headD Token.EOF).endsOptions = true)
    (hfuel : init.length + 4 ≤ fuel ∧ opts1.length + 4 ≤ fuel ∧ opts2.length + 4 ≤ fuel) :
    (s.toks = Token.CHAR '[' :: filterToks init last ++
        (Token.IDENTIFIER name1 :: optionToks opts1 ++
          Token.CHAR '|' :: (Token.IDENTIFIER name2 :: optionToks opts2 ++ rest)) →
      parse_action F fuel s =
        some ([ObActionList.filterset (filterChain init last)
            [ObActionList.action name1 (optionTable [] opts1)]
            [ObActionList.action name2 (optionTable [] opts2)]],
          { s with toks := rest })) ∧
    (s.toks = Token.CHAR '[' :: filterToks init last ++
        (Token.IDENTIFIER name1 :: optionToks opts1 ++ rest) →
      rest.headD Token.EOF ≠ Token.CHAR '|' →
      parse_action F fuel s =
        some ([ObActionList.filterset (filterChain init last)
            [ObActionList.action name1 (optionTable [] opts1)] []],
          { s with toks := rest })) := by
  obtain ⟨fuel, rfl⟩ : ∃ f, fuel = f + 1 + 1 := ⟨fuel - 2, by omega⟩
  obtain ⟨sk, i1, i2, toks, msgs, e⟩ := s
  dsimp only at he ⊢
  subst he
  constructor
  · intro htoks
    subst htoks
    rw [parse_action]
    simp only [g_scanner_get_next_token, List.headD_cons, List.tail_cons, List.cons_append,
      if_true, parse_filter]
    rw [parse_filter_test_chain F hF init last _ fuel
      ⟨sk, i1, i2, filterToks init last ++ (Token.IDENTIFIER name1 :: (optionToks opts1 ++
        Token.CHAR '|' :: Token.IDENTIFIER name2 :: (optionToks opts2 ++ rest))), msgs, false⟩
      rfl rfl (by omega)]
    simp only [Bool.false_eq_true, if_false]
    rw [parse_action_plain F name1 opts1 (Token.CHAR '|' :: Token.IDENTIFIER name2 ::
        (optionToks opts2 ++ rest)) fuel _ rfl rfl (by simp [Token.endsOptions]) (by omega)]
    simp only [g_scanner_peek_next_token, List.headD_cons, List.tail_cons]
    have h := parse_action_plain F name2 opts2 rest fuel
      ⟨sk, i1, i2, Token.IDENTIFIER name2 :: optionToks opts2 ++ rest, msgs, false⟩ rfl rfl
      hstop (by omega)
    simp at h
    simp [h]
  · intro htoks hbar
    subst htoks
    rw [parse_action]
    simp only [g_scanner_get_next_token, List.headD_cons, List.tail_cons, List.cons_append,
      if_true, parse_filter]
    rw [parse_filter_test_chain F hF init last _ fuel
      ⟨sk, i1, i2, filterToks init last ++ (Token.IDENTIFIER name1 :: (optionToks opts1 ++
        rest)), msgs, false⟩ rfl rfl (by omega)]
    simp only [Bool.false_eq_true, if_false]
    rw [parse_action_plain F name1 opts1 rest fuel _ rfl rfl hstop (by omega)]
    simp only [g_scanner_peek_next_token, hbar, and_false, if_false]

theorem parse_action_conditional_witness :
    parse_action (fun _ _ => true) 4
        (ParseState.init [Token.CHAR '[', Token.IDENTIFIER "desktop", Token.CHAR '=',
          Token.IDENTIFIER "1", Token.CHAR ']', Token.IDENTIFIER "focus", Token.CHAR '|',
          Token.IDENTIFIER "iconify", Token.CHAR '\n']) =
      some ([ObActionList.filterset
            [ObActionListTest.mk "desktop" (some (ObActionValue.string (some "1"))) false]
            [ObActionList.action "focus" []] [ObActionList.action "iconify" []]],
        ParseState.init [Token.CHAR '\n']) ∧
    parse_action (fun _ _ => true) 4
        (ParseState.init [Token.CHAR '[', Token.IDENTIFIER "desktop", Token.CHAR '=',
          Token.IDENTIFIER "1", Token.CHAR ']', Token.IDENTIFIER "focus", Token.CHAR '\n']) =
      some ([ObActionList.filterset
            [ObActionListTest.mk "desktop" (some (ObActionValue.string (some "1"))) false]
            [ObActionList.action "focus" []] []],
        ParseState.init [Token.CHAR '\n']) :=
  ⟨(parse_action_conditional (fun _ _ => true) (fun _ _ => rfl) [] ("desktop", some "1")
      "focus" "iconify" [] [] [Token.CHAR '\n'] 4 _ rfl (by decide) (by decide)).1 rfl,
    (parse_action_conditional (fun _ _ => true) (fun _ _ => rfl) [] ("desktop", some "1")
      "focus" "iconify" [] [] [Token.CHAR '\n'] 4 _ rfl (by decide) (by decide)).2 rfl
      (by decide)⟩

/-! ## String literals -/

theorem push_eq_append_singleton (buf : String) (c : Char) :
    buf.push c = buf ++ String.singleton c := by
  apply String.ext
  simp [String.singleton]

theorem strchr_ESCAPE_SEQS_of_wellFormed (end_ c : Char)
    (h : (LiteralItem.escape c).wellFormed end_ = true) :
    end_ ≠ '\\' ∧ strchr_ESCAPE_SEQS (Token.CHAR c) = true := by
  simp only [LiteralItem.wellFormed, Bool.and_eq_true, bne_iff_ne, ne_eq, Bool.or_eq_true,
    beq_iff_eq] at h
  refine ⟨h.1, ?_⟩
  rcases h.2 with (h | h) | h <;> subst h <;> decide

theorem Token.isEnd_CHAR (end_ c : Char) : (Token.CHAR c).isEnd end_ = (c == end_) := by
  unfold Token.isEnd
  have h1 : (Token.CHAR c == Token.EOF) = false := by simp
  rw [h1, Bool.false_and, Bool.or_false]
  by_cases h : c = end_
  · subst h
    simp
  · simp [h]

theorem Token.isEnd_IDENTIFIER (end_ : Char) (v_string : String) :
    (Token.IDENTIFIER v_string).isEnd end_ = false := by
  simp [Token.isEnd]

theorem Token.isEnd_OTHER (end_ : Char) (code : Nat) :
    (Token.OTHER code).isEnd end_ = false := by
  simp [Token.isEnd]

theorem Token.isEnd_EOF (end_ : Char) : Token.EOF.isEnd end_ = (end_ == Char.ofNat 0) := by
  simp [Token.isEnd]

/-- The loop of `parse_string` on the terminator. -/
theorem parse_string_loop_end (end_ : Char) (rest : List Token) (buf : String) :
    parse_string_loop end_ (Token.CHAR end_ :: rest) buf = (Except.ok buf, rest) := by
  cases rest <;> simp [parse_string_loop, Token.isEnd]

/-- The loop of `parse_string` at the end of the input. -/
theorem parse_string_loop_nil (end_ : Char) (buf : String) :
    parse_string_loop end_ [] buf =
      if end_ = Char.ofNat 0 then (Except.ok buf, [])
      else (Except.error "Missing end of quoted string", []) := by
  simp [parse_string_loop, Token.isEnd]

/-- The loop of `parse_string` on a token that is not a backslash. -/
theorem parse_string_loop_cons (end_ : Char) (t : Token) (rest : List Token) (buf : String)
    (ht : t ≠ Token.CHAR '\\') :
    parse_string_loop end_ (t :: rest) buf =
      if t.isEnd end_ then (Except.ok buf, rest)
      else match t with
        | Token.IDENTIFIER v_string => parse_string_loop end_ rest (buf ++ v_string)
        | Token.EOF => (Except.error "Missing end of quoted string", rest)
        | t => parse_string_loop end_ rest (buf.push t.toChar) := by
  cases t with
  | CHAR c =>
    have hc : c ≠ '\\' := fun h => ht (by rw [h])
    cases rest <;> simp [parse_string_loop, hc, Token.toChar]
  | EOF => cases rest <;> simp [parse_string_loop]
  | IDENTIFIER v => cases rest <;> simp [parse_string_loop]
  | OTHER n => cases rest <;> simp [parse_string_loop]

/-- The loop of `parse_string` on a backslash that is followed by a token. -/
theorem parse_string_loop_escape (end_ : Char) (hend : end_ ≠ '\\') (t2 : Token)
    (rest2 : List Token) (buf : String) :
    parse_string_loop end_ (Token.CHAR '\\' :: t2 :: rest2) buf =
      if strchr_ESCAPE_SEQS t2 then parse_string_loop end_ rest2 (buf.push t2.toChar)
      else (Except.error "Unknown escape sequence", rest2) := by
  have hne : ¬ ('\\' = end_) := fun h2 => hend h2.symm
  rw [parse_string_loop]
  simp [Token.isEnd, hne]

/-- The loop of `parse_string` on a backslash at the end of the input. -/
theorem parse_string_loop_escape_nil (end_ : Char) (hend : end_ ≠ '\\') (buf : String) :
    parse_string_loop end_ [Token.CHAR '\\'] buf =
      if end_ = Char.ofNat 0 then (Except.ok (buf.push (Char.ofNat 0)), [])
      else (Except.error "Missing end of quoted string", []) := by
  have hne : ¬ ('\\' = end_) := fun h2 => hend h2.symm
  rw [parse_string_loop]
  simp [Token.isEnd, hne, Token.toChar]

theorem parse_string_loop_literal (end_ : Char) (items : List LiteralItem) :
    ∀ (buf : String), (∀ i ∈ items, i.wellFormed end_ = true) →
      (∀ rest, parse_string_loop end_ (literalToks items ++ Token.CHAR end_ :: rest) buf =
        (Except.ok (literalText buf items), rest)) ∧
      parse_string_loop end_ (literalToks items) buf =
        if end_ = Char.ofNat 0 then (Except.ok (literalText buf items), [])
        else (Except.error "Missing end of quoted string", []) := by
  induction items with
  | nil =>
    intro buf _
    constructor
    · intro rest
      simp [literalToks, literalText, parse_string_loop_end]
    · simp [literalToks, literalText, parse_string_loop_nil]
  | cons i items ih =>
    intro buf hwf
    have hi : i.wellFormed end_ = true := hwf i (List.mem_cons_self _ _)
    have hitems : ∀ j ∈ items, j.wellFormed end_ = true :=
      fun j hj => hwf j (List.mem_cons_of_mem _ hj)
    cases i with
    | lexeme v =>
      have h := ih (buf ++ v) hitems
      have hv : Token.IDENTIFIER v ≠ Token.CHAR '\\' := by simp
      constructor
      · intro rest
        simp [literalToks, literalText, LiteralItem.toks, LiteralItem.text,
          parse_string_loop_cons _ _ _ _ hv, Token.isEnd_IDENTIFIER, h.1]
      · simp [literalToks, literalText, LiteralItem.toks, LiteralItem.text,
          parse_string_loop_cons _ _ _ _ hv, Token.isEnd_IDENTIFIER, h.2]
    | single c =>
      simp only [LiteralItem.wellFormed, Bool.and_eq_true, bne_iff_ne, ne_eq] at hi
      have h := ih (buf ++ String.singleton c) hitems
      have hc : Token.CHAR c ≠ Token.CHAR '\\' := by simpa using hi.2
      constructor
      · intro rest
        simp [literalToks, literalText, LiteralItem.toks, LiteralItem.text,
          parse_string_loop_cons _ _ _ _ hc, Token.isEnd_CHAR, hi.1, Token.toChar,
          push_eq_append_singleton, h.1]
      · simp [literalToks, literalText, LiteralItem.toks, LiteralItem.text,
          parse_string_loop_cons _ _ _ _ hc, Token.isEnd_CHAR, hi.1,
          Token.toChar, push_eq_append_singleton, h.2]
    | escape c =>
      obtain ⟨hend, hc⟩ := strchr_ESCAPE_SEQS_of_wellFormed end_ c hi
      have h := ih (buf ++ String.singleton c) hitems
      constructor
      · intro rest
        simp [literalToks, literalText, LiteralItem.toks, LiteralItem.text,
          parse_string_loop_escape _ hend, hc, Token.toChar,
          push_eq_append_singleton, h.1]
      · simp [literalToks, literalText, LiteralItem.toks, LiteralItem.text,
          parse_string_loop_escape _ hend, hc, Token.toChar,
          push_eq_append_singleton, h.2]

/-- The loop of `parse_string`, for a terminator other than NUL, on tokens among
which the terminator does not occur ends on the `parse_string_error` exit. -/
theorem parse_string_loop_no_terminator (end_ : Char) (hnul : end_ ≠ Char.ofNat 0) (n : Nat) :
    ∀ (toks : List Token) (buf : String), toks.length ≤ n → Token.CHAR end_ ∉ toks →
      ∃ m rest, parse_string_loop end_ toks buf = (Except.error m, rest) := by
  induction n with
  | zero =>
    intro toks buf hlen _
    have : toks = [] := List.length_eq_zero.mp (Nat.le_zero.mp hlen)
    subst this
    exact ⟨"Missing end of quoted string", [], by simp [parse_string_loop_nil, hnul]⟩
  | succ n ih =>
    intro toks buf hlen hmem
    cases toks with
    | nil => exact ⟨"Missing end of quoted string", [], by simp [parse_string_loop_nil, hnul]⟩
    | cons t rest =>
      have hrest : Token.CHAR end_ ∉ rest := fun h => hmem (List.mem_cons_of_mem _ h)
      have ht : t ≠ Token.CHAR end_ := fun h => hmem (by rw [h]; exact List.mem_cons_self _ _)
      have htend : t.isEnd end_ = false := by
        cases t with
        | EOF => simp [Token.isEnd, hnul]
        | IDENTIFIER v => simp [Token.isEnd]
        | CHAR c => simpa [Token.isEnd] using ht
        | OTHER k => simp [Token.isEnd]
      have hlen2 : rest.length ≤ n := by simpa using hlen
      by_cases hbs : t = Token.CHAR '\\'
      · subst hbs
        have hne : ¬ ('\\' = end_) := fun h => ht (by rw [h])
        cases rest with
        | nil =>
          exact ⟨"Missing end of quoted string", [],
            by simp [parse_string_loop_escape_nil end_ (fun h => hne h.symm), hnul]⟩
        | cons t2 rest2 =>
          have hrest2 : Token.CHAR end_ ∉ rest2 := fun h => hrest (List.mem_cons_of_mem _ h)
          have hlen3 : rest2.length ≤ n := by
            simp only [List.length_cons] at hlen2
            omega
          rw [parse_string_loop_escape end_ (fun h => hne h.symm)]
          by_cases hs : strchr_ESCAPE_SEQS t2 = true
          · simpa [hs] using ih rest2 _ hlen3 hrest2
          · exact ⟨"Unknown escape sequence", rest2, by simp [hs]⟩
      · rw [parse_string_loop_cons end_ t rest buf hbs]
        simp only [htend, Bool.false_eq_true, if_false]
        cases t with
        | EOF => exact ⟨_, _, rfl⟩
        | IDENTIFIER v => exact ih rest _ hlen2 hrest
        | CHAR c => exact ih rest _ hlen2 hrest
        | OTHER k => exact ih rest _ hlen2 hrest

/-- C7: for every terminator and literal text whose single characters are
neither the terminator nor a backslash and whose backslashes are each followed
by `"`, `(` or `)`: when the terminator follows the text, `parse_string` returns
the concatenation of the text in order (lexemes whole, other characters singly,
of an escape pair only the escaped character), has read exactly up to and
including the terminator, sets no error and emits no diagnostic.  When the end
of the input is read before the terminator, which is the case when the input
ends after the text and the terminator is not NUL, `parse_string` returns
`NULL`, sets the error flag and emits "Missing end of quoted string"; and on any
tokens among which a terminator other than NUL does not occur at all,
`parse_string` returns `NULL` and sets the error flag.  The end-of-input token
is 0: for the terminator NUL, which no caller passes, it is the terminator
itself, and the text before the end of the input is returned without error. -/
theorem parse_string_literal (end_ : Char) (items : List LiteralItem)
    (hwf : ∀ i ∈ items, i.wellFormed end_ = true) (s : ParseState) :
    (∀ rest, s.toks = literalToks items ++ Token.CHAR end_ :: rest →
      parse_string end_ s =
        (some (literalText "" items),
          { s with
            toks := rest
            cset_skip_characters := SKIP
            cset_identifier_first := IDENTIFIER_FIRST
            cset_identifier_nth := IDENTIFIER_NTH })) ∧
    (end_ ≠ Char.ofNat 0 → s.toks = literalToks items →
      parse_string end_ s =
        (none,
          { s with
            toks := []
            cset_skip_characters := ""
            cset_identifier_first := IDENTIFIER_NTH ++ " "
            cset_identifier_nth := IDENTIFIER_NTH ++ " "
            msgs := s.msgs ++ [⟨G_TOKEN_NONE, some "Missing end of quoted string"⟩]
            e := true })) ∧
    (end_ ≠ Char.ofNat 0 → ∀ s2 : ParseState, Token.CHAR end_ ∉ s2.toks →
      (parse_string end_ s2).1 = none ∧ (parse_string end_ s2).2.e = true) ∧
    (end_ = Char.ofNat 0 → s.toks = literalToks items →
      parse_string end_ s =
        (some (literalText "" items),
          { s with
            toks := []
            cset_skip_characters := SKIP
            cset_identifier_first := IDENTIFIER_FIRST
            cset_identifier_nth := IDENTIFIER_NTH })) := by
  have h := parse_string_loop_literal end_ items "" hwf
  refine ⟨?_, ?_, ?_, ?_⟩
  · intro rest htoks
    simp [parse_string, htoks, h.1]
  · intro hnul htoks
    simp [parse_string, htoks, h.2, hnul]
  · intro hnul s2 hmem
    obtain ⟨m, rest, hm⟩ := parse_string_loop_no_terminator end_ hnul s2.toks.length s2.toks ""
      (Nat.le_refl _) hmem
    simp [parse_string, hm]
  · intro hnul htoks
    subst hnul
    simp [parse_string, htoks, h.2]

theorem parse_string_literal_witness :
    parse_string '"'
        (ParseState.init [Token.IDENTIFIER "a", Token.CHAR '\\', Token.CHAR '"',
          Token.IDENTIFIER "b", Token.CHAR '"', Token.CHAR '\n']) =
      (some "a\"b", ParseState.init [Token.CHAR '\n']) ∧
    parse_string '"' (ParseState.init [Token.IDENTIFIER "abc"]) =
      (none,
        { cset_skip_characters := ""
          cset_identifier_first := IDENTIFIER_NTH ++ " "
          cset_identifier_nth := IDENTIFIER_NTH ++ " "
          toks := []
          msgs := [⟨G_TOKEN_NONE, some "Missing end of quoted string"⟩]
          e := true }) ∧
    ((parse_string '"' (ParseState.init [Token.IDENTIFIER "abc", Token.CHAR '\\'])).1 = none ∧
      (parse_string '"' (ParseState.init [Token.IDENTIFIER "abc", Token.CHAR '\\'])).2.e =
        true) ∧
    parse_string (Char.ofNat 0) (ParseState.init [Token.IDENTIFIER "abc"]) =
      (some "abc", ParseState.init []) :=
  ⟨(parse_string_literal '"'
      [LiteralItem.lexeme "a", LiteralItem.escape '"', LiteralItem.lexeme "b"] (by decide)
      (ParseState.init [Token.IDENTIFIER "a", Token.CHAR '\\', Token.CHAR '"',
          Token.IDENTIFIER "b", Token.CHAR '"', Token.CHAR '\n'])).1 [Token.CHAR '\n'] rfl,
    (parse_string_literal '"' [LiteralItem.lexeme "abc"] (by decide)
      (ParseState.init [Token.IDENTIFIER "abc"])).2.1 (by decide) rfl,
    (parse_string_literal '"' [] (by decide) (ParseState.init [])).2.2.1 (by decide)
      (ParseState.init [Token.IDENTIFIER "abc", Token.CHAR '\\']) (by decide),
    (parse_string_literal (Char.ofNat 0) [LiteralItem.lexeme "abc"] (by decide)
      (ParseState.init [Token.IDENTIFIER "abc"])).2.2.2 rfl rfl⟩

/-- C6 (what the code does): a doubled backslash inside a literal is not
accepted.  On the literal text `a\\b"` the function `parse_string` returns
`NULL`, sets the error flag and reports "Unknown escape sequence", having read
up to the second backslash; the characters `strchr` finds in `ESCAPE_SEQS` are
`"`, `(`, `)` and the terminating NUL, not the backslash. -/
theorem parse_string_rejects_escaped_backslash :
    parse_string '"'
        (ParseState.init [Token.IDENTIFIER "a", Token.CHAR '\\', Token.CHAR '\\',
          Token.IDENTIFIER "b", Token.CHAR '"']) =
      (none,
        { cset_skip_characters := ""
          cset_identifier_first := IDENTIFIER_NTH ++ " "
          cset_identifier_nth := IDENTIFIER_NTH ++ " "
          toks := [Token.IDENTIFIER "b", Token.CHAR '"']
          msgs := [⟨G_TOKEN_NONE, some "Unknown escape sequence"⟩]
          e := true }) ∧
    (∀ c : Char, strchr_ESCAPE_SEQS (Token.CHAR c) = true ↔
      c = '"' ∨ c = '(' ∨ c = ')' ∨ c = Char.ofNat 0) := by
  refine ⟨by decide, fun c => ?_⟩
  simp only [strchr_ESCAPE_SEQS, Token.toChar, Bool.or_eq_true, beq_iff_eq]
  have : ESCAPE_SEQS.toList = ['"', '(', ')'] := by decide
  rw [this]
  simp only [List.contains_cons, List.contains_nil, Bool.or_false, Bool.or_eq_true, beq_iff_eq]
  tauto

/-- C8 (what the code does): on the `parse_string_error` exit the scanner
configuration is not reset.  After `parse_string` has failed on the unterminated
literal `abc` the three character sets are those of literal mode, which differ
from the ones `action_parser_new` installs. -/
theorem parse_string_error_leaves_literal_mode :
    (parse_string '"' (ParseState.init [Token.IDENTIFIER "abc"])).1 = none ∧
    (parse_string '"' (ParseState.init [Token.IDENTIFIER "abc"])).2.cset_skip_characters = "" ∧
    (parse_string '"' (ParseState.init [Token.IDENTIFIER "abc"])).2.cset_identifier_first =
      IDENTIFIER_NTH ++ " " ∧
    (parse_string '"' (ParseState.init [Token.IDENTIFIER "abc"])).2.cset_identifier_nth =
      IDENTIFIER_NTH ++ " " ∧
    (parse_string '"' (ParseState.init [Token.IDENTIFIER "abc"])).2.cset_skip_characters ≠
      (ParseState.init []).cset_skip_characters := by
  decide

/-! ## Errors at top level -/

/-- The option loop on well-formed options that are followed by more input: the
options are stored and the loop goes on behind them. -/
theorem parse_action_options_leading (F : String → Option ObActionValue → Bool)
    (opts : List (String × String)) :
    ∀ (rest : List Token) (fuel : Nat) (config : List (String × ObActionValue))
      (s : ParseState), s.e = false → s.toks = optionToks opts ++ rest → 1 ≤ fuel →
      parse_action_options F (fuel + opts.length) config s =
        parse_action_options F fuel (optionTable config opts) { s with toks := rest } := by
  induction opts with
  | nil =>
    intro rest fuel config s he htoks hfuel
    obtain ⟨sk, i1, i2, toks, msgs, e⟩ := s
    dsimp only at he htoks ⊢
    subst he
    simp only [optionToks, List.nil_append] at htoks
    subst htoks
    rfl
  | cons kv opts ih =>
    intro rest fuel config s he htoks hfuel
    obtain ⟨fuel, rfl⟩ : ∃ f, fuel = f + 1 := ⟨fuel - 1, by omega⟩
    obtain ⟨sk, i1, i2, toks, msgs, e⟩ := s
    dsimp only at he htoks ⊢
    subst he
    simp only [optionToks, List.cons_append] at htoks
    subst htoks
    rw [List.length_cons, ← Nat.add_assoc, parse_action_options]
    have hf : fuel + 1 + opts.length = (fuel + opts.length) + 1 := by omega
    simp only [g_scanner_peek_next_token, g_scanner_get_next_token, List.headD_cons,
      List.tail_cons, hf, parse_value, action_value_new_string]
    simp only [ne_eq, not_true_eq_false, if_false, Bool.false_eq_true, optionTable]
    rw [← hf]
    exact ih rest (fuel + 1)
      (g_hash_table_replace config kv.1 (ObActionValue.string (some kv.2)))
      ⟨sk, i1, i2, optionToks opts ++ rest, msgs, false⟩ rfl rfl (by omega)

/-- C1 (what the code does at the input of the claim): on `raise title:"abc`,
whose literal is not terminated, the top-level `parse_list` sets the error flag
and `action_parser_read_string` returns a chain that is not `NULL`: the Action
node `raise`, with `title` bound to a string value without text. -/
theorem read_string_unterminated_literal_not_null :
    (parse_list (fun _ _ => true)
        (4 * [Token.IDENTIFIER "raise", Token.IDENTIFIER "title", Token.CHAR ':',
          Token.CHAR '"', Token.IDENTIFIER "abc"].length + 8) Token.EOF
        (ParseState.init [Token.IDENTIFIER "raise", Token.IDENTIFIER "title", Token.CHAR ':',
          Token.CHAR '"', Token.IDENTIFIER "abc"])).map (fun r => r.2.e) = some true ∧
    action_parser_read_string (fun _ _ => true)
        [Token.IDENTIFIER "raise", Token.IDENTIFIER "title", Token.CHAR ':', Token.CHAR '"',
          Token.IDENTIFIER "abc"] =
      some [ObActionList.action "raise" [("title", ObActionValue.string none)]] ∧
    action_parser_read_string (fun _ _ => true)
        [Token.IDENTIFIER "raise", Token.IDENTIFIER "title", Token.CHAR ':', Token.CHAR '"',
          Token.IDENTIFIER "abc"] ≠ some [] :=
  ⟨rfl, rfl, fun h => by simp [show action_parser_read_string (fun _ _ => true)
        [Token.IDENTIFIER "raise", Token.IDENTIFIER "title", Token.CHAR ':', Token.CHAR '"',
          Token.IDENTIFIER "abc"] =
      some [ObActionList.action "raise" [("title", ObActionValue.string none)]] from rfl] at h⟩

theorem parse_string_unterminated (end_ : Char) (hnul : end_ ≠ Char.ofNat 0)
    (items : List LiteralItem) (hwf : ∀ i ∈ items, i.wellFormed end_ = true)
    (sk i1 i2 : String) (msgs : List Diagnostic) (e : Bool) :
    parse_string end_ ⟨sk, i1, i2, literalToks items, msgs, e⟩ =
      (none, ⟨"", IDENTIFIER_NTH ++ " ", IDENTIFIER_NTH ++ " ", [],
        msgs ++ [⟨G_TOKEN_NONE, some "Missing end of quoted string"⟩], true⟩) := by
  have h := parse_string_loop_literal end_ items "" hwf
  simp [parse_string, h.2, hnul]

theorem parse_list_loop_unterminated_literal (F : String → Option ObActionValue → Bool)
    (name key : String) (opts : List (String × String)) (items : List LiteralItem)
    (hwf : ∀ i ∈ items, i.wellFormed '"' = true) (m : Nat) (first : List ObActionList)
    (last : LastPtr) (sk i1 i2 : String) (msgs : List Diagnostic) :
    parse_list_loop F (m + 1 + 1 + opts.length + 1 + 1) Token.EOF first last
        ⟨sk, i1, i2, Token.IDENTIFIER name :: optionToks opts ++
          Token.IDENTIFIER key :: Token.CHAR ':' :: Token.CHAR '"' :: literalToks items,
          msgs, false⟩ =
      some ((parse_list_append first last [ObActionList.action name
          (g_hash_table_replace (optionTable [] opts) key (ObActionValue.string none))]).1,
        ⟨"", IDENTIFIER_NTH ++ " ", IDENTIFIER_NTH ++ " ", [],
          msgs ++ [⟨G_TOKEN_NONE, some "Missing end of quoted string"⟩], true⟩) := by
  have hact : parse_action F (m + 1 + 1 + opts.length + 1)
      ⟨sk, i1, i2, Token.IDENTIFIER name :: optionToks opts ++
        Token.IDENTIFIER key :: Token.CHAR ':' :: Token.CHAR '"' :: literalToks items,
        msgs, false⟩ =
      some ([ObActionList.action name
          (g_hash_table_replace (optionTable [] opts) key (ObActionValue.string none))],
        ⟨"", IDENTIFIER_NTH ++ " ", IDENTIFIER_NTH ++ " ", [],
          msgs ++ [⟨G_TOKEN_NONE, some "Missing end of quoted string"⟩], true⟩) := by
    rw [parse_action]
    simp only [g_scanner_get_next_token, List.headD_cons, List.cons_append, List.tail_cons]
    rw [parse_action_options_leading F opts _ (m + 1 + 1) [] _ rfl rfl (by omega)]
    rw [parse_action_options]
    simp only [g_scanner_peek_next_token, g_scanner_get_next_token, List.headD_cons,
      List.tail_cons, parse_value]
    simp [parse_string_unterminated '"' (by decide) items hwf, action_value_new_string]
  rw [parse_list_loop]
  simp only [List.cons_append] at hact
  simp [g_scanner_peek_next_token, Token.isIdentifier, hact, g_scanner_get_next_token]

/-- C1 (amended): when the error flag is set during the top-level `parse_list`,
`action_parser_read_string` returns the chain linked so far.  For every action
`name k1:v1 ... kn:vn key:"text` whose last option value is a literal that is not
terminated, the flag is set and the chain returned is the one Action node
`name`, so it is not `NULL`.  The chain returned is `NULL` when the flag is set
before a node is linked: when the first token after leading separators is none
of an identifier, `[`, `{`, a separator or the end of input. -/
theorem read_string_on_error (F : String → Option ObActionValue → Bool) :
    (∀ (name key : String) (opts : List (String × String)) (items : List LiteralItem),
      (∀ i ∈ items, i.wellFormed '"' = true) →
      ∃ config s',
        parse_list F
            (4 * (Token.IDENTIFIER name :: optionToks opts ++ Token.IDENTIFIER key ::
              Token.CHAR ':' :: Token.CHAR '"' :: literalToks items).length + 8) Token.EOF
            (ParseState.init (Token.IDENTIFIER name :: optionToks opts ++
              Token.IDENTIFIER key :: Token.CHAR ':' :: Token.CHAR '"' :: literalToks items)) =
          some ([ObActionList.action name config], s') ∧
        s'.e = true ∧
        action_parser_read_string F (Token.IDENTIFIER name :: optionToks opts ++
            Token.IDENTIFIER key :: Token.CHAR ':' :: Token.CHAR '"' :: literalToks items) =
          some [ObActionList.action name config]) ∧
    (∀ (seps : List Token) (t : Token) (rest : List Token),
      (∀ u ∈ seps, u.isSeparator = true) → t.isUnexpected = true →
      ∃ s',
        parse_list F (4 * (seps ++ t :: rest).length + 8) Token.EOF
            (ParseState.init (seps ++ t :: rest)) = some ([], s') ∧
        s'.e = true ∧
        action_parser_read_string F (seps ++ t :: rest) = some []) := by
  constructor
  · intro name key opts items hwf
    obtain ⟨m, hm⟩ : ∃ m, 4 * (Token.IDENTIFIER name :: optionToks opts ++ Token.IDENTIFIER key ::
        Token.CHAR ':' :: Token.CHAR '"' :: literalToks items).length + 8 =
        (m + 1 + 1 + opts.length + 1 + 1) + 1 :=
      ⟨4 * (Token.IDENTIFIER name :: optionToks opts ++ Token.IDENTIFIER key ::
        Token.CHAR ':' :: Token.CHAR '"' :: literalToks items).length + 8 - opts.length - 5,
        by simp [optionToks_length]; omega⟩
    have h := parse_list_loop_unterminated_literal F name key opts items hwf m [] LastPtr.NULL
      SKIP IDENTIFIER_FIRST IDENTIFIER_NTH []
    refine ⟨g_hash_table_replace (optionTable [] opts) key (ObActionValue.string none),
      ⟨"", IDENTIFIER_NTH ++ " ", IDENTIFIER_NTH ++ " ", [],
        [] ++ [⟨G_TOKEN_NONE, some "Missing end of quoted string"⟩], true⟩, ?_, rfl, ?_⟩
    · rw [hm, parse_list]
      exact h
    · rw [action_parser_read_string, hm, parse_list]
      simp only [ParseState.init]
      rw [h]
      rfl
  · intro seps t rest hseps ht
    simp only [Token.isUnexpected, Bool.and_eq_true, bne_iff_ne, ne_eq, Bool.not_eq_true,
      Bool.not_eq_eq_eq_not, Bool.not_true] at ht
    obtain ⟨⟨⟨⟨h1, h2⟩, h3⟩, h4⟩, h5⟩ := ht
    have hsep : ¬ (t = Token.CHAR '\n' ∨ t = Token.CHAR ';') := by
      simpa [Token.isSeparator] using h2
    obtain ⟨m, hm⟩ : ∃ m, 4 * (seps ++ t :: rest).length + 8 = (m + 1 + seps.length) + 1 :=
      ⟨4 * (seps ++ t :: rest).length + 8 - seps.length - 2, by simp; omega⟩
    have h : parse_list F (4 * (seps ++ t :: rest).length + 8) Token.EOF
        (ParseState.init (seps ++ t :: rest)) =
        some ([], ⟨SKIP, IDENTIFIER_FIRST, IDENTIFIER_NTH, rest.tail,
          [⟨G_TOKEN_NONE, some "Expected an action or end of action list"⟩], true⟩) := by
      rw [hm, parse_list, parse_list_loop_separators F Token.EOF (by decide) seps (t :: rest)
        (m + 1) [] LastPtr.NULL (ParseState.init (seps ++ t :: rest)) hseps rfl rfl]
      rw [parse_list_loop]
      simp [g_scanner_peek_next_token, g_scanner_get_next_token, ParseState.init, h1, hsep, h3,
        h4, h5, parse_error]
    exact ⟨_, h, rfl, by rw [action_parser_read_string, h]; rfl⟩

theorem read_string_on_error_witness :
    (∃ config s',
      parse_list (fun _ _ => true)
          (4 * [Token.IDENTIFIER "raise", Token.IDENTIFIER "title", Token.CHAR ':',
            Token.CHAR '"', Token.IDENTIFIER "abc"].length + 8) Token.EOF
          (ParseState.init [Token.IDENTIFIER "raise", Token.IDENTIFIER "title", Token.CHAR ':',
            Token.CHAR '"', Token.IDENTIFIER "abc"]) =
        some ([ObActionList.action "raise" config], s') ∧
      s'.e = true ∧
      action_parser_read_string (fun _ _ => true)
          [Token.IDENTIFIER "raise", Token.IDENTIFIER "title", Token.CHAR ':', Token.CHAR '"',
            Token.IDENTIFIER "abc"] =
        some [ObActionList.action "raise" config]) ∧
    (∃ s',
      parse_list (fun _ _ => true)
          (4 * [Token.CHAR '\n', Token.CHAR ']', Token.IDENTIFIER "focus"].length + 8) Token.EOF
          (ParseState.init [Token.CHAR '\n', Token.CHAR ']', Token.IDENTIFIER "focus"]) =
        some ([], s') ∧
      s'.e = true ∧
      action_parser_read_string (fun _ _ => true)
          [Token.CHAR '\n', Token.CHAR ']', Token.IDENTIFIER "focus"] = some []) :=
  ⟨(read_string_on_error (fun _ _ => true)).1 "raise" "title" [] [LiteralItem.lexeme "abc"]
      (by decide),
    (read_string_on_error (fun _ _ => true)).2 [Token.CHAR '\n'] (Token.CHAR ']')
      [Token.IDENTIFIER "focus"] (by decide) (by decide)⟩

/-! ## Groups and the end of the list loop -/

/-- C9 (what the code does): an element that follows a brace group unlinks the
rest of the group.  `{ a ; b } ; c` parses without error to the chain `a`, `c`:
after the group, `last` is the head `a` of the spliced chain, and appending `c`
overwrites `a->next`, so that `b` is lost.  Without a following element the
group `{ a ; b }` gives the chain `a`, `b`. -/
theorem parse_list_group_then_element_drops_tail :
    parse_list (fun _ _ => true) 36 Token.EOF
        (ParseState.init [Token.CHAR '{', Token.IDENTIFIER "a", Token.CHAR ';',
          Token.IDENTIFIER "b", Token.CHAR '}', Token.CHAR ';', Token.IDENTIFIER "c"]) =
      some ([ObActionList.action "a" [], ObActionList.action "c" []], ParseState.init []) ∧
    action_parser_read_string (fun _ _ => true)
        [Token.CHAR '{', Token.IDENTIFIER "a", Token.CHAR ';', Token.IDENTIFIER "b",
          Token.CHAR '}', Token.CHAR ';', Token.IDENTIFIER "c"] =
      some [ObActionList.action "a" [], ObActionList.action "c" []] ∧
    action_parser_read_string (fun _ _ => true)
        [Token.CHAR '{', Token.IDENTIFIER "a", Token.CHAR ';', Token.IDENTIFIER "b",
          Token.CHAR '}'] =
      some [ObActionList.action "a" [], ObActionList.action "b" []] :=
  ⟨rfl, rfl, rfl⟩

theorem parse_list_append_lastOf (first : List ObActionList) (node : ObActionList) :
    parse_list_append first (lastOf first) [node] =
      (first ++ [node], lastOf (first ++ [node])) := by
  cases first with
  | nil => rfl
  | cons x xs => simp [parse_list_append, lastOf, List.take_of_length_le]

/-- The list loop on plain actions that are each followed by a separator: every
action is appended to the chain, in order. -/
theorem parse_list_loop_plain_actions (F : String → Option ObActionValue → Bool)
    (end_ sep : Token) (hend : end_.isIdentifier = false ∧ end_.isSeparator = false)
    (hsep : sep.isSeparator = true) (as : List (String × List (String × String))) :
    ∀ (rest : List Token) (fuel : Nat) (first : List ObActionList) (s : ParseState),
      s.e = false → s.toks = actionsToks sep as ++ rest →
      (∀ a ∈ as, a.2.length + 2 ≤ fuel) →
      parse_list_loop F (fuel + 2 * as.length) end_ first (lastOf first) s =
        parse_list_loop F fuel end_ (first ++ as.map actionNode)
          (lastOf (first ++ as.map actionNode)) { s with toks := rest } := by
  induction as with
  | nil =>
    intro rest fuel first s he htoks _
    obtain ⟨sk, i1, i2, toks, msgs, e⟩ := s
    dsimp only at he htoks ⊢
    simp only [actionsToks, List.nil_append] at htoks
    subst he htoks
    simp
  | cons a as ih =>
    intro rest fuel first s he htoks hfuel
    obtain ⟨sk, i1, i2, toks, msgs, e⟩ := s
    dsimp only at he htoks ⊢
    simp only [actionsToks, actionToks, List.cons_append, List.append_assoc] at htoks
    subst he htoks
    have hf : fuel + 2 * (a :: as).length = (fuel + 2 * as.length + 1) + 1 := by
      simp only [List.length_cons]
      omega
    have ha : a.2.length + 2 ≤ fuel + 2 * as.length + 1 := by
      have := hfuel a (List.mem_cons_self _ _)
      omega
    have hstop : ((sep :: (actionsToks sep as ++ rest)).headD Token.EOF).endsOptions = true := by
      have : sep = Token.CHAR '\n' ∨ sep = Token.CHAR ';' := by
        simpa [Token.isSeparator] using hsep
      rcases this with h | h <;> subst h <;> rfl
    have hp := parse_list_loop_plain F a.1 a.2 (sep :: (actionsToks sep as ++ rest)) _ end_ first
      (lastOf first) ⟨sk, i1, i2, _, msgs, false⟩ rfl rfl hstop ha hend.1
    simp only [List.cons_append] at hp
    rw [hf, hp]
    have h1 := parse_list_loop_separators F end_ hend.2 [sep] (actionsToks sep as ++ rest)
      (fuel + 2 * as.length) (first ++ [actionNode a]) (lastOf (first ++ [actionNode a]))
      ⟨sk, i1, i2, sep :: (actionsToks sep as ++ rest), msgs, false⟩
      (by simpa using hsep) rfl rfl
    simp only [List.length_singleton] at h1
    have h2 := parse_list_append_lastOf first (actionNode a)
    simp only [actionNode] at h2 h1
    rw [h2, h1]
    have h3 := ih rest fuel (first ++ [actionNode a])
      ⟨sk, i1, i2, actionsToks sep as ++ rest, msgs, false⟩ rfl rfl
      (fun b hb => hfuel b (List.mem_cons_of_mem _ hb))
    simpa [actionNode] using h3

theorem actionsToks_length (sep : Token) (as : List (String × List (String × String))) :
    (∀ a ∈ as, a.2.length + 2 ≤ (actionsToks sep as).length) ∧
      2 * as.length ≤ (actionsToks sep as).length := by
  induction as with
  | nil => simp [actionsToks]
  | cons a as ih =>
    constructor
    · intro b hb
      simp only [actionsToks, actionToks, List.length_cons, List.length_append,
        optionToks_length]
      rcases List.mem_cons.mp hb with h | h
      · subst h
        omega
      · have := ih.1 b h
        omega
    · simp only [actionsToks, actionToks, List.length_cons, List.length_append,
        optionToks_length]
      omega

/-- C10: once the error flag is set in the loop of `parse_list`, the loop ends
without another call of `parse_action`.  In every state of the loop whose next
token starts an element: if `parse_action` returns the chain `next` with the
flag set, `parse_list` returns the chain to which `next` was just appended and
reads one more token, whatever the input behind it is; on a token that starts no
element, `parse_list` reports the error and returns `first` in the same way.
So for all plain actions `A1 ; ... ; Ak ;` followed by an action `name key`
whose key is followed by a token other than `:`, and for every input `rest`
behind that token, the top-level chain is `A1, ..., Ak, name` with the flag set:
the failing element is the last node and the elements of `rest` contribute no
nodes. -/
theorem parse_list_stops_on_error (F : String → Option ObActionValue → Bool) :
    (∀ (fuel : Nat) (end_ : Token) (first : List ObActionList) (last : LastPtr)
        (s : ParseState) (next : List ObActionList) (s1 : ParseState),
      g_scanner_peek_next_token s ≠ end_ → g_scanner_peek_next_token s ≠ Token.EOF →
      ((g_scanner_peek_next_token s).isIdentifier = true ∨
        g_scanner_peek_next_token s = Token.CHAR '[' ∨
        g_scanner_peek_next_token s = Token.CHAR '{') →
      parse_action F fuel s = some (next, s1) → s1.e = true →
      parse_list_loop F (fuel + 1) end_ first last s =
        some ((parse_list_append first last next).1, (g_scanner_get_next_token s1).2)) ∧
    (∀ (fuel : Nat) (end_ : Token) (first : List ObActionList) (last : LastPtr)
        (s : ParseState),
      g_scanner_peek_next_token s ≠ end_ → g_scanner_peek_next_token s ≠ Token.EOF →
      (g_scanner_peek_next_token s).isSeparator = false →
      (g_scanner_peek_next_token s).isIdentifier = false →
      g_scanner_peek_next_token s ≠ Token.CHAR '[' →
      g_scanner_peek_next_token s ≠ Token.CHAR '{' →
      parse_list_loop F (fuel + 1) end_ first last s =
        some (first, (g_scanner_get_next_token (parse_error (g_scanner_get_next_token s).2
          (if end_ = Token.EOF then G_TOKEN_NONE else end_)
          (some "Expected an action or end of action list"))).2)) ∧
    (∀ (as : List (String × List (String × String))) (name key : String) (t : Token)
        (rest : List Token), t ≠ Token.CHAR ':' →
      parse_list F
          (4 * (actionsToks (Token.CHAR ';') as ++
            Token.IDENTIFIER name :: Token.IDENTIFIER key :: t :: rest).length + 8)
          Token.EOF
          (ParseState.init (actionsToks (Token.CHAR ';') as ++
            Token.IDENTIFIER name :: Token.IDENTIFIER key :: t :: rest)) =
        some (as.map actionNode ++ [ObActionList.action name []],
          { ParseState.init rest.tail with
            msgs := [⟨Token.CHAR ':', none⟩]
            e := true })) := by
  refine ⟨?_, ?_, ?_⟩
  · intro fuel end_ first last s next s1 hend heof hstart hact he
    have hsep : ¬ (g_scanner_peek_next_token s = Token.CHAR '\n' ∨
        g_scanner_peek_next_token s = Token.CHAR ';') := by
      rintro (h | h) <;> rw [h] at hstart <;> simp [Token.isIdentifier] at hstart
    rw [parse_list_loop]
    simp [hend, heof, hsep, hstart, hact, he]
  · intro fuel end_ first last s hend heof hsep hid hb hc
    have hsep2 : ¬ (g_scanner_peek_next_token s = Token.CHAR '\n' ∨
        g_scanner_peek_next_token s = Token.CHAR ';') := by
      simpa [Token.isSeparator] using hsep
    rw [parse_list_loop]
    simp [hend, heof, hsep2, hid, hb, hc, parse_error]
  · intro as name key t rest ht
    obtain ⟨hopts, hlen⟩ := actionsToks_length (Token.CHAR ';') as
    obtain ⟨m, hm, hmle⟩ : ∃ m,
        4 * (actionsToks (Token.CHAR ';') as ++
          Token.IDENTIFIER name :: Token.IDENTIFIER key :: t :: rest).length + 8 =
          (m + 1 + 1 + 1 + 2 * as.length) + 1 ∧
        (actionsToks (Token.CHAR ';') as).length ≤ m :=
      ⟨4 * (actionsToks (Token.CHAR ';') as ++
          Token.IDENTIFIER name :: Token.IDENTIFIER key :: t :: rest).length + 8 -
          2 * as.length - 4, by simp; omega, by simp; omega⟩
    rw [hm, parse_list]
    have h1 := parse_list_loop_plain_actions F Token.EOF (Token.CHAR ';') (by decide) (by decide)
      as (Token.IDENTIFIER name :: Token.IDENTIFIER key :: t :: rest) (m + 1 + 1 + 1) []
      (ParseState.init (actionsToks (Token.CHAR ';') as ++
        Token.IDENTIFIER name :: Token.IDENTIFIER key :: t :: rest)) rfl rfl
      (fun a ha => by have := hopts a ha; omega)
    have h0 : lastOf ([] : List ObActionList) = LastPtr.NULL := rfl
    rw [h0] at h1
    rw [h1, parse_list_loop]
    cases hl : List.map actionNode as with
    | nil =>
      simp [g_scanner_peek_next_token, g_scanner_get_next_token, ParseState.init,
        Token.isIdentifier, parse_action, parse_action_options, ht, parse_error,
        parse_list_append, lastOf]
    | cons x xs =>
      simp [g_scanner_peek_next_token, g_scanner_get_next_token, ParseState.init,
        Token.isIdentifier, parse_action, parse_action_options, ht, parse_error,
        parse_list_append, lastOf, List.take_of_length_le]

theorem parse_list_stops_on_error_witness :
    parse_list_loop (fun _ _ => true) (2 + 1) Token.EOF [ObActionList.action "a" []]
        (LastPtr.reachable 0)
        (ParseState.init [Token.IDENTIFIER "b", Token.IDENTIFIER "k", Token.CHAR ';',
          Token.IDENTIFIER "c"]) =
      some ((parse_list_append [ObActionList.action "a" []] (LastPtr.reachable 0)
          [ObActionList.action "b" []]).1,
        (g_scanner_get_next_token
          { ParseState.init [Token.IDENTIFIER "c"] with
            msgs := [⟨Token.CHAR ':', none⟩]
            e := true }).2) ∧
    parse_list_loop (fun _ _ => true) (0 + 1) Token.EOF [] LastPtr.NULL
        (ParseState.init [Token.CHAR ']', Token.IDENTIFIER "c"]) =
      some ([], (g_scanner_get_next_token (parse_error
        (g_scanner_get_next_token (ParseState.init [Token.CHAR ']', Token.IDENTIFIER "c"])).2
        (if Token.EOF = Token.EOF then G_TOKEN_NONE else Token.EOF)
        (some "Expected an action or end of action list"))).2) ∧
    parse_list (fun _ _ => true)
        (4 * (actionsToks (Token.CHAR ';') [("a", [("x", "1")])] ++
          [Token.IDENTIFIER "b", Token.IDENTIFIER "k", Token.CHAR ';',
            Token.IDENTIFIER "c"]).length + 8) Token.EOF
        (ParseState.init (actionsToks (Token.CHAR ';') [("a", [("x", "1")])] ++
          [Token.IDENTIFIER "b", Token.IDENTIFIER "k", Token.CHAR ';',
            Token.IDENTIFIER "c"])) =
      some ([("a", [("x", "1")])].map actionNode ++ [ObActionList.action "b" []],
        { ParseState.init [Token.IDENTIFIER "c"].tail with
          msgs := [⟨Token.CHAR ':', none⟩]
          e := true }) :=
  ⟨(parse_list_stops_on_error (fun _ _ => true)).1 2 Token.EOF [ObActionList.action "a" []]
      (LastPtr.reachable 0)
      (ParseState.init [Token.IDENTIFIER "b", Token.IDENTIFIER "k", Token.CHAR ';',
        Token.IDENTIFIER "c"])
      [ObActionList.action "b" []] _ (by decide) (by decide) (Or.inl rfl) rfl rfl,
    (parse_list_stops_on_error (fun _ _ => true)).2.1 0 Token.EOF [] LastPtr.NULL
      (ParseState.init [Token.CHAR ']', Token.IDENTIFIER "c"]) (by decide) (by decide)
      (by decide) (by decide) (by decide) (by decide),
    (parse_list_stops_on_error (fun _ _ => true)).2.2 [("a", [("x", "1")])] "b" "k"
      (Token.CHAR ';') [Token.IDENTIFIER "c"] (by decide)⟩

/-! ## Termination, and the diagnostics of one parse -/

theorem parse_string_loop_length (end_ : Char) (n : Nat) :
    ∀ (toks : List Token) (buf : String), toks.length ≤ n →
      (parse_string_loop end_ toks buf).2.length ≤ toks.length := by
  induction n with
  | zero =>
    intro toks buf hlen
    have : toks = [] := List.length_eq_zero.mp (Nat.le_zero.mp hlen)
    subst this
    rw [parse_string_loop_nil]
    split <;> simp
  | succ n ih =>
    intro toks buf hlen
    cases toks with
    | nil =>
      rw [parse_string_loop_nil]
      split <;> simp
    | cons t rest =>
      have hlen2 : rest.length ≤ n := by simpa using hlen
      by_cases hterm : t = Token.CHAR end_
      · subst hterm
        simp [parse_string_loop_end]
      by_cases hbs : t = Token.CHAR '\\'
      · subst hbs
        have hne : end_ ≠ '\\' := fun h => hterm (by rw [h])
        cases rest with
        | nil =>
          rw [parse_string_loop_escape_nil end_ hne]
          split <;> simp
        | cons t2 rest2 =>
          have hlen3 : rest2.length ≤ n := by
            simp only [List.length_cons] at hlen2
            omega
          rw [parse_string_loop_escape end_ hne]
          by_cases hs : strchr_ESCAPE_SEQS t2 = true
          · have := ih rest2 (buf.push t2.toChar) hlen3
            simp only [hs, if_true, List.length_cons]
            omega
          · simp only [hs, Bool.false_eq_true, if_false, List.length_cons]
            omega
      · rw [parse_string_loop_cons end_ t rest buf hbs]
        by_cases hend : t.isEnd end_ = true
        · rw [if_pos hend]
          simp
        · rw [if_neg hend]
          cases t with
          | EOF => simp
          | IDENTIFIER v =>
            have := ih rest (buf ++ v) hlen2
            simp only [List.length_cons]
            omega
          | CHAR c =>
            have := ih rest (buf.push (Token.CHAR c).toChar) hlen2
            simp only [List.length_cons]
            omega
          | OTHER k =>
            have := ih rest (buf.push (Token.OTHER k).toChar) hlen2
            simp only [List.length_cons]
            omega

theorem parse_string_returns (end_ : Char) (s : ParseState) :
    (parse_string end_ s).2.toks.length ≤ s.toks.length ∧
      (s.e = false → Diagnosed s (parse_string end_ s).2) := by
  have hlen := parse_string_loop_length end_ s.toks.length s.toks "" (Nat.le_refl _)
  cases h : parse_string_loop end_ s.toks "" with
  | mk res rest =>
    rw [h] at hlen
    cases res with
    | ok v =>
      simp only [parse_string, h]
      exact ⟨hlen, fun he => Or.inl ⟨he, rfl⟩⟩
    | error m =>
      simp only [parse_string, h]
      exact ⟨hlen, fun _ => Or.inr ⟨rfl, ⟨_, rfl⟩⟩⟩

theorem Diagnosed.of_eq {s s1 s2 : ParseState} (h : Diagnosed s s1) (he : s2.e = s1.e)
    (hm : s2.msgs = s1.msgs) : Diagnosed s s2 := by
  unfold Diagnosed at *
  rw [he, hm]
  exact h

theorem Diagnosed.from_eq {s s0 s1 : ParseState} (h : Diagnosed s0 s1) (hm : s0.msgs = s.msgs) :
    Diagnosed s s1 := by
  unfold Diagnosed at *
  rw [← hm]
  exact h

theorem Diagnosed.refl (s : ParseState) (he : s.e = false) : Diagnosed s s :=
  Or.inl ⟨he, rfl⟩

theorem Diagnosed.same {s s1 : ParseState} (he : s.e = false) (h1 : s1.e = s.e)
    (h2 : s1.msgs = s.msgs) : Diagnosed s s1 :=
  Or.inl ⟨by rw [h1, he], h2⟩

theorem Diagnosed.trans {s s1 s2 : ParseState} (h1 : Diagnosed s s1) (he : s1.e = false)
    (h2 : Diagnosed s1 s2) : Diagnosed s s2 := by
  unfold Diagnosed at *
  rcases h1 with ⟨_, hm⟩ | ⟨he1, _⟩
  · rw [← hm]
    exact h2
  · rw [he] at he1
    exact absurd he1 (by simp)

theorem Diagnosed.error {s s1 : ParseState} (h : Diagnosed s s1) (he : s1.e = false)
    (exp : Token) (message : Option String) : Diagnosed s (parse_error s1 exp message) := by
  unfold Diagnosed at *
  rcases h with ⟨_, hm⟩ | ⟨he1, _⟩
  · exact Or.inr ⟨rfl, ⟨⟨exp, message⟩, by simp [parse_error, hm]⟩⟩
  · rw [he] at he1
    exact absurd he1 (by simp)

theorem exists_result {α : Type} (a : α) (b : ParseState) (P : α → ParseState → Prop) :
    (∃ r s', (some (a, b) : Res α) = some (r, s') ∧ P r s') ↔ P a b := by
  constructor
  · rintro ⟨r, s', h, hp⟩
    simp only [Option.some.injEq, Prod.mk.injEq] at h
    obtain ⟨rfl, rfl⟩ := h
    exact hp
  · intro hp
    exact ⟨a, b, rfl, hp⟩

theorem parse_value_returns (F : String → Option ObActionValue → Bool) (fuel : Nat)
    (hL : ∀ end_, Returns 3 0 fuel (parse_list F fuel end_)) (allow_actions : Bool) :
    Returns 1 0 (fuel + 1) (parse_value F (fuel + 1) allow_actions) := by
  intro s hf
  obtain ⟨sk, i1, i2, toks, msgs, e⟩ := s
  cases toks with
  | nil =>
    simp only [parse_value, g_scanner_get_next_token, List.headD_nil, List.tail_nil]
    simp only [reduceCtorEq, false_and, if_false, exists_result]
    exact ⟨by simp [parse_error], fun he => (Diagnosed.same he rfl rfl).error he _ _⟩
  | cons t ts =>
    simp only [List.length_cons] at hf
    by_cases hid : ∃ v, t = Token.IDENTIFIER v
    · obtain ⟨v, rfl⟩ := hid
      simp only [parse_value, g_scanner_get_next_token, List.headD_cons, List.tail_cons,
        exists_result]
      exact ⟨by simp, fun he => Diagnosed.same he rfl rfl⟩
    have hmatch : parse_value F (fuel + 1) allow_actions ⟨sk, i1, i2, t :: ts, msgs, e⟩ =
        if t = Token.CHAR '"' then
          some (action_value_new_string (parse_string '"' ⟨sk, i1, i2, ts, msgs, e⟩).1,
            (parse_string '"' ⟨sk, i1, i2, ts, msgs, e⟩).2)
        else if t = Token.CHAR '(' then
          some (action_value_new_string (parse_string ')' ⟨sk, i1, i2, ts, msgs, e⟩).1,
            (parse_string ')' ⟨sk, i1, i2, ts, msgs, e⟩).2)
        else if t = Token.CHAR '{' ∧ allow_actions = true then
          match parse_list F fuel (Token.CHAR '}') ⟨sk, i1, i2, ts, msgs, e⟩ with
          | none => none
          | some (l, s2) =>
            some (if l.isEmpty then none else action_value_new_action_list l, s2)
        else some (none, parse_error ⟨sk, i1, i2, ts, msgs, e⟩ G_TOKEN_NONE
          (some "Expected an option value")) := by
      cases t with
      | IDENTIFIER v => exact absurd ⟨v, rfl⟩ hid
      | _ => simp [parse_value, g_scanner_get_next_token]
    rw [hmatch]
    by_cases h1 : t = Token.CHAR '"'
    · have h := parse_string_returns '"' ⟨sk, i1, i2, ts, msgs, e⟩
      rw [if_pos h1, exists_result]
      exact ⟨by simpa using Nat.le_succ_of_le h.1, fun he => (h.2 he).from_eq rfl⟩
    by_cases h2 : t = Token.CHAR '('
    · have h := parse_string_returns ')' ⟨sk, i1, i2, ts, msgs, e⟩
      rw [if_neg h1, if_pos h2, exists_result]
      exact ⟨by simpa using Nat.le_succ_of_le h.1, fun he => (h.2 he).from_eq rfl⟩
    by_cases h3 : t = Token.CHAR '{' ∧ allow_actions = true
    · obtain ⟨l, s2, hl, hlen, hd⟩ := hL (Token.CHAR '}') ⟨sk, i1, i2, ts, msgs, e⟩
        (by simp only; omega)
      rw [if_neg h1, if_neg h2, if_pos h3, hl]
      simp only [exists_result]
      exact ⟨by simpa using Nat.le_succ_of_le hlen, fun he => (hd he).from_eq rfl⟩
    · rw [if_neg h1, if_neg h2, if_neg h3, exists_result]
      exact ⟨by simp [parse_error], fun he => (Diagnosed.same he rfl rfl).error he _ _⟩

theorem parse_filter_test_returns (F : String → Option ObActionValue → Bool) (fuel : Nat)
    (hV : ∀ allow_actions, Returns 1 0 fuel (parse_value F fuel allow_actions))
    (hT : Returns 2 0 fuel (parse_filter_test F fuel)) :
    Returns 2 0 (fuel + 1) (parse_filter_test F (fuel + 1)) := by
  intro s hf
  obtain ⟨sk, i1, i2, toks, msgs, e⟩ := s
  cases toks with
  | nil =>
    simp only [parse_filter_test, g_scanner_get_next_token, List.headD_nil, List.tail_nil,
      reduceCtorEq, if_false, exists_result]
    exact ⟨by simp [parse_error], fun he => (Diagnosed.same he rfl rfl).error he _ _⟩
  | cons t ts =>
    simp only [List.length_cons] at hf
    by_cases hclose : t = Token.CHAR ']'
    · subst hclose
      simp only [parse_filter_test, g_scanner_get_next_token, List.headD_cons, List.tail_cons,
        if_true, exists_result]
      exact ⟨by simp, fun he => Diagnosed.same he rfl rfl⟩
    cases t with
    | IDENTIFIER key =>
      rw [parse_filter_test]
      simp only [g_scanner_get_next_token, List.headD_cons, List.tail_cons, reduceCtorEq,
        if_false]
      obtain ⟨value, s2, hrv, hlen2, hd2⟩ : ∃ value s2,
          (if g_scanner_peek_next_token ⟨sk, i1, i2, ts, msgs, e⟩ = Token.CHAR '=' then
            parse_value F fuel false ⟨sk, i1, i2, ts.tail, msgs, e⟩
          else some (none, ⟨sk, i1, i2, ts, msgs, e⟩)) = some (value, s2) ∧
          s2.toks.length ≤ ts.length ∧
          (e = false → Diagnosed ⟨sk, i1, i2, ts, msgs, e⟩ s2) := by
        by_cases hpeek : g_scanner_peek_next_token ⟨sk, i1, i2, ts, msgs, e⟩ = Token.CHAR '='
        · obtain ⟨value, s2, h, hlen, hd⟩ := hV false ⟨sk, i1, i2, ts.tail, msgs, e⟩
            (by simp only [List.length_tail]; omega)
          refine ⟨value, s2, by rw [if_pos hpeek, h], ?_, fun he => (hd he).from_eq rfl⟩
          simp only [List.length_tail] at hlen
          omega
        · exact ⟨none, _, by rw [if_neg hpeek], Nat.le_refl _, fun he => Diagnosed.same he rfl rfl⟩
      simp only [hrv]
      obtain ⟨sk2, j1, j2, toks2, msgs2, e2⟩ := s2
      simp only at hlen2
      cases e2 with
      | true =>
        simp only [if_true, exists_result]
        exact ⟨by simp only [List.length_cons]; omega, fun he => (hd2 he).from_eq rfl⟩
      | false =>
        simp only [Bool.false_eq_true, if_false]
        by_cases hF : F key value = true
        · rw [if_neg (not_not.mpr hF)]
          obtain ⟨r, ⟨sk4, k1, k2, toks4, msgs4, e4⟩, hr, hlen4, hd4⟩ :=
            hT ⟨sk2, j1, j2, toks2.tail, msgs2, false⟩ (by simp only [List.length_tail]; omega)
          simp only [List.length_tail] at hlen4
          have hd4' : Diagnosed ⟨sk2, j1, j2, toks2, msgs2, false⟩
              ⟨sk4, k1, k2, toks4, msgs4, e4⟩ := (hd4 rfl).from_eq rfl
          by_cases h1 : toks2.headD Token.EOF = Token.CHAR ','
          · rw [if_pos h1, hr]
            simp only [Option.map_some']
            cases e4 with
            | true =>
              simp only [if_true, exists_result]
              exact ⟨by simp only [List.length_cons]; omega,
                fun he => ((hd2 he).trans rfl hd4').from_eq rfl⟩
            | false =>
              simp only [Bool.false_eq_true, if_false, exists_result]
              exact ⟨by simp only [List.length_cons]; omega,
                fun he => ((hd2 he).trans rfl hd4').from_eq rfl⟩
          by_cases h2 : toks2.headD Token.EOF = Token.CHAR '|'
          · rw [if_neg h1, if_pos h2, hr]
            simp only [Option.map_some']
            cases e4 with
            | true =>
              simp only [if_true, exists_result]
              exact ⟨by simp only [List.length_cons]; omega,
                fun he => ((hd2 he).trans rfl hd4').from_eq rfl⟩
            | false =>
              simp only [Bool.false_eq_true, if_false, exists_result]
              exact ⟨by simp only [List.length_cons]; omega,
                fun he => ((hd2 he).trans rfl hd4').from_eq rfl⟩
          by_cases h3 : toks2.headD Token.EOF = Token.CHAR ']'
          · rw [if_neg h1, if_neg h2, if_pos h3]
            simp only [Bool.false_eq_true, if_false, exists_result]
            exact ⟨by simp only [List.length_cons, List.length_tail]; omega,
              fun he => ((hd2 he).of_eq rfl rfl).from_eq rfl⟩
          · rw [if_neg h1, if_neg h2, if_neg h3]
            simp only [parse_error, if_true, exists_result]
            exact ⟨by simp only [List.length_cons, List.length_tail]; omega,
              fun he => (((hd2 he).error rfl (Token.CHAR ']') none).of_eq rfl rfl).from_eq rfl⟩
        · rw [if_pos hF, exists_result]
          exact ⟨by simp only [parse_error, List.length_cons]; omega,
            fun he => ((hd2 he).error rfl _ _).from_eq rfl⟩
    | EOF =>
      simp only [parse_filter_test, g_scanner_get_next_token, List.headD_cons, List.tail_cons,
        reduceCtorEq, if_false, exists_result]
      exact ⟨by simp [parse_error], fun he => (Diagnosed.same he rfl rfl).error he _ _⟩
    | CHAR c =>
      simp only [parse_filter_test, g_scanner_get_next_token, List.headD_cons, List.tail_cons,
        hclose, if_false, exists_result]
      exact ⟨by simp [parse_error], fun he => (Diagnosed.same he rfl rfl).error he _ _⟩
    | OTHER k =>
      simp only [parse_filter_test, g_scanner_get_next_token, List.headD_cons, List.tail_cons,
        reduceCtorEq, if_false, exists_result]
      exact ⟨by simp [parse_error], fun he => (Diagnosed.same he rfl rfl).error he _ _⟩

theorem parse_action_options_returns (F : String → Option ObActionValue → Bool) (fuel : Nat)
    (hV : ∀ allow_actions, Returns 1 0 fuel (parse_value F fuel allow_actions))
    (hO : ∀ config, Returns 1 0 fuel (parse_action_options F fuel config))
    (config : List (String × ObActionValue)) :
    Returns 1 0 (fuel + 1) (parse_action_options F (fuel + 1) config) := by
  intro s hf
  obtain ⟨sk, i1, i2, toks, msgs, e⟩ := s
  cases toks with
  | nil =>
    simp only [parse_action_options, g_scanner_peek_next_token, List.headD_nil, exists_result]
    exact ⟨by simp, fun he => Diagnosed.same he rfl rfl⟩
  | cons t ts =>
    simp only [List.length_cons] at hf
    cases t with
    | EOF =>
      simp only [parse_action_options, g_scanner_peek_next_token, List.headD_cons,
        exists_result]
      exact ⟨by simp, fun he => Diagnosed.same he rfl rfl⟩
    | OTHER k =>
      simp only [parse_action_options, g_scanner_peek_next_token, List.headD_cons,
        exists_result]
      exact ⟨by simp, fun he => Diagnosed.same he rfl rfl⟩
    | CHAR c =>
      rw [parse_action_options]
      simp only [g_scanner_peek_next_token, g_scanner_get_next_token, List.headD_cons,
        List.tail_cons]
      by_cases hc : c = '\\'
      · rw [if_pos hc]
        by_cases hnl : ts.headD Token.EOF = Token.CHAR '\n'
        · simp only [hnl, ne_eq, not_true_eq_false, if_false]
          cases e with
          | true =>
            simp only [if_true, exists_result]
            exact ⟨by simp only [List.length_cons, List.length_tail]; omega,
              fun he => absurd he (by simp)⟩
          | false =>
            simp only [Bool.false_eq_true, if_false]
            obtain ⟨r, s', h, hlen, hd⟩ := hO config ⟨sk, i1, i2, ts.tail, msgs, false⟩
              (by simp only [List.length_tail]; omega)
            simp only [List.length_tail] at hlen
            exact ⟨r, s', h, by simp only [List.length_cons]; omega,
              fun _ => (hd rfl).from_eq rfl⟩
        · simp only [ne_eq, hnl, not_false_eq_true, if_true, parse_error, exists_result]
          exact ⟨by simp only [List.length_cons, List.length_tail]; omega,
            fun he => (@Diagnosed.same ⟨sk, i1, i2, Token.CHAR c :: ts, msgs, e⟩
              ⟨sk, i1, i2, ts.tail, msgs, e⟩ he rfl rfl).error he G_TOKEN_NONE
              (some "Expected newline")⟩
      · rw [if_neg hc, exists_result]
        exact ⟨by simp, fun he => Diagnosed.same he rfl rfl⟩
    | IDENTIFIER key =>
      rw [parse_action_options]
      simp only [g_scanner_peek_next_token, g_scanner_get_next_token, List.headD_cons,
        List.tail_cons]
      by_cases hcolon : ts.headD Token.EOF = Token.CHAR ':'
      · rw [if_neg (not_not.mpr hcolon)]
        obtain ⟨value, ⟨sk3, j1, j2, toks3, msgs3, e3⟩, hv, hlen3, hd3⟩ :=
          hV true ⟨sk, i1, i2, ts.tail, msgs, e⟩ (by simp only [List.length_tail]; omega)
        simp only [List.length_tail] at hlen3
        rw [hv]
        simp only
        cases e3 with
        | true =>
          simp only [if_true, exists_result]
          exact ⟨by simp only [List.length_cons]; omega, fun he => (hd3 he).from_eq rfl⟩
        | false =>
          simp only [Bool.false_eq_true, if_false]
          cases value with
          | none =>
            obtain ⟨r, s', h, hlen, hd⟩ := hO config ⟨sk3, j1, j2, toks3, msgs3, false⟩
              (by simp only; omega)
            exact ⟨r, s', h, by simp only [List.length_cons] at hlen ⊢; omega,
              fun he => (((hd3 he).trans rfl (hd rfl))).from_eq rfl⟩
          | some v =>
            obtain ⟨r, s', h, hlen, hd⟩ := hO (g_hash_table_replace config key v)
              ⟨sk3, j1, j2, toks3, msgs3, false⟩ (by simp only; omega)
            exact ⟨r, s', h, by simp only [List.length_cons] at hlen ⊢; omega,
              fun he => (((hd3 he).trans rfl (hd rfl))).from_eq rfl⟩
      · rw [if_pos hcolon, exists_result]
        exact ⟨by simp only [parse_error, List.length_cons, List.length_tail]; omega,
          fun he => (@Diagnosed.same ⟨sk, i1, i2, Token.IDENTIFIER key :: ts, msgs, e⟩
            ⟨sk, i1, i2, ts.tail, msgs, e⟩ he rfl rfl).error he (Token.CHAR ':') none⟩

theorem parse_action_returns (F : String → Option ObActionValue → Bool) (fuel : Nat)
    (hFI : Returns 3 0 fuel (parse_filter F fuel))
    (hL : ∀ end_, Returns 3 0 fuel (parse_list F fuel end_))
    (hO : ∀ config, Returns 1 0 fuel (parse_action_options F fuel config)) :
    Returns 1 1 (fuel + 1) (parse_action F (fuel + 1)) := by
  intro s hf
  obtain ⟨sk, i1, i2, toks, msgs, e⟩ := s
  cases toks with
  | nil =>
    simp only [parse_action, g_scanner_get_next_token, List.headD_nil, List.tail_nil,
      reduceCtorEq, if_false, exists_result]
    exact ⟨by simp [parse_error], fun he => (Diagnosed.same he rfl rfl).error he _ _⟩
  | cons t ts =>
    simp only [List.length_cons] at hf
    rw [parse_action]
    simp only [g_scanner_get_next_token, List.headD_cons, List.tail_cons]
    by_cases h1 : t = Token.CHAR '['
    · rw [if_pos h1]
      obtain ⟨r, s', h, hlen, hd⟩ := hFI ⟨sk, i1, i2, ts, msgs, e⟩ (by simp only; omega)
      exact ⟨r, s', h, by simpa using hlen, fun he => (hd he).from_eq rfl⟩
    by_cases h2 : t = Token.CHAR '{'
    · rw [if_neg h1, if_pos h2]
      obtain ⟨r, s', h, hlen, hd⟩ := hL (Token.CHAR '}') ⟨sk, i1, i2, ts, msgs, e⟩
        (by simp only; omega)
      exact ⟨r, s', h, by simpa using hlen, fun he => (hd he).from_eq rfl⟩
    rw [if_neg h1, if_neg h2]
    cases t with
    | IDENTIFIER name =>
      obtain ⟨r, s', h, hlen, hd⟩ := hO [] ⟨sk, i1, i2, ts, msgs, e⟩ (by simp only; omega)
      simp only [h, exists_result]
      exact ⟨by simpa using hlen, fun he => (hd he).from_eq rfl⟩
    | EOF =>
      simp only [exists_result]
      exact ⟨by simp [parse_error], fun he => (Diagnosed.same he rfl rfl).error he _ _⟩
    | CHAR c =>
      simp only [exists_result]
      exact ⟨by simp [parse_error], fun he => (Diagnosed.same he rfl rfl).error he _ _⟩
    | OTHER k =>
      simp only [exists_result]
      exact ⟨by simp [parse_error], fun he => (Diagnosed.same he rfl rfl).error he _ _⟩

theorem parse_filter_returns (F : String → Option ObActionValue → Bool) (fuel : Nat)
    (hT : Returns 2 0 fuel (parse_filter_test F fuel))
    (hA : Returns 1 1 fuel (parse_action F fuel)) :
    Returns 3 0 (fuel + 1) (parse_filter F (fuel + 1)) := by
  intro s hf
  obtain ⟨test, ⟨sk1, i1, i2, toks1, msgs1, e1⟩, ht, hlen1, hd1⟩ := hT s (by omega)
  simp only [Nat.sub_zero] at hlen1
  rw [parse_filter, ht]
  simp only
  cases e1 with
  | true =>
    simp only [if_true, exists_result]
    exact ⟨by simpa using hlen1, hd1⟩
  | false =>
    simp only [Bool.false_eq_true, if_false]
    obtain ⟨thendo, ⟨sk2, j1, j2, toks2, msgs2, e2⟩, ha, hlen2, hd2⟩ :=
      hA ⟨sk1, i1, i2, toks1, msgs1, false⟩ (by simp only; omega)
    simp only at hlen2
    rw [ha]
    simp only
    by_cases helse : ¬ e2 = true ∧
        g_scanner_peek_next_token ⟨sk2, j1, j2, toks2, msgs2, e2⟩ = Token.CHAR '|'
    · rw [if_pos helse]
      have he2 : e2 = false := by simpa using helse.1
      subst he2
      obtain ⟨elsedo, s3, hb, hlen3, hd3⟩ :=
        hA (g_scanner_get_next_token ⟨sk2, j1, j2, toks2, msgs2, false⟩).2
          (by simp only [g_scanner_get_next_token, List.length_tail]; omega)
      simp only [g_scanner_get_next_token, List.length_tail] at hlen3
      simp only [hb, exists_result]
      exact ⟨by omega, fun he => ((hd1 he).trans rfl
        ((hd2 rfl).trans rfl ((hd3 rfl).from_eq rfl)))⟩
    · rw [if_neg helse, exists_result]
      exact ⟨by simp only; omega, fun he => (hd1 he).trans rfl (hd2 rfl)⟩

theorem parse_list_loop_returns (F : String → Option ObActionValue → Bool) (fuel : Nat)
    (hA : Returns 1 1 fuel (parse_action F fuel))
    (hLL : ∀ end_ first last, Returns 2 0 fuel (parse_list_loop F fuel end_ first last))
    (end_ : Token) (first : List ObActionList) (last : LastPtr) :
    Returns 2 0 (fuel + 1) (parse_list_loop F (fuel + 1) end_ first last) := by
  intro s hf
  obtain ⟨sk, i1, i2, toks, msgs, e⟩ := s
  rw [parse_list_loop]
  simp only [g_scanner_peek_next_token, g_scanner_get_next_token]
  by_cases hcont : toks.headD Token.EOF ≠ end_ ∧ toks.headD Token.EOF ≠ Token.EOF
  · rw [if_pos hcont]
    cases toks with
    | nil => exact absurd rfl hcont.2
    | cons t ts =>
      simp only [List.length_cons] at hf
      simp only [List.headD_cons, List.tail_cons]
      by_cases hsep : t = Token.CHAR '\n' ∨ t = Token.CHAR ';'
      · rw [if_pos hsep]
        cases e with
        | true =>
          simp only [if_true, exists_result]
          exact ⟨by simp only [List.length_cons, List.length_tail]; omega,
            fun he => absurd he (by simp)⟩
        | false =>
          simp only [Bool.false_eq_true, if_false]
          obtain ⟨r, s', h, hlen, hd⟩ := hLL end_ first last ⟨sk, i1, i2, ts, msgs, false⟩
            (by simp only; omega)
          exact ⟨r, s', h, by simp only [List.length_cons] at hlen ⊢; omega,
            fun _ => (hd rfl).from_eq rfl⟩
      rw [if_neg hsep]
      by_cases hstart : t.isIdentifier = true ∨ t = Token.CHAR '[' ∨ t = Token.CHAR '{'
      · rw [if_pos hstart]
        obtain ⟨next, ⟨sk1, j1, j2, toks1, msgs1, e1⟩, ha, hlen1, hd1⟩ :=
          hA ⟨sk, i1, i2, t :: ts, msgs, e⟩ (by simp only [List.length_cons]; omega)
        simp only [List.length_cons, Nat.add_sub_cancel] at hlen1
        rw [ha]
        simp only
        cases e1 with
        | true =>
          simp only [if_true, exists_result]
          exact ⟨by simp only [List.length_cons, List.length_tail]; omega,
            fun he => (hd1 he).of_eq rfl rfl⟩
        | false =>
          simp only [Bool.false_eq_true, if_false]
          obtain ⟨r, s', h, hlen, hd⟩ := hLL end_ (parse_list_append first last next).1
            (parse_list_append first last next).2 ⟨sk1, j1, j2, toks1, msgs1, false⟩
            (by simp only; omega)
          exact ⟨r, s', h, by simp only [List.length_cons] at hlen ⊢; omega,
            fun he => (hd1 he).trans rfl (hd rfl)⟩
      · rw [if_neg hstart, exists_result]
        exact ⟨by simp only [parse_error, List.length_cons, List.length_tail]; omega,
          fun he => ((@Diagnosed.same ⟨sk, i1, i2, t :: ts, msgs, e⟩
            ⟨sk, i1, i2, ts, msgs, e⟩ he rfl rfl).error he _ _).of_eq rfl rfl⟩
  · rw [if_neg hcont, exists_result]
    exact ⟨by simp only [List.length_tail]; omega, fun he => Diagnosed.same he rfl rfl⟩

theorem parse_list_returns (F : String → Option ObActionValue → Bool) (fuel : Nat)
    (hLL : ∀ end_ first last, Returns 2 0 fuel (parse_list_loop F fuel end_ first last))
    (end_ : Token) : Returns 3 0 (fuel + 1) (parse_list F (fuel + 1) end_) := by
  intro s hf
  rw [parse_list]
  exact hLL end_ [] LastPtr.NULL s (by omega)

/-- Every parsing function returns when its fuel is at least three units for
each token left and three more; it reads its input from the front, and it emits
one diagnostic exactly when it sets the error flag. -/
theorem parsers_return (F : String → Option ObActionValue → Bool) (fuel : Nat) :
    (∀ end_, Returns 3 0 fuel (parse_list F fuel end_)) ∧
    (∀ end_ first last, Returns 2 0 fuel (parse_list_loop F fuel end_ first last)) ∧
    Returns 1 1 fuel (parse_action F fuel) ∧
    (∀ config, Returns 1 0 fuel (parse_action_options F fuel config)) ∧
    Returns 3 0 fuel (parse_filter F fuel) ∧
    Returns 2 0 fuel (parse_filter_test F fuel) ∧
    (∀ allow_actions, Returns 1 0 fuel (parse_value F fuel allow_actions)) := by
  induction fuel with
  | zero =>
    refine ⟨?_, ?_, ?_, ?_, ?_, ?_, ?_⟩ <;> intros <;> intro s hf <;> omega
  | succ fuel ih =>
    obtain ⟨hL, hLL, hA, hO, hFI, hT, hV⟩ := ih
    exact ⟨parse_list_returns F fuel hLL, parse_list_loop_returns F fuel hA hLL,
      parse_action_returns F fuel hFI hL hO, parse_action_options_returns F fuel hV hO,
      parse_filter_returns F fuel hT hA, parse_filter_test_returns F fuel hV hT,
      parse_value_returns F fuel hL⟩

/-! ## Filter tests and values on errors -/

theorem parse_filter_test_error_null (F : String → Option ObActionValue → Bool) (fuel : Nat)
    (s : ParseState) (r : List ObActionListTest) (s' : ParseState)
    (h : parse_filter_test F fuel s = some (r, s')) (he : s'.e = true) : r = [] := by
  cases fuel with
  | zero => simp [parse_filter_test] at h
  | succ fuel =>
    rw [parse_filter_test] at h
    simp only [g_scanner_get_next_token] at h
    repeat' split at h
    all_goals first
      | (simp only [Option.some.injEq, Prod.mk.injEq] at h
         obtain ⟨rfl, rfl⟩ := h
         first
           | rfl
           | simp_all)
      | simp at h

/-- C16: `parse_filter_test` returns `NULL` whenever it leaves the error flag
set, whatever the depth of the recursion at which the error was raised; on `]`
as first token it returns `NULL`, reads that token and leaves the flag as it
was (unset when it was clear on entry); and it does return, given three units of
fuel for each token left and two more. -/
theorem parse_filter_test_null_on_error (F : String → Option ObActionValue → Bool)
    (fuel : Nat) (s : ParseState) :
    (∀ r s', parse_filter_test F fuel s = some (r, s') → s'.e = true → r = []) ∧
    (∀ rest, s.toks = Token.CHAR ']' :: rest →
      parse_filter_test F (fuel + 1) s = some ([], { s with toks := rest })) ∧
    (3 * s.toks.length + 2 ≤ fuel → ∃ r s', parse_filter_test F fuel s = some (r, s')) := by
  refine ⟨fun r s' h he => parse_filter_test_error_null F fuel s r s' h he, ?_, ?_⟩
  · intro rest htoks
    simp [parse_filter_test, g_scanner_get_next_token, htoks]
  · intro hf
    obtain ⟨r, s', h, -, -⟩ := (parsers_return F fuel).2.2.2.2.2.1 s hf
    exact ⟨r, s', h⟩

theorem parse_filter_test_null_on_error_witness :
    parse_filter_test (fun _ _ => true) 5
        (ParseState.init [Token.IDENTIFIER "a", Token.CHAR ',', Token.IDENTIFIER "b",
          Token.CHAR ';']) =
      some ([], { ParseState.init [] with
        msgs := [⟨Token.CHAR ']', none⟩]
        e := true }) ∧
    ({ ParseState.init [] with msgs := [⟨Token.CHAR ']', none⟩], e := true } : ParseState).e =
      true ∧
    ([] : List ObActionListTest) = [] ∧
    parse_filter_test (fun _ _ => true) (0 + 1)
        (ParseState.init [Token.CHAR ']', Token.IDENTIFIER "focus"]) =
      some ([], ParseState.init [Token.IDENTIFIER "focus"]) ∧
    (∃ r s', parse_filter_test (fun _ _ => true) 14
      (ParseState.init [Token.IDENTIFIER "a", Token.CHAR ',', Token.IDENTIFIER "b",
        Token.CHAR ';']) = some (r, s')) :=
  ⟨rfl, rfl,
    (parse_filter_test_null_on_error (fun _ _ => true) 5
      (ParseState.init [Token.IDENTIFIER "a", Token.CHAR ',', Token.IDENTIFIER "b",
        Token.CHAR ';'])).1 [] { ParseState.init [] with
          msgs := [⟨Token.CHAR ']', none⟩]
          e := true } rfl rfl,
    (parse_filter_test_null_on_error (fun _ _ => true) 0
      (ParseState.init [Token.CHAR ']', Token.IDENTIFIER "focus"])).2.1 _ rfl,
    (parse_filter_test_null_on_error (fun _ _ => true) 14
      (ParseState.init [Token.IDENTIFIER "a", Token.CHAR ',', Token.IDENTIFIER "b",
        Token.CHAR ';'])).2.2 (by decide)⟩

theorem parse_value_scalar_eq (F F' : String → Option ObActionValue → Bool) (fuel : Nat)
    (s : ParseState) : parse_value F' fuel false s = parse_value F fuel false s := by
  cases fuel with
  | zero => simp [parse_value]
  | succ fuel =>
    rw [parse_value, parse_value]
    simp only [g_scanner_get_next_token, Bool.false_eq_true, and_false, if_false]

theorem parse_value_scalar_shape (F : String → Option ObActionValue → Bool) (fuel : Nat)
    (s : ParseState) (v : Option ObActionValue) (s' : ParseState)
    (h : parse_value F fuel false s = some (v, s')) :
    v = none ∨ ∃ str, v = some (ObActionValue.string str) := by
  cases fuel with
  | zero => simp [parse_value] at h
  | succ fuel =>
    rw [parse_value] at h
    simp only [g_scanner_get_next_token, Bool.false_eq_true, and_false, if_false] at h
    repeat' split at h
    all_goals
      simp only [Option.some.injEq, Prod.mk.injEq, action_value_new_string] at h
      obtain ⟨rfl, -⟩ := h
      first
        | exact Or.inl rfl
        | exact Or.inr ⟨_, rfl⟩

theorem parse_filter_test_factory_scalar (F F' : String → Option ObActionValue → Bool)
    (hF : ∀ k v, (∀ l, v ≠ some (ObActionValue.action_list l)) → F' k v = F k v)
    (fuel : Nat) : ∀ s : ParseState, parse_filter_test F' fuel s = parse_filter_test F fuel s := by
  induction fuel with
  | zero => intro s; simp [parse_filter_test]
  | succ fuel ih =>
    intro s
    obtain ⟨sk, i1, i2, toks, msgs, e⟩ := s
    cases toks with
    | nil => simp [parse_filter_test, g_scanner_get_next_token]
    | cons t ts =>
      cases t with
      | IDENTIFIER key =>
        rw [parse_filter_test, parse_filter_test]
        simp only [g_scanner_get_next_token, List.headD_cons, List.tail_cons, reduceCtorEq,
          if_false, parse_value_scalar_eq F F' fuel, ih]
        cases hrv : (if g_scanner_peek_next_token ⟨sk, i1, i2, ts, msgs, e⟩ = Token.CHAR '=' then
            parse_value F fuel false ⟨sk, i1, i2, ts.tail, msgs, e⟩
          else some (none, ⟨sk, i1, i2, ts, msgs, e⟩)) with
        | none => rfl
        | some p =>
          obtain ⟨value, s2⟩ := p
          have hv : ∀ l, value ≠ some (ObActionValue.action_list l) := by
            intro l hl
            split at hrv
            · rcases parse_value_scalar_shape F fuel _ value s2 hrv with h | ⟨str, h⟩
              · rw [h] at hl
                simp at hl
              · rw [h] at hl
                simp at hl
            · simp only [Option.some.injEq, Prod.mk.injEq] at hrv
              rw [← hrv.1] at hl
              simp at hl
          simp only [hF key value hv]
      | _ => simp [parse_filter_test, g_scanner_get_next_token]

/-- C14: `parse_value` called with nested lists disallowed returns with one unit
of fuel, and what it returns is a string value or no value, never a nested action
list; on `{` as first token it reads only that token, reports "Expected an
option value", sets the error flag and returns no value.  So the filter factory
is never handed a nested list: the result of `parse_filter_test` is the same
for any two factories that agree on the values that are not nested lists. -/
theorem parse_value_scalar_only (F : String → Option ObActionValue → Bool) (fuel : Nat)
    (s : ParseState) :
    (∃ v s', parse_value F (fuel + 1) false s = some (v, s') ∧
      (v = none ∨ ∃ str, v = some (ObActionValue.string str))) ∧
    (∀ rest, s.toks = Token.CHAR '{' :: rest →
      parse_value F (fuel + 1) false s =
        some (none, parse_error { s with toks := rest } G_TOKEN_NONE
          (some "Expected an option value"))) ∧
    (∀ F' : String → Option ObActionValue → Bool,
      (∀ k v, (∀ l, v ≠ some (ObActionValue.action_list l)) → F' k v = F k v) →
      parse_filter_test F' fuel s = parse_filter_test F fuel s) := by
  refine ⟨?_, ?_, fun F' hF => parse_filter_test_factory_scalar F F' hF fuel s⟩
  · have h : ∃ v s', parse_value F (fuel + 1) false s = some (v, s') := by
      rw [parse_value]
      simp only [g_scanner_get_next_token, Bool.false_eq_true, and_false, if_false]
      repeat' split
      all_goals exact ⟨_, _, rfl⟩
    obtain ⟨v, s', h⟩ := h
    exact ⟨v, s', h, parse_value_scalar_shape F (fuel + 1) s v s' h⟩
  · intro rest htoks
    simp [parse_value, g_scanner_get_next_token, htoks]

theorem parse_value_scalar_only_witness :
    parse_value (fun _ _ => true) (0 + 1) false
        (ParseState.init [Token.CHAR '{', Token.IDENTIFIER "a", Token.CHAR '}']) =
      some (none, parse_error
        { ParseState.init [Token.CHAR '{', Token.IDENTIFIER "a", Token.CHAR '}'] with
          toks := [Token.IDENTIFIER "a", Token.CHAR '}'] }
        G_TOKEN_NONE (some "Expected an option value")) ∧
    parse_filter_test (fun _ v => v.isSome) 3
        (ParseState.init [Token.IDENTIFIER "k", Token.CHAR '=', Token.CHAR '{']) =
      parse_filter_test (fun _ _ => true) 3
        (ParseState.init [Token.IDENTIFIER "k", Token.CHAR '=', Token.CHAR '{']) :=
  ⟨(parse_value_scalar_only (fun _ _ => true) 0
      (ParseState.init [Token.CHAR '{', Token.IDENTIFIER "a", Token.CHAR '}'])).2.1 _ rfl,
    by
      have h := (parse_value_scalar_only (fun _ _ => true) 3
        (ParseState.init [Token.IDENTIFIER "k", Token.CHAR '=', Token.CHAR '{'])).2.2
        (fun _ v => match v with
          | some (ObActionValue.action_list _) => false
          | _ => true)
        (by
          intro k v hv
          cases v with
          | none => rfl
          | some w =>
            cases w with
            | string str => rfl
            | action_list l => exact absurd rfl (hv l))
      rw [← h]
      rfl⟩

/-! ## Tokens read after an error -/

/-- C11 (what the code does): after an error in its loop, `parse_list` still
executes the statement "eat the ending character" and reads one more token.
On `a k ; c d` the call of `parse_action` reports the missing `:` having read
`a k ;`, with `c` and `d` unread; `parse_list` returns with only `d` unread.  On
`) c d` the loop reports "Expected an action or end of action list" having read
`)`, and `parse_list` returns with only `d` unread.  In both cases the token `c`
that follows the point of the error has been read. -/
theorem parse_list_reads_token_after_error (F : String → Option ObActionValue → Bool) :
    parse_action F 4
        (ParseState.init [Token.IDENTIFIER "a", Token.IDENTIFIER "k", Token.CHAR ';',
          Token.IDENTIFIER "c", Token.IDENTIFIER "d"]) =
      some ([ObActionList.action "a" []],
        { ParseState.init [Token.IDENTIFIER "c", Token.IDENTIFIER "d"] with
          msgs := [⟨Token.CHAR ':', none⟩]
          e := true }) ∧
    parse_list F 28 Token.EOF
        (ParseState.init [Token.IDENTIFIER "a", Token.IDENTIFIER "k", Token.CHAR ';',
          Token.IDENTIFIER "c", Token.IDENTIFIER "d"]) =
      some ([ObActionList.action "a" []],
        { ParseState.init [Token.IDENTIFIER "d"] with
          msgs := [⟨Token.CHAR ':', none⟩]
          e := true }) ∧
    parse_list F 20 Token.EOF
        (ParseState.init [Token.CHAR ')', Token.IDENTIFIER "c", Token.IDENTIFIER "d"]) =
      some ([],
        { ParseState.init [Token.IDENTIFIER "d"] with
          msgs := [⟨G_TOKEN_NONE, some "Expected an action or end of action list"⟩]
          e := true }) :=
  ⟨rfl, rfl, rfl⟩

/-! ## The then-branch of a conditional -/

/-- C13 (what the code does at the inputs of the claim): `[k] {}` gives a
Conditional node whose then-branch is the `NULL` chain, without error; and
`[k] )`, where the then-branch fails on its first token, gives a Conditional
node whose then-branch is the `NULL` chain, with the error flag set. -/
theorem parse_filter_null_thendo :
    parse_filter (fun _ _ => true) 20
        (ParseState.init [Token.IDENTIFIER "k", Token.CHAR ']', Token.CHAR '{',
          Token.CHAR '}']) =
      some ([ObActionList.filterset [ObActionListTest.mk "k" none false] [] []],
        ParseState.init []) ∧
    parse_filter (fun _ _ => true) 20
        (ParseState.init [Token.IDENTIFIER "k", Token.CHAR ']', Token.CHAR ')']) =
      some ([ObActionList.filterset [ObActionListTest.mk "k" none false] [] []],
        { ParseState.init [] with
          msgs := [⟨G_TOKEN_NONE, some "Expected an action name"⟩]
          e := true }) :=
  ⟨rfl, rfl⟩

/-! ## Options whose brace list is the `NULL` chain -/

theorem optionTable_append (opts1 opts2 : List (String × String)) :
    ∀ config : List (String × ObActionValue),
      optionTable config (opts1 ++ opts2) = optionTable (optionTable config opts1) opts2 := by
  induction opts1 with
  | nil => intro config; rfl
  | cons kv opts1 ih =>
    intro config
    rw [List.cons_append, optionTable, optionTable]
    exact ih _

theorem lastValue_eq_none (opts : List (String × String)) (key : String)
    (h : ∀ kv ∈ opts, kv.1 ≠ key) : lastValue opts key = none := by
  simp only [lastValue, Option.map_eq_none', List.find?_eq_none, List.mem_reverse]
  intro kv hkv
  simpa using h kv hkv

/-- A brace list that parses to the `NULL` chain gives no value. -/
theorem parse_value_null_list (F : String → Option ObActionValue → Bool) (fuel : Nat)
    (s : ParseState) (rest : List Token) (s3 : ParseState)
    (htoks : s.toks = Token.CHAR '{' :: rest)
    (h : parse_list F fuel (Token.CHAR '}') { s with toks := rest } = some ([], s3)) :
    parse_value F (fuel + 1) true s = some (none, s3) := by
  simp [parse_value, g_scanner_get_next_token, htoks, h]

/-- The option loop on `key : { ... }` whose brace list parses to the `NULL`
chain without error: the table is left as it is and the loop goes on. -/
theorem parse_action_options_null_list (F : String → Option ObActionValue → Bool)
    (fuel : Nat) (config : List (String × ObActionValue)) (key : String) (s : ParseState)
    (rest : List Token) (s3 : ParseState)
    (htoks : s.toks = Token.IDENTIFIER key :: Token.CHAR ':' :: Token.CHAR '{' :: rest)
    (h : parse_list F fuel (Token.CHAR '}') { s with toks := rest } = some ([], s3))
    (he : s3.e = false) :
    parse_action_options F (fuel + 2) config s =
      parse_action_options F (fuel + 1) config s3 := by
  have hv := parse_value_null_list F fuel
    { s with toks := Token.CHAR '{' :: rest } rest s3 rfl h
  rw [parse_action_options]
  simp only [g_scanner_peek_next_token, g_scanner_get_next_token, htoks, List.headD_cons,
    List.tail_cons, ne_eq, not_true_eq_false, if_false, hv, he, Bool.false_eq_true]

/-- A brace list of separators only parses to the `NULL` chain, the closing
brace being read. -/
theorem parse_list_separators_brace (F : String → Option ObActionValue → Bool)
    (seps rest : List Token) (hseps : ∀ t ∈ seps, t.isSeparator = true) (fuel : Nat)
    (s : ParseState) (he : s.e = false) (htoks : s.toks = seps ++ Token.CHAR '}' :: rest) :
    parse_list F (fuel + 1 + seps.length + 1) (Token.CHAR '}') s =
      some ([], { s with toks := rest }) := by
  rw [parse_list, parse_list_loop_separators F (Token.CHAR '}') (by decide) seps
    (Token.CHAR '}' :: rest) (fuel + 1) [] LastPtr.NULL s hseps he htoks,
    parse_list_loop_end F fuel (Token.CHAR '}') [] LastPtr.NULL
      { s with toks := Token.CHAR '}' :: rest } (Or.inl rfl)]
  rfl

/-- An action one of whose options is `key : { separators }`: the node is the
one of the action without that option. -/
theorem parse_action_null_list_option (F : String → Option ObActionValue → Bool)
    (name key : String) (opts1 opts2 : List (String × String)) (seps rest : List Token)
    (hseps : ∀ t ∈ seps, t.isSeparator = true)
    (hstop : (rest.headD Token.EOF).endsOptions = true) (fuel : Nat)
    (hfuel : opts1.length + opts2.length + seps.length + 5 ≤ fuel) (s : ParseState)
    (he : s.e = false)
    (htoks : s.toks = Token.IDENTIFIER name :: optionToks opts1 ++
      Token.IDENTIFIER key :: Token.CHAR ':' :: Token.CHAR '{' :: seps ++
        Token.CHAR '}' :: optionToks opts2 ++ rest) :
    parse_action F fuel s =
      some ([ObActionList.action name (optionTable [] (opts1 ++ opts2))],
        { s with toks := rest }) := by
  obtain ⟨k, rfl, hk⟩ : ∃ k, fuel = (k + 1 + seps.length + 1 + 2 + opts1.length) + 1 ∧
      opts2.length ≤ k :=
    ⟨fuel - seps.length - opts1.length - 5, by omega, by omega⟩
  obtain ⟨sk, i1, i2, toks, msgs, e⟩ := s
  dsimp only at he htoks ⊢
  simp only [List.cons_append, List.append_assoc] at htoks
  subst he htoks
  rw [parse_action]
  simp only [g_scanner_get_next_token, List.headD_cons, List.tail_cons]
  have h1 := parse_action_options_leading F opts1
    (Token.IDENTIFIER key :: Token.CHAR ':' :: Token.CHAR '{' ::
      (seps ++ Token.CHAR '}' :: (optionToks opts2 ++ rest))) (k + 1 + seps.length + 1 + 2) []
    ⟨sk, i1, i2, optionToks opts1 ++
      (Token.IDENTIFIER key :: Token.CHAR ':' :: Token.CHAR '{' ::
        (seps ++ Token.CHAR '}' :: (optionToks opts2 ++ rest))), msgs, false⟩ rfl rfl (by omega)
  have h2 := parse_list_separators_brace F seps (optionToks opts2 ++ rest) hseps k
    ⟨sk, i1, i2, seps ++ Token.CHAR '}' :: (optionToks opts2 ++ rest), msgs, false⟩ rfl rfl
  have h3 := parse_action_options_null_list F (k + 1 + seps.length + 1)
    (optionTable [] opts1) key
    ⟨sk, i1, i2, Token.IDENTIFIER key :: Token.CHAR ':' :: Token.CHAR '{' ::
      (seps ++ Token.CHAR '}' :: (optionToks opts2 ++ rest)), msgs, false⟩
    (seps ++ Token.CHAR '}' :: (optionToks opts2 ++ rest))
    ⟨sk, i1, i2, optionToks opts2 ++ rest, msgs, false⟩ rfl h2 rfl
  have h4 := parse_action_options_plain F opts2 rest (k + 1 + seps.length + 1 + 1)
    (optionTable [] opts1) ⟨sk, i1, i2, optionToks opts2 ++ rest, msgs, false⟩ rfl rfl hstop
    (by omega)
  dsimp only at h1 h3 h4
  rw [h1, h3, h4, optionTable_append]
  simp

/-- C15: an option `key : { ... }` whose brace list parses to the `NULL` chain
without error gives no value and no error, and `parse_action` discards the key.
`parse_value` returns `NULL` in the state `parse_list` left; the option loop goes
on in that state with the option table unchanged; so an action
`name opts1 key:{ separators } opts2`, with identifiers as the other option
values, gives the Action node of `name opts1 opts2`, with no error and the input
read up to the token that ends the options, and the table has no entry for `key`
unless another option has that key. -/
theorem parse_action_discards_null_list_option (F : String → Option ObActionValue → Bool) :
    (∀ (fuel : Nat) (s : ParseState) (rest : List Token) (s3 : ParseState),
      s.toks = Token.CHAR '{' :: rest →
      parse_list F fuel (Token.CHAR '}') { s with toks := rest } = some ([], s3) →
      parse_value F (fuel + 1) true s = some (none, s3)) ∧
    (∀ (fuel : Nat) (config : List (String × ObActionValue)) (key : String) (s : ParseState)
        (rest : List Token) (s3 : ParseState),
      s.toks = Token.IDENTIFIER key :: Token.CHAR ':' :: Token.CHAR '{' :: rest →
      parse_list F fuel (Token.CHAR '}') { s with toks := rest } = some ([], s3) →
      s3.e = false →
      parse_action_options F (fuel + 2) config s =
        parse_action_options F (fuel + 1) config s3) ∧
    (∀ (name key : String) (opts1 opts2 : List (String × String)) (seps rest : List Token),
      (∀ t ∈ seps, t.isSeparator = true) → (rest.headD Token.EOF).endsOptions = true →
      ∀ fuel : Nat, opts1.length + opts2.length + seps.length + 5 ≤ fuel →
      parse_action F fuel
          (ParseState.init (Token.IDENTIFIER name :: optionToks opts1 ++
            Token.IDENTIFIER key :: Token.CHAR ':' :: Token.CHAR '{' :: seps ++
              Token.CHAR '}' :: optionToks opts2 ++ rest)) =
        some ([ObActionList.action name (optionTable [] (opts1 ++ opts2))],
          ParseState.init rest) ∧
      ((∀ kv ∈ opts1 ++ opts2, kv.1 ≠ key) →
        g_hash_table_lookup (optionTable [] (opts1 ++ opts2)) key = none)) := by
  refine ⟨fun fuel s rest s3 htoks h => parse_value_null_list F fuel s rest s3 htoks h,
    fun fuel config key s rest s3 htoks h he =>
      parse_action_options_null_list F fuel config key s rest s3 htoks h he, ?_⟩
  intro name key opts1 opts2 seps rest hseps hstop fuel hfuel
  refine ⟨parse_action_null_list_option F name key opts1 opts2 seps rest hseps hstop fuel
    hfuel _ rfl rfl, fun hk => ?_⟩
  rw [optionTable_lookup, lastValue_eq_none _ _ hk]
  rfl

theorem parse_action_discards_null_list_option_witness :
    parse_action (fun _ _ => true) 7
        (ParseState.init [Token.IDENTIFIER "foo", Token.IDENTIFIER "x", Token.CHAR ':',
          Token.CHAR '{', Token.CHAR '}', Token.IDENTIFIER "y", Token.CHAR ':',
          Token.IDENTIFIER "1"]) =
      some ([ObActionList.action "foo" [("y", ObActionValue.string (some "1"))]],
        ParseState.init []) ∧
    g_hash_table_lookup [("y", ObActionValue.string (some "1"))] "x" = none :=
  ⟨((parse_action_discards_null_list_option (fun _ _ => true)).2.2 "foo" "x" [] [("y", "1")]
      [] [] (by decide) (by decide) 7 (by decide)).1,
    ((parse_action_discards_null_list_option (fun _ _ => true)).2.2 "foo" "x" [] [("y", "1")]
      [] [] (by decide) (by decide) 7 (by decide)).2 (by decide)⟩

/-! ## Line continuation -/

/-- The option loop on a backslash followed by a newline: both are read and the
loop goes on with the table as it is. -/
theorem parse_action_options_continuation (F : String → Option ObActionValue → Bool)
    (fuel : Nat) (config : List (String × ObActionValue)) (s : ParseState)
    (rest : List Token) (he : s.e = false)
    (htoks : s.toks = Token.CHAR '\\' :: Token.CHAR '\n' :: rest) :
    parse_action_options F (fuel + 1) config s =
      parse_action_options F fuel config { s with toks := rest } := by
  obtain ⟨sk, i1, i2, toks, msgs, e⟩ := s
  dsimp only at he htoks ⊢
  subst he htoks
  rw [parse_action_options]
  simp [g_scanner_peek_next_token, g_scanner_get_next_token]

/-- The option loop on a backslash followed by a token other than a newline: both
are read, "Expected newline" is reported and the loop ends. -/
theorem parse_action_options_bad_continuation (F : String → Option ObActionValue → Bool)
    (fuel : Nat) (config : List (String × ObActionValue)) (s : ParseState)
    (htoks : s.toks.headD Token.EOF = Token.CHAR '\\')
    (ht : s.toks.tail.headD Token.EOF ≠ Token.CHAR '\n') :
    parse_action_options F (fuel + 1) config s =
      some (config, parse_error { s with toks := s.toks.tail.tail } G_TOKEN_NONE
        (some "Expected newline")) := by
  rw [parse_action_options]
  simp only [g_scanner_peek_next_token, g_scanner_get_next_token, htoks, if_true, ne_eq, ht,
    not_false_eq_true, parse_error]

theorem parse_action_continued (F : String → Option ObActionValue → Bool) (name : String)
    (opts1 opts2 : List (String × String)) (rest : List Token) (fuel : Nat)
    (sk i1 i2 : String) (msgs : List Diagnostic)
    (hstop : (rest.headD Token.EOF).endsOptions = true)
    (hfuel : opts1.length + opts2.length + 3 ≤ fuel) :
    parse_action F fuel ⟨sk, i1, i2, Token.IDENTIFIER name :: (optionToks opts1 ++
        Token.CHAR '\\' :: Token.CHAR '\n' :: (optionToks opts2 ++ rest)), msgs, false⟩ =
      some ([ObActionList.action name (optionTable [] (opts1 ++ opts2))],
        ⟨sk, i1, i2, rest, msgs, false⟩) := by
  obtain ⟨k, rfl, hk⟩ : ∃ k, fuel = (k + 1 + opts1.length) + 1 ∧ opts2.length + 1 ≤ k :=
    ⟨fuel - opts1.length - 2, by omega, by omega⟩
  rw [parse_action]
  simp only [g_scanner_get_next_token, List.headD_cons, List.tail_cons]
  have h1 := parse_action_options_leading F opts1
    (Token.CHAR '\\' :: Token.CHAR '\n' :: (optionToks opts2 ++ rest)) (k + 1) []
    ⟨sk, i1, i2, optionToks opts1 ++
      Token.CHAR '\\' :: Token.CHAR '\n' :: (optionToks opts2 ++ rest), msgs, false⟩
    rfl rfl (by omega)
  have h2 := parse_action_options_continuation F k (optionTable [] opts1)
    ⟨sk, i1, i2, Token.CHAR '\\' :: Token.CHAR '\n' :: (optionToks opts2 ++ rest), msgs, false⟩
    (optionToks opts2 ++ rest) rfl rfl
  have h3 := parse_action_options_plain F opts2 rest k (optionTable [] opts1)
    ⟨sk, i1, i2, optionToks opts2 ++ rest, msgs, false⟩ rfl rfl hstop hk
  dsimp only at h1 h2 h3
  rw [h1, h2, h3, optionTable_append]
  simp

theorem parse_action_bad_continuation (F : String → Option ObActionValue → Bool)
    (name : String) (opts1 : List (String × String)) (after : List Token) (fuel : Nat)
    (sk i1 i2 : String) (msgs : List Diagnostic)
    (ht : after.headD Token.EOF ≠ Token.CHAR '\n') (hfuel : opts1.length + 2 ≤ fuel) :
    parse_action F fuel ⟨sk, i1, i2, Token.IDENTIFIER name :: (optionToks opts1 ++
        Token.CHAR '\\' :: after), msgs, false⟩ =
      some ([ObActionList.action name (optionTable [] opts1)],
        ⟨sk, i1, i2, after.tail, msgs ++ [⟨G_TOKEN_NONE, some "Expected newline"⟩], true⟩) := by
  obtain ⟨k, rfl⟩ : ∃ k, fuel = (k + 1 + opts1.length) + 1 :=
    ⟨fuel - opts1.length - 2, by omega⟩
  rw [parse_action]
  simp only [g_scanner_get_next_token, List.headD_cons, List.tail_cons]
  have h1 := parse_action_options_leading F opts1 (Token.CHAR '\\' :: after) (k + 1) []
    ⟨sk, i1, i2, optionToks opts1 ++ Token.CHAR '\\' :: after, msgs, false⟩
    rfl rfl (by omega)
  have h2 := parse_action_options_bad_continuation F k (optionTable [] opts1)
    ⟨sk, i1, i2, Token.CHAR '\\' :: after, msgs, false⟩ rfl ht
  dsimp only [parse_error, List.tail_cons] at h1 h2
  rw [h1, h2]
  simp

/-- C17: line continuation is a no-op.  An action `name opts1 \ newline opts2`,
with identifiers as option values and followed by a token that ends the options,
gives without error the same Action node, and leaves the same state, as
`name opts1 opts2`: the options after the continuation are attached to the same
action (with `opts1` empty the continuation follows the name).  A backslash in
option position followed by a token other than a newline, or by the end of the
input, is read together with that token, "Expected newline" is reported, the
error flag is set and the action ends with the options read before it. -/
theorem parse_action_line_continuation (F : String → Option ObActionValue → Bool)
    (name : String) (opts1 : List (String × String)) (s : ParseState) (he : s.e = false) :
    (∀ (opts2 : List (String × String)) (rest : List Token) (fuel : Nat),
      (rest.headD Token.EOF).endsOptions = true →
      opts1.length + opts2.length + 3 ≤ fuel →
      parse_action F fuel { s with toks := Token.IDENTIFIER name :: (optionToks opts1 ++
          Token.CHAR '\\' :: Token.CHAR '\n' :: (optionToks opts2 ++ rest)) } =
        some ([ObActionList.action name (optionTable [] (opts1 ++ opts2))],
          { s with toks := rest }) ∧
      parse_action F fuel { s with toks := Token.IDENTIFIER name ::
          (optionToks (opts1 ++ opts2) ++ rest) } =
        some ([ObActionList.action name (optionTable [] (opts1 ++ opts2))],
          { s with toks := rest })) ∧
    (∀ (after : List Token) (fuel : Nat),
      after.headD Token.EOF ≠ Token.CHAR '\n' → opts1.length + 2 ≤ fuel →
      parse_action F fuel { s with toks := Token.IDENTIFIER name :: (optionToks opts1 ++
          Token.CHAR '\\' :: after) } =
        some ([ObActionList.action name (optionTable [] opts1)],
          parse_error { s with toks := after.tail } G_TOKEN_NONE
            (some "Expected newline"))) := by
  obtain ⟨sk, i1, i2, toks, msgs, e⟩ := s
  dsimp only at he
  subst he
  refine ⟨fun opts2 rest fuel hstop hfuel => ⟨?_, ?_⟩, fun after fuel ht hfuel => ?_⟩
  · exact parse_action_continued F name opts1 opts2 rest fuel sk i1 i2 msgs hstop hfuel
  · have h := parse_action_plain F name (opts1 ++ opts2) rest fuel
      ⟨sk, i1, i2, Token.IDENTIFIER name :: (optionToks (opts1 ++ opts2) ++ rest), msgs, false⟩
      rfl rfl hstop (by simp only [List.length_append]; omega)
    exact h
  · exact parse_action_bad_continuation F name opts1 after fuel sk i1 i2 msgs ht hfuel

theorem parse_action_line_continuation_witness :
    (parse_action (fun _ _ => true) 5
        { ParseState.init [] with toks := Token.IDENTIFIER "foo" ::
          (optionToks [("a", "1")] ++
            Token.CHAR '\\' :: Token.CHAR '\n' :: (optionToks [("b", "2")] ++ [Token.CHAR ';'])) } =
        some ([ObActionList.action "foo" (optionTable [] ([("a", "1")] ++ [("b", "2")]))],
          { ParseState.init [] with toks := [Token.CHAR ';'] }) ∧
      parse_action (fun _ _ => true) 5
        { ParseState.init [] with toks := Token.IDENTIFIER "foo" ::
          (optionToks ([("a", "1")] ++ [("b", "2")]) ++ [Token.CHAR ';']) } =
        some ([ObActionList.action "foo" (optionTable [] ([("a", "1")] ++ [("b", "2")]))],
          { ParseState.init [] with toks := [Token.CHAR ';'] })) ∧
    parse_action (fun _ _ => true) 3
        { ParseState.init [] with toks := Token.IDENTIFIER "foo" ::
          (optionToks [("a", "1")] ++ Token.CHAR '\\' :: [Token.IDENTIFIER "b"]) } =
      some ([ObActionList.action "foo" (optionTable [] [("a", "1")])],
        parse_error { ParseState.init [] with toks := [Token.IDENTIFIER "b"].tail }
          G_TOKEN_NONE (some "Expected newline")) :=
  ⟨(parse_action_line_continuation (fun _ _ => true) "foo" [("a", "1")] (ParseState.init [])
      rfl).1 [("b", "2")] [Token.CHAR ';'] 5 (by decide) (by decide),
    (parse_action_line_continuation (fun _ _ => true) "foo" [("a", "1")] (ParseState.init [])
      rfl).2 [Token.IDENTIFIER "b"] 3 (by decide) (by decide)⟩

/-! ## Elements after an empty group -/

/-- Appending to a non-`NULL` chain when `last` is `NULL` or points at a node out
of reach: the chain stays as it is, and `last` is again `NULL` or out of reach. -/
theorem parse_list_append_detached (first : List ObActionList) (last : LastPtr)
    (next : List ObActionList) (hfirst : first ≠ [])
    (hlast : last = LastPtr.NULL ∨ last = LastPtr.unreachable) :
    (parse_list_append first last next).1 = first ∧
      ((parse_list_append first last next).2 = LastPtr.NULL ∨
        (parse_list_append first last next).2 = LastPtr.unreachable) := by
  cases first with
  | nil => exact absurd rfl hfirst
  | cons x xs =>
    rcases hlast with h | h <;> subst h <;> cases next <;> simp [parse_list_append]

/-- Appending the `NULL` chain when `last` points at the last node: the chain
stays as it is and `last` becomes `NULL`. -/
theorem parse_list_append_null (first : List ObActionList) (hfirst : first ≠ []) :
    parse_list_append first (lastOf first) [] = (first, LastPtr.NULL) := by
  cases first with
  | nil => exact absurd rfl hfirst
  | cons x xs => simp [parse_list_append, lastOf, List.take_of_length_le]

/-- The list loop on plain actions, each followed by a separator, when the chain
is non-`NULL` and `last` is `NULL` or out of reach: no action is linked into the
chain. -/
theorem parse_list_loop_plain_actions_detached (F : String → Option ObActionValue → Bool)
    (end_ sep : Token) (hend : end_.isIdentifier = false ∧ end_.isSeparator = false)
    (hsep : sep.isSeparator = true) (as : List (String × List (String × String))) :
    ∀ (rest : List Token) (fuel : Nat) (first : List ObActionList) (last : LastPtr)
      (s : ParseState), first ≠ [] → (last = LastPtr.NULL ∨ last = LastPtr.unreachable) →
      s.e = false → s.toks = actionsToks sep as ++ rest →
      (∀ a ∈ as, a.2.length + 2 ≤ fuel) →
      ∃ last2, (last2 = LastPtr.NULL ∨ last2 = LastPtr.unreachable) ∧
        parse_list_loop F (fuel + 2 * as.length) end_ first last s =
          parse_list_loop F fuel end_ first last2 { s with toks := rest } := by
  induction as with
  | nil =>
    intro rest fuel first last s _ hlast he htoks _
    obtain ⟨sk, i1, i2, toks, msgs, e⟩ := s
    dsimp only at he htoks ⊢
    simp only [actionsToks, List.nil_append] at htoks
    subst he htoks
    exact ⟨last, hlast, by simp⟩
  | cons a as ih =>
    intro rest fuel first last s hfirst hlast he htoks hfuel
    obtain ⟨sk, i1, i2, toks, msgs, e⟩ := s
    dsimp only at he htoks ⊢
    simp only [actionsToks, actionToks, List.cons_append, List.append_assoc] at htoks
    subst he htoks
    have hf : fuel + 2 * (a :: as).length = (fuel + 2 * as.length + 1) + 1 := by
      simp only [List.length_cons]
      omega
    have ha : a.2.length + 2 ≤ fuel + 2 * as.length + 1 := by
      have := hfuel a (List.mem_cons_self _ _)
      omega
    have hstop : ((sep :: (actionsToks sep as ++ rest)).headD Token.EOF).endsOptions = true := by
      have : sep = Token.CHAR '\n' ∨ sep = Token.CHAR ';' := by
        simpa [Token.isSeparator] using hsep
      rcases this with h | h <;> subst h <;> rfl
    have hp := parse_list_loop_plain F a.1 a.2 (sep :: (actionsToks sep as ++ rest)) _ end_ first
      last ⟨sk, i1, i2, _, msgs, false⟩ rfl rfl hstop ha hend.1
    simp only [List.cons_append] at hp
    obtain ⟨hd1, hd2⟩ := parse_list_append_detached first last
      [ObActionList.action a.1 (optionTable [] a.2)] hfirst hlast
    have h1 := parse_list_loop_separators F end_ hend.2 [sep] (actionsToks sep as ++ rest)
      (fuel + 2 * as.length) first
      (parse_list_append first last [ObActionList.action a.1 (optionTable [] a.2)]).2
      ⟨sk, i1, i2, sep :: (actionsToks sep as ++ rest), msgs, false⟩
      (by simpa using hsep) rfl rfl
    simp only [List.length_singleton] at h1
    obtain ⟨last2, hl2, h3⟩ := ih rest fuel first
      (parse_list_append first last [ObActionList.action a.1 (optionTable [] a.2)]).2
      ⟨sk, i1, i2, actionsToks sep as ++ rest, msgs, false⟩ hfirst hd2 rfl rfl
      (fun b hb => hfuel b (List.mem_cons_of_mem _ hb))
    refine ⟨last2, hl2, ?_⟩
    rw [hf, hp, hd1, h1]
    exact h3

/-- The list loop on an empty group `{ }` when `last` points at the last node of
a non-`NULL` chain: the chain stays as it is and `last` becomes `NULL`. -/
theorem parse_list_loop_empty_group (F : String → Option ObActionValue → Bool)
    (end_ : Token) (hend : end_ ≠ Token.CHAR '{') (rest : List Token) (fuel : Nat)
    (first : List ObActionList) (hfirst : first ≠ []) (sk i1 i2 : String)
    (msgs : List Diagnostic) :
    parse_list_loop F (fuel + 4) end_ first (lastOf first)
        ⟨sk, i1, i2, Token.CHAR '{' :: Token.CHAR '}' :: rest, msgs, false⟩ =
      parse_list_loop F (fuel + 3) end_ first LastPtr.NULL ⟨sk, i1, i2, rest, msgs, false⟩ := by
  have ha : parse_action F (fuel + 3)
      ⟨sk, i1, i2, Token.CHAR '{' :: Token.CHAR '}' :: rest, msgs, false⟩ =
      some ([], ⟨sk, i1, i2, rest, msgs, false⟩) := by
    rw [parse_action]
    simp only [g_scanner_get_next_token, List.headD_cons, List.tail_cons]
    rw [if_pos trivial, parse_list,
      parse_list_loop_end F fuel (Token.CHAR '}') [] LastPtr.NULL
        ⟨sk, i1, i2, Token.CHAR '}' :: rest, msgs, false⟩ (Or.inl rfl)]
    rfl
  rw [parse_list_loop]
  simp only [g_scanner_peek_next_token, List.headD_cons, ha, parse_list_append_null first hfirst]
  simp [Ne.symm hend, Token.isIdentifier]

/-- The list loop up to the end of the input on plain actions, the last of which
may lack its separator, when the chain is non-`NULL` and `last` is `NULL` or out
of reach: the chain is returned as it is. -/
theorem parse_list_loop_detached_to_end (F : String → Option ObActionValue → Bool)
    (as : List (String × List (String × String))) (fin : List Token)
    (hfin : fin = [] ∨ ∃ c : String × List (String × String), fin = actionToks c)
    (first : List ObActionList) (last : LastPtr) (hfirst : first ≠ [])
    (hlast : last = LastPtr.NULL ∨ last = LastPtr.unreachable) (k : Nat)
    (hk : ∀ a ∈ as, a.2.length + 2 ≤ k + 2) (hkfin : fin.length + 1 ≤ k)
    (sk i1 i2 : String) (msgs : List Diagnostic) :
    parse_list_loop F (k + 2 + 2 * as.length) Token.EOF first last
        ⟨sk, i1, i2, actionsToks (Token.CHAR ';') as ++ fin, msgs, false⟩ =
      some (first, ⟨sk, i1, i2, [], msgs, false⟩) := by
  obtain ⟨last2, hl2, h⟩ := parse_list_loop_plain_actions_detached F Token.EOF (Token.CHAR ';')
    (by decide) (by decide) as fin (k + 2) first last
    ⟨sk, i1, i2, actionsToks (Token.CHAR ';') as ++ fin, msgs, false⟩ hfirst hlast rfl rfl hk
  rw [h]
  dsimp only
  rcases hfin with hfin | ⟨c, hfin⟩
  · subst hfin
    rw [parse_list_loop_end F (k + 1) Token.EOF first last2
      ⟨sk, i1, i2, [], msgs, false⟩ (Or.inr rfl)]
    rfl
  · subst hfin
    have hc : c.2.length + 2 ≤ k + 1 := by
      simp only [actionToks, List.length_cons, optionToks_length] at hkfin
      omega
    have hp := parse_list_loop_plain F c.1 c.2 [] (k + 1) Token.EOF first last2
      ⟨sk, i1, i2, actionToks c, msgs, false⟩ rfl (by simp [actionToks]) rfl hc rfl
    obtain ⟨hd1, -⟩ := parse_list_append_detached first last2
      [ObActionList.action c.1 (optionTable [] c.2)] hfirst hl2
    rw [hp, hd1, parse_list_loop_end F k Token.EOF first _
      ⟨sk, i1, i2, [], msgs, false⟩ (Or.inr rfl)]
    rfl

theorem parse_list_after_empty_group (F : String → Option ObActionValue → Bool)
    (as1 as2 : List (String × List (String × String))) (fin : List Token)
    (has1 : as1 ≠ [])
    (hfin : fin = [] ∨ ∃ c : String × List (String × String), fin = actionToks c) :
    parse_list F
        (4 * (actionsToks (Token.CHAR ';') as1 ++ Token.CHAR '{' :: Token.CHAR '}' ::
          Token.CHAR ';' :: (actionsToks (Token.CHAR ';') as2 ++ fin)).length + 8) Token.EOF
        (ParseState.init (actionsToks (Token.CHAR ';') as1 ++ Token.CHAR '{' ::
          Token.CHAR '}' :: Token.CHAR ';' :: (actionsToks (Token.CHAR ';') as2 ++ fin))) =
      some (as1.map actionNode, ParseState.init []) := by
  obtain ⟨hopts1, hlen1⟩ := actionsToks_length (Token.CHAR ';') as1
  obtain ⟨hopts2, hlen2⟩ := actionsToks_length (Token.CHAR ';') as2
  obtain ⟨k, hN, hk⟩ : ∃ k,
      4 * (actionsToks (Token.CHAR ';') as1 ++ Token.CHAR '{' :: Token.CHAR '}' ::
        Token.CHAR ';' :: (actionsToks (Token.CHAR ';') as2 ++ fin)).length + 8 =
        (k + 2 * as2.length + 4 + 2 * as1.length) + 1 ∧
      (actionsToks (Token.CHAR ';') as1).length + (actionsToks (Token.CHAR ';') as2).length +
        fin.length + 1 ≤ k :=
    ⟨4 * (actionsToks (Token.CHAR ';') as1 ++ Token.CHAR '{' :: Token.CHAR '}' ::
        Token.CHAR ';' :: (actionsToks (Token.CHAR ';') as2 ++ fin)).length + 8 -
        2 * as2.length - 2 * as1.length - 5,
      by simp only [List.length_append, List.length_cons]; omega,
      by simp only [List.length_append, List.length_cons]; omega⟩
  have hne : as1.map actionNode ≠ [] := by
    cases as1 with
    | nil => exact absurd rfl has1
    | cons a as => simp
  rw [hN, parse_list]
  have h1 := parse_list_loop_plain_actions F Token.EOF (Token.CHAR ';') (by decide) (by decide)
    as1 (Token.CHAR '{' :: Token.CHAR '}' :: Token.CHAR ';' ::
      (actionsToks (Token.CHAR ';') as2 ++ fin)) (k + 2 * as2.length + 4) []
    (ParseState.init (actionsToks (Token.CHAR ';') as1 ++ Token.CHAR '{' ::
      Token.CHAR '}' :: Token.CHAR ';' :: (actionsToks (Token.CHAR ';') as2 ++ fin))) rfl rfl
    (fun a ha => by have := hopts1 a ha; omega)
  have h0 : lastOf ([] : List ObActionList) = LastPtr.NULL := rfl
  rw [h0] at h1
  simp only [List.nil_append, ParseState.init] at h1
  have h2 := parse_list_loop_empty_group F Token.EOF (by decide)
    (Token.CHAR ';' :: (actionsToks (Token.CHAR ';') as2 ++ fin)) (k + 2 * as2.length)
    (as1.map actionNode) hne SKIP IDENTIFIER_FIRST IDENTIFIER_NTH []
  have h3 := parse_list_loop_separators F Token.EOF (by decide) [Token.CHAR ';']
    (actionsToks (Token.CHAR ';') as2 ++ fin) (k + 2 * as2.length + 2) (as1.map actionNode)
    LastPtr.NULL
    ⟨SKIP, IDENTIFIER_FIRST, IDENTIFIER_NTH,
      Token.CHAR ';' :: (actionsToks (Token.CHAR ';') as2 ++ fin), [], false⟩
    (by decide) rfl rfl
  simp only [List.length_singleton] at h3
  have h4 := parse_list_loop_detached_to_end F as2 fin hfin (as1.map actionNode) LastPtr.NULL
    hne (Or.inl rfl) k (fun a ha => by have := hopts2 a ha; omega) (by omega)
    SKIP IDENTIFIER_FIRST IDENTIFIER_NTH []
  have e : k + 2 * as2.length + 2 = k + 2 + 2 * as2.length := by omega
  rw [e] at h3
  have e2 : k + 2 * as2.length + 3 = k + 2 + 2 * as2.length + 1 := by omega
  simp only [ParseState.init]
  rw [h1, h2, e2, h3, h4]

/-- A top-level list of plain actions, each followed by `;`: the chain has the
node of every action, in input order. -/
theorem parse_list_plain_actions (F : String → Option ObActionValue → Bool)
    (as : List (String × List (String × String))) :
    parse_list F (4 * (actionsToks (Token.CHAR ';') as).length + 8) Token.EOF
        (ParseState.init (actionsToks (Token.CHAR ';') as)) =
      some (as.map actionNode, ParseState.init []) := by
  obtain ⟨hopts, hlen⟩ := actionsToks_length (Token.CHAR ';') as
  obtain ⟨k, hN, hk⟩ : ∃ k,
      4 * (actionsToks (Token.CHAR ';') as).length + 8 = (k + 1 + 2 * as.length) + 1 ∧
      (actionsToks (Token.CHAR ';') as).length ≤ k :=
    ⟨4 * (actionsToks (Token.CHAR ';') as).length + 8 - 2 * as.length - 2, by omega, by omega⟩
  rw [hN, parse_list]
  have h1 := parse_list_loop_plain_actions F Token.EOF (Token.CHAR ';') (by decide) (by decide)
    as [] (k + 1) [] (ParseState.init (actionsToks (Token.CHAR ';') as)) rfl
    (by simp [ParseState.init])
    (fun a ha => by have := hopts a ha; omega)
  have h0 : lastOf ([] : List ObActionList) = LastPtr.NULL := rfl
  rw [h0] at h1
  simp only [List.nil_append, ParseState.init] at h1
  simp only [ParseState.init]
  rw [h1, parse_list_loop_end F k Token.EOF _ _
    ⟨SKIP, IDENTIFIER_FIRST, IDENTIFIER_NTH, [], [], false⟩ (Or.inr rfl)]
  rfl

/-- C19: in `parse_list`, an element that parses to the `NULL` chain without
error resets `last` to `NULL` while `first` is kept, and from then on no element
is linked into the chain from `first`: appending to a non-`NULL` chain with
`last` `NULL` or out of reach leaves the chain as it is.  So for plain actions
`A1 ; ... ; An ; { } ; B1 ; ... ; Bm ;`, with `n ≥ 1` and the last separator
optional, the top-level chain is `A1, ..., An` only, with no error and the whole
input read.  By contrast the chain of `A1 ; ... ; An ;` has the node of every
action once, in input order. -/
theorem parse_list_empty_group_detaches (F : String → Option ObActionValue → Bool) :
    (∀ first : List ObActionList, first ≠ [] →
      parse_list_append first (lastOf first) [] = (first, LastPtr.NULL)) ∧
    (∀ (first : List ObActionList) (last : LastPtr) (next : List ObActionList),
      first ≠ [] → (last = LastPtr.NULL ∨ last = LastPtr.unreachable) →
      (parse_list_append first last next).1 = first ∧
        ((parse_list_append first last next).2 = LastPtr.NULL ∨
          (parse_list_append first last next).2 = LastPtr.unreachable)) ∧
    (∀ (as1 as2 : List (String × List (String × String))) (fin : List Token),
      as1 ≠ [] → (fin = [] ∨ ∃ c : String × List (String × String), fin = actionToks c) →
      parse_list F
          (4 * (actionsToks (Token.CHAR ';') as1 ++ Token.CHAR '{' :: Token.CHAR '}' ::
            Token.CHAR ';' :: (actionsToks (Token.CHAR ';') as2 ++ fin)).length + 8) Token.EOF
          (ParseState.init (actionsToks (Token.CHAR ';') as1 ++ Token.CHAR '{' ::
            Token.CHAR '}' :: Token.CHAR ';' :: (actionsToks (Token.CHAR ';') as2 ++ fin))) =
        some (as1.map actionNode, ParseState.init [])) ∧
    (∀ as : List (String × List (String × String)),
      parse_list F (4 * (actionsToks (Token.CHAR ';') as).length + 8) Token.EOF
          (ParseState.init (actionsToks (Token.CHAR ';') as)) =
        some (as.map actionNode, ParseState.init [])) :=
  ⟨fun first hfirst => parse_list_append_null first hfirst,
    fun first last next hfirst hlast => parse_list_append_detached first last next hfirst hlast,
    fun as1 as2 fin has1 hfin => parse_list_after_empty_group F as1 as2 fin has1 hfin,
    fun as => parse_list_plain_actions F as⟩

theorem parse_list_empty_group_detaches_witness :
    parse_list (fun _ _ => true)
        (4 * (actionsToks (Token.CHAR ';') [("a", [])] ++ Token.CHAR '{' :: Token.CHAR '}' ::
          Token.CHAR ';' :: (actionsToks (Token.CHAR ';') [("b", [])] ++
            [Token.IDENTIFIER "c"])).length + 8) Token.EOF
        (ParseState.init (actionsToks (Token.CHAR ';') [("a", [])] ++ Token.CHAR '{' ::
          Token.CHAR '}' :: Token.CHAR ';' :: (actionsToks (Token.CHAR ';') [("b", [])] ++
            [Token.IDENTIFIER "c"]))) =
      some ([("a", [])].map actionNode, ParseState.init []) :=
  (parse_list_empty_group_detaches (fun _ _ => true)).2.2.1 [("a", [])] [("b", [])]
    [Token.IDENTIFIER "c"] (List.cons_ne_nil _ _) (Or.inr ⟨("c", []), rfl⟩)

/-! ## A brace list that is not closed -/

/-- The list loop of a brace list on plain actions separated by `;`, the last
one with or without its `;`, up to the closing brace or, without one, up to the
end of the input: the chain of the actions is returned and no error is
reported. -/
theorem parse_list_loop_brace_actions (F : String → Option ObActionValue → Bool)
    (as cs : List (String × List (String × String))) (fin tail : List Token)
    (hfin : (fin = [] ∧ cs = []) ∨
      ∃ c : String × List (String × String), fin = actionToks c ∧ cs = [c])
    (htail : tail = [] ∨ tail = [Token.CHAR '}']) (k : Nat)
    (hk : ∀ a ∈ as, a.2.length + 2 ≤ k + 2) (hkfin : fin.length ≤ k)
    (sk i1 i2 : String) (msgs : List Diagnostic) :
    parse_list_loop F (k + 2 + 2 * as.length) (Token.CHAR '}') [] LastPtr.NULL
        ⟨sk, i1, i2, actionsToks (Token.CHAR ';') as ++ (fin ++ tail), msgs, false⟩ =
      some ((as ++ cs).map actionNode, ⟨sk, i1, i2, [], msgs, false⟩) := by
  have h := parse_list_loop_plain_actions F (Token.CHAR '}') (Token.CHAR ';')
    (by decide) (by decide) as (fin ++ tail) (k + 2) []
    ⟨sk, i1, i2, actionsToks (Token.CHAR ';') as ++ (fin ++ tail), msgs, false⟩ rfl rfl hk
  have h0 : lastOf ([] : List ObActionList) = LastPtr.NULL := rfl
  rw [h0] at h
  simp only [List.nil_append] at h
  rw [h]
  have hstop : (tail.headD Token.EOF).endsOptions = true := by
    rcases htail with ht | ht <;> subst ht <;> rfl
  have hpeek : g_scanner_peek_next_token ⟨sk, i1, i2, tail, msgs, false⟩ = Token.CHAR '}' ∨
      g_scanner_peek_next_token ⟨sk, i1, i2, tail, msgs, false⟩ = Token.EOF := by
    rcases htail with ht | ht <;> subst ht
    · exact Or.inr rfl
    · exact Or.inl rfl
  have hget : (g_scanner_get_next_token ⟨sk, i1, i2, tail, msgs, false⟩).2 =
      ⟨sk, i1, i2, [], msgs, false⟩ := by
    rcases htail with ht | ht <;> subst ht <;> rfl
  rcases hfin with ⟨hf, hc⟩ | ⟨c, hf, hc⟩
  · subst hf hc
    simp only [List.nil_append, List.append_nil]
    rw [parse_list_loop_end F (k + 1) (Token.CHAR '}') _ _
      ⟨sk, i1, i2, tail, msgs, false⟩ hpeek, hget]
  · subst hf hc
    have hc2 : c.2.length + 2 ≤ k + 1 := by
      simp only [actionToks, List.length_cons, optionToks_length] at hkfin
      omega
    have hp := parse_list_loop_plain F c.1 c.2 tail (k + 1) (Token.CHAR '}')
      (as.map actionNode) (lastOf (as.map actionNode))
      ⟨sk, i1, i2, actionToks c ++ tail, msgs, false⟩ rfl (by simp [actionToks]) hstop hc2 rfl
    have ha := parse_list_append_lastOf (as.map actionNode) (actionNode c)
    simp only [actionNode] at ha hp
    rw [ha] at hp
    dsimp only at hp ⊢
    rw [hp, parse_list_loop_end F k (Token.CHAR '}') _ _
      ⟨sk, i1, i2, tail, msgs, false⟩ hpeek, hget]
    simp [actionNode]

theorem parse_list_brace_actions (F : String → Option ObActionValue → Bool)
    (as cs : List (String × List (String × String))) (fin tail : List Token)
    (hfin : (fin = [] ∧ cs = []) ∨
      ∃ c : String × List (String × String), fin = actionToks c ∧ cs = [c])
    (htail : tail = [] ∨ tail = [Token.CHAR '}']) (fuel : Nat)
    (hfuel : 2 * (actionsToks (Token.CHAR ';') as ++ fin).length + 3 ≤ fuel)
    (sk i1 i2 : String) (msgs : List Diagnostic) :
    parse_list F fuel (Token.CHAR '}')
        ⟨sk, i1, i2, actionsToks (Token.CHAR ';') as ++ (fin ++ tail), msgs, false⟩ =
      some ((as ++ cs).map actionNode, ⟨sk, i1, i2, [], msgs, false⟩) := by
  obtain ⟨hopts, hlen⟩ := actionsToks_length (Token.CHAR ';') as
  simp only [List.length_append] at hfuel
  obtain ⟨k, rfl, hk⟩ : ∃ k, fuel = (k + 2 + 2 * as.length) + 1 ∧
      (actionsToks (Token.CHAR ';') as).length + fin.length ≤ k :=
    ⟨fuel - 2 * as.length - 3, by omega, by omega⟩
  rw [parse_list]
  exact parse_list_loop_brace_actions F as cs fin tail hfin htail k
    (fun a ha => by have := hopts a ha; omega) (by omega) sk i1 i2 msgs

/-- An action whose last option is `key : {` followed by plain actions up to the
end of the input, without a closing brace: the option holds the nested list of
those actions and no error is reported. -/
theorem parse_action_unclosed_option (F : String → Option ObActionValue → Bool)
    (name key : String) (as : List (String × List (String × String)))
    (c : String × List (String × String)) (tail : List Token)
    (htail : tail = [] ∨ tail = [Token.CHAR '}']) (j : Nat)
    (hj : 2 * (actionsToks (Token.CHAR ';') as ++ actionToks c).length + 3 ≤ j + 1)
    (sk i1 i2 : String) (msgs : List Diagnostic) :
    parse_action F (j + 4)
        ⟨sk, i1, i2, Token.IDENTIFIER name :: Token.IDENTIFIER key :: Token.CHAR ':' ::
          Token.CHAR '{' :: (actionsToks (Token.CHAR ';') as ++ (actionToks c ++ tail)),
          msgs, false⟩ =
      some ([ObActionList.action name
          [(key, ObActionValue.action_list ((as ++ [c]).map actionNode))]],
        ⟨sk, i1, i2, [], msgs, false⟩) := by
  have hl := parse_list_brace_actions F as [c] (actionToks c) tail (Or.inr ⟨c, rfl, rfl⟩) htail
    (j + 1) hj sk i1 i2 msgs
  have hne : ((as ++ [c]).map actionNode).isEmpty = false := by simp
  have hv : parse_value F (j + 2) true
      ⟨sk, i1, i2, Token.CHAR '{' :: (actionsToks (Token.CHAR ';') as ++ (actionToks c ++ tail)),
        msgs, false⟩ =
      some (some (ObActionValue.action_list ((as ++ [c]).map actionNode)),
        ⟨sk, i1, i2, [], msgs, false⟩) := by
    rw [parse_value]
    simp only [g_scanner_get_next_token, List.headD_cons, List.tail_cons, hl,
      action_value_new_action_list, hne]
    simp
  have hend : parse_action_options F (j + 2)
      [(key, ObActionValue.action_list ((as ++ [c]).map actionNode))]
      ⟨sk, i1, i2, [], msgs, false⟩ =
      some ([(key, ObActionValue.action_list ((as ++ [c]).map actionNode))],
        ⟨sk, i1, i2, [], msgs, false⟩) := by
    rw [parse_action_options]
    rfl
  rw [parse_action]
  simp only [g_scanner_get_next_token, List.headD_cons, List.tail_cons]
  rw [parse_action_options]
  simp only [g_scanner_peek_next_token, g_scanner_get_next_token, List.headD_cons,
    List.tail_cons, ne_eq, not_true_eq_false, if_false, hv, Bool.false_eq_true]
  have hr : g_hash_table_replace [] key
      (ObActionValue.action_list ((as ++ [c]).map actionNode)) =
      [(key, ObActionValue.action_list ((as ++ [c]).map actionNode))] := rfl
  rw [hr, hend]
  simp

theorem parse_list_unclosed_option (F : String → Option ObActionValue → Bool)
    (name key : String) (as : List (String × List (String × String)))
    (c : String × List (String × String)) :
    parse_list F
        (4 * (Token.IDENTIFIER name :: Token.IDENTIFIER key :: Token.CHAR ':' ::
          Token.CHAR '{' :: (actionsToks (Token.CHAR ';') as ++ actionToks c)).length + 8)
        Token.EOF
        (ParseState.init (Token.IDENTIFIER name :: Token.IDENTIFIER key :: Token.CHAR ':' ::
          Token.CHAR '{' :: (actionsToks (Token.CHAR ';') as ++ actionToks c))) =
      some ([ObActionList.action name
          [(key, ObActionValue.action_list ((as ++ [c]).map actionNode))]],
        ParseState.init []) := by
  obtain ⟨j, hN, hj⟩ : ∃ j,
      4 * (Token.IDENTIFIER name :: Token.IDENTIFIER key :: Token.CHAR ':' ::
        Token.CHAR '{' :: (actionsToks (Token.CHAR ';') as ++ actionToks c)).length + 8 =
        (j + 4 + 1) + 1 ∧
      2 * (actionsToks (Token.CHAR ';') as ++ actionToks c).length + 3 ≤ j + 1 :=
    ⟨4 * (Token.IDENTIFIER name :: Token.IDENTIFIER key :: Token.CHAR ':' ::
        Token.CHAR '{' :: (actionsToks (Token.CHAR ';') as ++ actionToks c)).length + 8 - 6,
      by simp only [List.length_cons]; omega, by simp only [List.length_cons]; omega⟩
  have ha := parse_action_unclosed_option F name key as c [] (Or.inl rfl) j hj
    SKIP IDENTIFIER_FIRST IDENTIFIER_NTH []
  simp only [List.append_nil] at ha
  rw [hN, parse_list, parse_list_loop]
  simp only [ParseState.init, g_scanner_peek_next_token, List.headD_cons, ha]
  rw [parse_list_loop_end F (j + 3) Token.EOF _ _
    ⟨SKIP, IDENTIFIER_FIRST, IDENTIFIER_NTH, [], [], false⟩ (Or.inr rfl)]
  simp [Token.isIdentifier, parse_list_append, g_scanner_get_next_token]

/-- C20: a brace list that is not closed is accepted silently.  At the end of
the input the loop of `parse_list` with terminator `}` returns `first` and
leaves the state, and so the error flag, as it is, which is also what it does
on a closing brace followed by the end of the input.  So for plain actions
separated by `;`, the last one with or without its `;`, `parse_list` with
terminator `}` returns the chain of the actions and leaves the error flag unset
whether the input ends there or a `}` stands before its end, with the same
final state.  At top level, `name key : {` followed by such actions up to the
end of the input gives one Action node whose option `key` is the nested list of
those actions, with no diagnostic and the error flag unset. -/
theorem parse_list_unclosed_brace (F : String → Option ObActionValue → Bool) :
    (∀ (fuel : Nat) (first : List ObActionList) (last : LastPtr) (s : ParseState),
      parse_list_loop F (fuel + 1) (Token.CHAR '}') first last { s with toks := [] } =
          some (first, { s with toks := [] }) ∧
        parse_list_loop F (fuel + 1) (Token.CHAR '}') first last
            { s with toks := [Token.CHAR '}'] } =
          some (first, { s with toks := [] })) ∧
    (∀ (as cs : List (String × List (String × String))) (fin : List Token) (fuel : Nat)
        (s : ParseState),
      ((fin = [] ∧ cs = []) ∨
        ∃ c : String × List (String × String), fin = actionToks c ∧ cs = [c]) →
      2 * (actionsToks (Token.CHAR ';') as ++ fin).length + 3 ≤ fuel → s.e = false →
      parse_list F fuel (Token.CHAR '}')
            { s with toks := actionsToks (Token.CHAR ';') as ++ fin } =
          some ((as ++ cs).map actionNode, { s with toks := [] }) ∧
        parse_list F fuel (Token.CHAR '}')
            { s with toks := actionsToks (Token.CHAR ';') as ++ (fin ++ [Token.CHAR '}']) } =
          some ((as ++ cs).map actionNode, { s with toks := [] })) ∧
    (∀ (name key : String) (as : List (String × List (String × String)))
        (c : String × List (String × String)),
      parse_list F
          (4 * (Token.IDENTIFIER name :: Token.IDENTIFIER key :: Token.CHAR ':' ::
            Token.CHAR '{' :: (actionsToks (Token.CHAR ';') as ++ actionToks c)).length + 8)
          Token.EOF
          (ParseState.init (Token.IDENTIFIER name :: Token.IDENTIFIER key :: Token.CHAR ':' ::
            Token.CHAR '{' :: (actionsToks (Token.CHAR ';') as ++ actionToks c))) =
        some ([ObActionList.action name
            [(key, ObActionValue.action_list ((as ++ [c]).map actionNode))]],
          ParseState.init [])) := by
  refine ⟨fun fuel first last s => ⟨?_, ?_⟩, ?_,
    fun name key as c => parse_list_unclosed_option F name key as c⟩
  · rw [parse_list_loop_end F fuel (Token.CHAR '}') first last { s with toks := [] }
      (Or.inr rfl)]
    rfl
  · rw [parse_list_loop_end F fuel (Token.CHAR '}') first last
      { s with toks := [Token.CHAR '}'] } (Or.inl rfl)]
    rfl
  · intro as cs fin fuel s hfin hfuel he
    obtain ⟨sk, i1, i2, toks, msgs, e⟩ := s
    dsimp only at he ⊢
    subst he
    have h1 := parse_list_brace_actions F as cs fin [] hfin (Or.inl rfl) fuel hfuel sk i1 i2 msgs
    have h2 := parse_list_brace_actions F as cs fin [Token.CHAR '}'] hfin (Or.inr rfl) fuel
      hfuel sk i1 i2 msgs
    simp only [List.append_nil] at h1
    exact ⟨h1, h2⟩

theorem parse_list_unclosed_brace_witness :
    parse_list (fun _ _ => true)
        (4 * (Token.IDENTIFIER "foo" :: Token.IDENTIFIER "x" :: Token.CHAR ':' ::
          Token.CHAR '{' :: (actionsToks (Token.CHAR ';') [] ++ actionToks ("bar", []))).length + 8)
        Token.EOF
        (ParseState.init (Token.IDENTIFIER "foo" :: Token.IDENTIFIER "x" :: Token.CHAR ':' ::
          Token.CHAR '{' :: (actionsToks (Token.CHAR ';') [] ++ actionToks ("bar", [])))) =
      some ([ObActionList.action "foo"
          [("x", ObActionValue.action_list [ObActionList.action "bar" []])]],
        ParseState.init []) ∧
    (parse_list (fun _ _ => true) 20 (Token.CHAR '}')
          { ParseState.init [] with
            toks := actionsToks (Token.CHAR ';') [("a", [])] ++ actionToks ("b", []) } =
        some (([("a", [])] ++ [("b", [])]).map actionNode,
          { ParseState.init [] with toks := [] }) ∧
      parse_list (fun _ _ => true) 20 (Token.CHAR '}')
          { ParseState.init [] with
            toks := actionsToks (Token.CHAR ';') [("a", [])] ++
              (actionToks ("b", []) ++ [Token.CHAR '}']) } =
        some (([("a", [])] ++ [("b", [])]).map actionNode,
          { ParseState.init [] with toks := [] })) :=
  ⟨(parse_list_unclosed_brace (fun _ _ => true)).2.2 "foo" "x" [] ("bar", []),
    (parse_list_unclosed_brace (fun _ _ => true)).2.1 [("a", [])] [("b", [])]
      (actionToks ("b", [])) 20 (ParseState.init [])
      (Or.inr ⟨("b", []), rfl, rfl⟩) (by decide) rfl⟩

/-! ## One diagnostic for each parse, and termination -/

/-- C12: for every input, the top-level `parse_list` of
`action_parser_read_string` returns, and it has emitted at most one diagnostic:
none when the error flag is unset on return, exactly one when it is set.  So the
flag is never set without a diagnostic, and no diagnostic follows the one that
came with the flag. -/
theorem parse_emits_one_diagnostic (F : String → Option ObActionValue → Bool)
    (text : List Token) :
    ∃ r s', parse_list F (4 * text.length + 8) Token.EOF (ParseState.init text) = some (r, s') ∧
      ((s'.e = false ∧ s'.msgs = []) ∨ (s'.e = true ∧ ∃ d, s'.msgs = [d])) ∧
      s'.msgs.length ≤ 1 ∧ (s'.msgs.length = 1 ↔ s'.e = true) := by
  obtain ⟨r, s', h, -, hd⟩ := (parsers_return F (4 * text.length + 8)).1 Token.EOF
    (ParseState.init text) (by simp only [ParseState.init]; omega)
  refine ⟨r, s', h, ?_⟩
  rcases hd rfl with ⟨he, hm⟩ | ⟨he, d, hm⟩
  · have hm2 : s'.msgs = [] := hm
    exact ⟨Or.inl ⟨he, hm2⟩, by simp [hm2], by simp [hm2, he]⟩
  · have hm2 : s'.msgs = [d] := hm
    exact ⟨Or.inr ⟨he, d, hm2⟩, by simp [hm2], by simp [hm2, he]⟩

/-! ## The result does not depend on the fuel -/

theorem parse_value_fuel (F : String → Option ObActionValue → Bool) (fuel : Nat)
    (hL : ∀ end_ s, parse_list F fuel end_ s ≠ none →
      parse_list F (fuel + 1) end_ s = parse_list F fuel end_ s) :
    ∀ allow_actions s, parse_value F (fuel + 1) allow_actions s ≠ none →
      parse_value F (fuel + 1 + 1) allow_actions s = parse_value F (fuel + 1) allow_actions s := by
  intro allow_actions s hne
  rw [parse_value] at hne
  rw [parse_value]
  conv_rhs => rw [parse_value]
  simp only [g_scanner_get_next_token] at hne ⊢
  repeat' split
  all_goals first
    | rfl
    | simp_all

theorem parse_filter_test_fuel (F : String → Option ObActionValue → Bool) (fuel : Nat)
    (hT : ∀ s, parse_filter_test F fuel s ≠ none →
      parse_filter_test F (fuel + 1) s = parse_filter_test F fuel s)
    (hV : ∀ allow_actions s, parse_value F fuel allow_actions s ≠ none →
      parse_value F (fuel + 1) allow_actions s = parse_value F fuel allow_actions s) :
    ∀ s, parse_filter_test F (fuel + 1) s ≠ none →
      parse_filter_test F (fuel + 1 + 1) s = parse_filter_test F (fuel + 1) s := by
  intro s hne
  rw [parse_filter_test] at hne
  rw [parse_filter_test]
  conv_rhs => rw [parse_filter_test]
  simp only [g_scanner_get_next_token, g_scanner_peek_next_token] at hne ⊢
  by_cases h1 : s.toks.headD Token.EOF = Token.CHAR ']'
  · rw [if_pos h1, if_pos h1]
  · rw [if_neg h1] at hne
    rw [if_neg h1, if_neg h1]
    cases ht : s.toks.headD Token.EOF with
    | EOF => rfl
    | CHAR c => rfl
    | OTHER n => rfl
    | IDENTIFIER key =>
      simp only [ht] at hne
      simp only []
      have hrv : ∃ value s2,
          (if s.toks.tail.headD Token.EOF = Token.CHAR '=' then
            parse_value F (fuel + 1) false { s with toks := s.toks.tail.tail }
          else some (none, { s with toks := s.toks.tail })) = some (value, s2) ∧
          (if s.toks.tail.headD Token.EOF = Token.CHAR '=' then
            parse_value F fuel false { s with toks := s.toks.tail.tail }
          else some (none, { s with toks := s.toks.tail })) = some (value, s2) := by
        by_cases h2 : s.toks.tail.headD Token.EOF = Token.CHAR '='
        · rw [if_pos h2] at hne
          rw [if_pos h2, if_pos h2]
          cases hv : parse_value F fuel false { s with toks := s.toks.tail.tail } with
          | none => rw [hv] at hne; exact absurd rfl hne
          | some p => exact ⟨p.1, p.2, by rw [hV false _ (by rw [hv]; simp), hv], rfl⟩
        · rw [if_neg h2, if_neg h2]
          exact ⟨_, _, rfl, rfl⟩
      obtain ⟨value, s2, hnew, hold⟩ := hrv
      rw [hold] at hne
      rw [hnew, hold]
      simp only [] at hne ⊢
      by_cases he : s2.e = true
      · rw [if_pos he, if_pos he]
      · rw [if_neg he] at hne
        rw [if_neg he, if_neg he]
        by_cases hF : ¬ F key value = true
        · rw [if_pos hF, if_pos hF]
        · rw [if_neg hF] at hne
          rw [if_neg hF, if_neg hF]
          by_cases c1 : s2.toks.headD Token.EOF = Token.CHAR ','
          · rw [if_pos c1] at hne
            rw [if_pos c1, if_pos c1]
            cases hn : parse_filter_test F fuel { s2 with toks := s2.toks.tail } with
            | none => rw [hn] at hne; exact absurd rfl hne
            | some q => rw [hT _ (by rw [hn]; simp), hn]
          · rw [if_neg c1] at hne
            rw [if_neg c1, if_neg c1]
            by_cases c2 : s2.toks.headD Token.EOF = Token.CHAR '|'
            · rw [if_pos c2] at hne
              rw [if_pos c2, if_pos c2]
              cases hn : parse_filter_test F fuel { s2 with toks := s2.toks.tail } with
              | none => rw [hn] at hne; exact absurd rfl hne
              | some q => rw [hT _ (by rw [hn]; simp), hn]
            · rw [if_neg c2, if_neg c2]

theorem parse_action_options_fuel (F : String → Option ObActionValue → Bool) (fuel : Nat)
    (hO : ∀ config s, parse_action_options F fuel config s ≠ none →
      parse_action_options F (fuel + 1) config s = parse_action_options F fuel config s)
    (hV : ∀ allow_actions s, parse_value F fuel allow_actions s ≠ none →
      parse_value F (fuel + 1) allow_actions s = parse_value F fuel allow_actions s) :
    ∀ config s, parse_action_options F (fuel + 1) config s ≠ none →
      parse_action_options F (fuel + 1 + 1) config s =
        parse_action_options F (fuel + 1) config s := by
  intro config s hne
  rw [parse_action_options] at hne
  rw [parse_action_options]
  conv_rhs => rw [parse_action_options]
  simp only [g_scanner_get_next_token, g_scanner_peek_next_token] at hne ⊢
  cases ht : s.toks.headD Token.EOF with
  | EOF => rfl
  | OTHER n => rfl
  | CHAR c =>
    simp only [ht] at hne
    simp only []
    by_cases hc : c = '\\'
    · rw [if_pos hc] at hne
      rw [if_pos hc, if_pos hc]
      by_cases hnl : s.toks.tail.headD Token.EOF = Token.CHAR '\n'
      · simp only [hnl, ne_eq, not_true_eq_false, if_false] at hne ⊢
        by_cases he : s.e = true
        · rw [if_pos he, if_pos he]
        · rw [if_neg he] at hne
          rw [if_neg he, if_neg he]
          exact hO _ _ hne
      · simp only [hnl, ne_eq, not_false_eq_true, if_true, parse_error] at hne ⊢
    · rw [if_neg hc, if_neg hc]
  | IDENTIFIER key =>
    simp only [ht] at hne
    simp only []
    by_cases h2 : s.toks.tail.headD Token.EOF ≠ Token.CHAR ':'
    · rw [if_pos h2, if_pos h2]
    · rw [if_neg h2] at hne
      rw [if_neg h2, if_neg h2]
      cases hv : parse_value F fuel true { s with toks := s.toks.tail.tail } with
      | none => rw [hv] at hne; exact absurd rfl hne
      | some p =>
        rw [hV true _ (by rw [hv]; simp), hv]
        rw [hv] at hne
        obtain ⟨value, s3⟩ := p
        simp only [] at hne ⊢
        by_cases he : s3.e = true
        · rw [if_pos he, if_pos he]
        · rw [if_neg he] at hne
          rw [if_neg he, if_neg he]
          exact hO _ _ hne

theorem parse_action_fuel (F : String → Option ObActionValue → Bool) (fuel : Nat)
    (hL : ∀ end_ s, parse_list F fuel end_ s ≠ none →
      parse_list F (fuel + 1) end_ s = parse_list F fuel end_ s)
    (hO : ∀ config s, parse_action_options F fuel config s ≠ none →
      parse_action_options F (fuel + 1) config s = parse_action_options F fuel config s)
    (hF : ∀ s, parse_filter F fuel s ≠ none →
      parse_filter F (fuel + 1) s = parse_filter F fuel s) :
    ∀ s, parse_action F (fuel + 1) s ≠ none →
      parse_action F (fuel + 1 + 1) s = parse_action F (fuel + 1) s := by
  intro s hne
  rw [parse_action] at hne
  rw [parse_action]
  conv_rhs => rw [parse_action]
  simp only [g_scanner_get_next_token] at hne ⊢
  repeat' split
  all_goals first
    | rfl
    | simp_all

theorem parse_filter_fuel (F : String → Option ObActionValue → Bool) (fuel : Nat)
    (hT : ∀ s, parse_filter_test F fuel s ≠ none →
      parse_filter_test F (fuel + 1) s = parse_filter_test F fuel s)
    (hA : ∀ s, parse_action F fuel s ≠ none →
      parse_action F (fuel + 1) s = parse_action F fuel s) :
    ∀ s, parse_filter F (fuel + 1) s ≠ none →
      parse_filter F (fuel + 1 + 1) s = parse_filter F (fuel + 1) s := by
  intro s hne
  rw [parse_filter] at hne
  rw [parse_filter]
  conv_rhs => rw [parse_filter]
  simp only [g_scanner_get_next_token, g_scanner_peek_next_token] at hne ⊢
  repeat' split
  all_goals first
    | rfl
    | simp_all

theorem parse_list_loop_fuel (F : String → Option ObActionValue → Bool) (fuel : Nat)
    (hLL : ∀ end_ first last s, parse_list_loop F fuel end_ first last s ≠ none →
      parse_list_loop F (fuel + 1) end_ first last s = parse_list_loop F fuel end_ first last s)
    (hA : ∀ s, parse_action F fuel s ≠ none →
      parse_action F (fuel + 1) s = parse_action F fuel s) :
    ∀ end_ first last s, parse_list_loop F (fuel + 1) end_ first last s ≠ none →
      parse_list_loop F (fuel + 1 + 1) end_ first last s =
        parse_list_loop F (fuel + 1) end_ first last s := by
  intro end_ first last s hne
  rw [parse_list_loop] at hne
  rw [parse_list_loop]
  conv_rhs => rw [parse_list_loop]
  simp only [g_scanner_get_next_token, g_scanner_peek_next_token] at hne ⊢
  repeat' split
  all_goals first
    | rfl
    | simp_all

/-- One more unit of fuel does not change a result: each parsing function that
returns with `fuel` returns the same with `fuel + 1`. -/
theorem parsers_fuel_succ (F : String → Option ObActionValue → Bool) (fuel : Nat) :
    (∀ end_ s, parse_list F fuel end_ s ≠ none →
      parse_list F (fuel + 1) end_ s = parse_list F fuel end_ s) ∧
    (∀ end_ first last s, parse_list_loop F fuel end_ first last s ≠ none →
      parse_list_loop F (fuel + 1) end_ first last s =
        parse_list_loop F fuel end_ first last s) ∧
    (∀ s, parse_action F fuel s ≠ none →
      parse_action F (fuel + 1) s = parse_action F fuel s) ∧
    (∀ config s, parse_action_options F fuel config s ≠ none →
      parse_action_options F (fuel + 1) config s = parse_action_options F fuel config s) ∧
    (∀ s, parse_filter F fuel s ≠ none →
      parse_filter F (fuel + 1) s = parse_filter F fuel s) ∧
    (∀ s, parse_filter_test F fuel s ≠ none →
      parse_filter_test F (fuel + 1) s = parse_filter_test F fuel s) ∧
    (∀ allow_actions s, parse_value F fuel allow_actions s ≠ none →
      parse_value F (fuel + 1) allow_actions s = parse_value F fuel allow_actions s) := by
  induction fuel with
  | zero =>
    refine ⟨fun _ _ h => ?_, fun _ _ _ _ h => ?_, fun _ h => ?_, fun _ _ h => ?_, fun _ h => ?_,
      fun _ h => ?_, fun _ _ h => ?_⟩
    · exact absurd (by rw [parse_list]) h
    · exact absurd (by rw [parse_list_loop]) h
    · exact absurd (by rw [parse_action]) h
    · exact absurd (by rw [parse_action_options]) h
    · exact absurd (by rw [parse_filter]) h
    · exact absurd (by rw [parse_filter_test]) h
    · exact absurd (by rw [parse_value]) h
  | succ fuel ih =>
    obtain ⟨hL, hLL, hA, hO, hF, hT, hV⟩ := ih
    refine ⟨?_, parse_list_loop_fuel F fuel hLL hA, parse_action_fuel F fuel hL hO hF,
      parse_action_options_fuel F fuel hO hV, parse_filter_fuel F fuel hT hA,
      parse_filter_test_fuel F fuel hT hV, parse_value_fuel F fuel hL⟩
    intro end_ s h
    rw [parse_list] at h
    rw [parse_list]
    conv_rhs => rw [parse_list]
    exact hLL end_ [] LastPtr.NULL s h

/-- More fuel does not change a result. -/
theorem parsers_fuel_add (F : String → Option ObActionValue → Bool) (fuel k : Nat) :
    (∀ end_ s, parse_list F fuel end_ s ≠ none →
      parse_list F (fuel + k) end_ s = parse_list F fuel end_ s) ∧
    (∀ s, parse_action F fuel s ≠ none →
      parse_action F (fuel + k) s = parse_action F fuel s) ∧
    (∀ s, parse_filter F fuel s ≠ none →
      parse_filter F (fuel + k) s = parse_filter F fuel s) ∧
    (∀ s, parse_filter_test F fuel s ≠ none →
      parse_filter_test F (fuel + k) s = parse_filter_test F fuel s) ∧
    (∀ allow_actions s, parse_value F fuel allow_actions s ≠ none →
      parse_value F (fuel + k) allow_actions s = parse_value F fuel allow_actions s) := by
  induction k with
  | zero => exact ⟨fun _ _ _ => rfl, fun _ _ => rfl, fun _ _ => rfl, fun _ _ => rfl,
      fun _ _ _ => rfl⟩
  | succ k ih =>
    obtain ⟨hL, hA, hF, hT, hV⟩ := ih
    obtain ⟨sL, -, sA, -, sF, sT, sV⟩ := parsers_fuel_succ F (fuel + k)
    refine ⟨fun end_ s h => ?_, fun s h => ?_, fun s h => ?_, fun s h => ?_,
      fun allow_actions s h => ?_⟩
    · rw [← Nat.add_assoc, sL end_ s (by rw [hL end_ s h]; exact h), hL end_ s h]
    · rw [← Nat.add_assoc, sA s (by rw [hA s h]; exact h), hA s h]
    · rw [← Nat.add_assoc, sF s (by rw [hF s h]; exact h), hF s h]
    · rw [← Nat.add_assoc, sT s (by rw [hT s h]; exact h), hT s h]
    · rw [← Nat.add_assoc, sV allow_actions s (by rw [hV allow_actions s h]; exact h),
        hV allow_actions s h]

/-- C18: the parsers terminate.  On every state, with `n` tokens left before the
endless end of input, and for every terminator, each of `parse_list`,
`parse_action`, `parse_filter`, `parse_filter_test` and `parse_value` returns
when its fuel is at least `3 * n + 3`, and what it returns is the same for every
such fuel; the state it returns in has at most the tokens it started with, and
`parse_action` has read a token when there was one.  `parse_string`, a loop over
the tokens left, needs no fuel and leaves at most the tokens it started with.
Hence `action_parser_read_string` returns on every input. -/
theorem parsers_terminate (F : String → Option ObActionValue → Bool) (s : ParseState) :
    (∀ end_, ∃ r s', (∀ k, parse_list F (3 * s.toks.length + 3 + k) end_ s = some (r, s')) ∧
      s'.toks.length ≤ s.toks.length) ∧
    (∃ r s', (∀ k, parse_action F (3 * s.toks.length + 3 + k) s = some (r, s')) ∧
      s'.toks.length ≤ s.toks.length - 1) ∧
    (∃ r s', (∀ k, parse_filter F (3 * s.toks.length + 3 + k) s = some (r, s')) ∧
      s'.toks.length ≤ s.toks.length) ∧
    (∃ r s', (∀ k, parse_filter_test F (3 * s.toks.length + 3 + k) s = some (r, s')) ∧
      s'.toks.length ≤ s.toks.length) ∧
    (∀ allow_actions, ∃ r s',
      (∀ k, parse_value F (3 * s.toks.length + 3 + k) allow_actions s = some (r, s')) ∧
      s'.toks.length ≤ s.toks.length) ∧
    (∀ end_, (parse_string end_ s).2.toks.length ≤ s.toks.length) ∧
    (∀ text, ∃ r, action_parser_read_string F text = some r) := by
  obtain ⟨h1, -, h3, -, h5, h6, h7⟩ := parsers_return F (3 * s.toks.length + 3)
  refine ⟨fun end_ => ?_, ?_, ?_, ?_, fun allow_actions => ?_, fun end_ => ?_, fun text => ?_⟩
  · obtain ⟨r, s', h, hl, -⟩ := h1 end_ s (by omega)
    exact ⟨r, s', fun k => by
      rw [(parsers_fuel_add F _ k).1 end_ s (by rw [h]; simp), h], hl⟩
  · obtain ⟨r, s', h, hl, -⟩ := h3 s (by omega)
    exact ⟨r, s', fun k => by
      rw [(parsers_fuel_add F _ k).2.1 s (by rw [h]; simp), h], hl⟩
  · obtain ⟨r, s', h, hl, -⟩ := h5 s (by omega)
    exact ⟨r, s', fun k => by
      rw [(parsers_fuel_add F _ k).2.2.1 s (by rw [h]; simp), h], hl⟩
  · obtain ⟨r, s', h, hl, -⟩ := h6 s (by omega)
    exact ⟨r, s', fun k => by
      rw [(parsers_fuel_add F _ k).2.2.2.1 s (by rw [h]; simp), h], hl⟩
  · obtain ⟨r, s', h, hl, -⟩ := h7 allow_actions s (by omega)
    exact ⟨r, s', fun k => by
      rw [(parsers_fuel_add F _ k).2.2.2.2 allow_actions s (by rw [h]; simp), h], hl⟩
  · exact (parse_string_returns end_ s).1
  · obtain ⟨r, s', h, -, -⟩ := (parsers_return F (4 * text.length + 8)).1 Token.EOF
      (ParseState.init text) (by simp only [ParseState.init]; omega)
    exact ⟨r, by simp [action_parser_read_string, h]⟩

/-! ## When the then-branch of a conditional is `NULL` -/

/-- The chain `parse_filter` returns is `NULL` when the test sets the error flag,
and one node otherwise. -/
theorem parse_filter_null_iff (F : String → Option ObActionValue → Bool) (fuel : Nat)
    (s : ParseState) (r : List ObActionList) (s2 : ParseState)
    (h : parse_filter F (fuel + 1) s = some (r, s2)) :
    ∃ test s1, parse_filter_test F fuel s = some (test, s1) ∧
      ((s1.e = true ∧ r = [] ∧ s2 = s1) ∨
        (s1.e = false ∧ ∃ thendo s3 elsedo, parse_action F fuel s1 = some (thendo, s3) ∧
          r = [ObActionList.filterset test thendo elsedo])) := by
  rw [parse_filter] at h
  cases ht : parse_filter_test F fuel s with
  | none => simp [ht] at h
  | some p =>
    obtain ⟨test, s1⟩ := p
    refine ⟨test, s1, rfl, ?_⟩
    simp only [ht] at h
    by_cases he : s1.e = true
    · rw [if_pos he] at h
      simp only [Option.some.injEq, Prod.mk.injEq] at h
      exact Or.inl ⟨he, h.1.symm, h.2.symm⟩
    · rw [if_neg he] at h
      have he2 : s1.e = false := by simpa using he
      refine Or.inr ⟨he2, ?_⟩
      cases hp : parse_action F fuel s1 with
      | none => simp [hp] at h
      | some q =>
        obtain ⟨thendo, s3⟩ := q
        simp only [hp] at h
        split at h
        · cases hq : parse_action F fuel (g_scanner_get_next_token s3).2 with
          | none => simp [hq] at h
          | some q2 =>
            simp only [hq, Option.some.injEq, Prod.mk.injEq] at h
            exact ⟨thendo, s3, q2.1, rfl, h.1.symm⟩
        · simp only [Option.some.injEq, Prod.mk.injEq] at h
          exact ⟨thendo, s3, [], rfl, h.1.symm⟩

/-- The chain `parse_action` returns is `NULL` in exactly three cases: its first
token is none of an identifier, `[` and `{`; or it is `[` and the test of the
nested conditional sets the error flag; or it is `{` and the brace list gives
the `NULL` chain. -/
theorem parse_action_null_iff (F : String → Option ObActionValue → Bool) (fuel : Nat)
    (s : ParseState) (r : List ObActionList) (s2 : ParseState)
    (ha : parse_action F (fuel + 2) s = some (r, s2)) :
    r = [] ↔
      (((g_scanner_peek_next_token s).isIdentifier = false ∧
          g_scanner_peek_next_token s ≠ Token.CHAR '[' ∧
          g_scanner_peek_next_token s ≠ Token.CHAR '{') ∨
        (g_scanner_peek_next_token s = Token.CHAR '[' ∧
          ∃ test2, parse_filter_test F fuel (g_scanner_get_next_token s).2 = some (test2, s2) ∧
            s2.e = true) ∨
        (g_scanner_peek_next_token s = Token.CHAR '{' ∧
          parse_list F (fuel + 1) (Token.CHAR '}') (g_scanner_get_next_token s).2 =
            some ([], s2))) := by
  rw [parse_action] at ha
  simp only [g_scanner_get_next_token, g_scanner_peek_next_token] at ha ⊢
  by_cases h1 : s.toks.headD Token.EOF = Token.CHAR '['
  · rw [if_pos h1] at ha
    obtain ⟨test2, s3, ht, hcase⟩ := parse_filter_null_iff F fuel _ r s2 ha
    constructor
    · intro hr
      rcases hcase with ⟨he, -, hs⟩ | ⟨-, thendo, s4, elsedo, -, hr2⟩
      · subst hs
        exact Or.inr (Or.inl ⟨h1, test2, ht, he⟩)
      · rw [hr] at hr2
        exact absurd hr2 (by simp)
    · rintro (⟨-, hb, -⟩ | ⟨-, test3, ht3, he3⟩ | ⟨hc, -⟩)
      · exact absurd h1 hb
      · rw [ht] at ht3
        simp only [Option.some.injEq, Prod.mk.injEq] at ht3
        rcases hcase with ⟨-, hr, -⟩ | ⟨he, -⟩
        · exact hr
        · rw [ht3.2, he3] at he
          exact absurd he (by simp)
      · rw [h1] at hc
        exact absurd hc (by decide)
  · rw [if_neg h1] at ha
    by_cases h2 : s.toks.headD Token.EOF = Token.CHAR '{'
    · rw [if_pos h2] at ha
      constructor
      · intro hr
        rw [hr] at ha
        exact Or.inr (Or.inr ⟨h2, ha⟩)
      · rintro (⟨-, -, hc⟩ | ⟨hb, -⟩ | ⟨-, hl⟩)
        · exact absurd h2 hc
        · exact absurd hb h1
        · rw [hl] at ha
          simp only [Option.some.injEq, Prod.mk.injEq] at ha
          exact ha.1.symm
    · rw [if_neg h2] at ha
      cases hh : s.toks.headD Token.EOF with
      | IDENTIFIER name =>
        simp only [hh] at ha
        have hne : r ≠ [] := by
          cases ho : parse_action_options F (fuel + 1) [] { s with toks := s.toks.tail } with
          | none => simp [ho] at ha
          | some c =>
            simp only [ho, Option.some.injEq, Prod.mk.injEq] at ha
            rw [← ha.1]
            simp
        constructor
        · intro hr
          exact absurd hr hne
        · rintro (⟨hid, -, -⟩ | ⟨hb, -⟩ | ⟨hc, -⟩)
          · simp [Token.isIdentifier] at hid
          · exact absurd hb (by simp)
          · exact absurd hc (by simp)
      | EOF =>
        simp only [hh, Option.some.injEq, Prod.mk.injEq] at ha
        exact ⟨fun _ => Or.inl ⟨rfl, by simp, by simp⟩, fun _ => ha.1.symm⟩
      | CHAR c =>
        simp only [hh, Option.some.injEq, Prod.mk.injEq] at ha
        rw [hh] at h1 h2
        exact ⟨fun _ => Or.inl ⟨rfl, h1, h2⟩, fun _ => ha.1.symm⟩
      | OTHER n =>
        simp only [hh, Option.some.injEq, Prod.mk.injEq] at ha
        exact ⟨fun _ => Or.inl ⟨rfl, by simp, by simp⟩, fun _ => ha.1.symm⟩

/-- A `NULL` chain comes from `parse_action` with the error flag set, unless its
first token is `{`. -/
theorem parse_action_null_flag (F : String → Option ObActionValue → Bool) (fuel : Nat)
    (s : ParseState) (s2 : ParseState)
    (ha : parse_action F (fuel + 1) s = some ([], s2)) :
    s2.e = true ∨ g_scanner_peek_next_token s = Token.CHAR '{' := by
  rw [parse_action] at ha
  simp only [g_scanner_get_next_token, g_scanner_peek_next_token] at ha ⊢
  by_cases h1 : s.toks.headD Token.EOF = Token.CHAR '['
  · rw [if_pos h1] at ha
    cases fuel with
    | zero => simp [parse_filter] at ha
    | succ k =>
      obtain ⟨test2, s3, -, hcase⟩ := parse_filter_null_iff F k _ [] s2 ha
      rcases hcase with ⟨he, -, hs⟩ | ⟨-, thendo, s4, elsedo, -, hr2⟩
      · subst hs
        exact Or.inl he
      · exact absurd hr2 (by simp)
  · rw [if_neg h1] at ha
    by_cases h2 : s.toks.headD Token.EOF = Token.CHAR '{'
    · exact Or.inr h2
    · rw [if_neg h2] at ha
      left
      cases hh : s.toks.headD Token.EOF with
      | IDENTIFIER name =>
        simp only [hh] at ha
        cases ho : parse_action_options F fuel [] { s with toks := s.toks.tail } with
        | none => simp [ho] at ha
        | some c => simp [ho] at ha
      | EOF =>
        simp only [hh, Option.some.injEq, Prod.mk.injEq] at ha
        rw [← ha.2]
        rfl
      | CHAR c =>
        simp only [hh, Option.some.injEq, Prod.mk.injEq] at ha
        rw [← ha.2]
        rfl
      | OTHER n =>
        simp only [hh, Option.some.injEq, Prod.mk.injEq] at ha
        rw [← ha.2]
        rfl

/-- The node `parse_filter` builds when the test sets no error and no
else-branch follows: its then-branch is the chain `parse_action` returned. -/
theorem parse_filter_of_then (F : String → Option ObActionValue → Bool) (fuel : Nat)
    (s : ParseState) (test : List ObActionListTest) (s1 : ParseState)
    (thendo : List ObActionList) (s2 : ParseState)
    (ht : parse_filter_test F fuel s = some (test, s1)) (he : s1.e = false)
    (ha : parse_action F fuel s1 = some (thendo, s2))
    (hno : s2.e = true ∨ g_scanner_peek_next_token s2 ≠ Token.CHAR '|') :
    parse_filter F (fuel + 1) s = some ([ObActionList.filterset test thendo []], s2) := by
  rw [parse_filter]
  simp only [ht, he, Bool.false_eq_true, if_false, ha]
  rw [if_neg]
  rintro ⟨h1, h2⟩
  rcases hno with h | h
  · exact h1 h
  · exact h h2

/-- A brace list of plain actions separated by `;`, the last one with or without
its `;`, closed by `}` and followed by more input: the chain of the actions is
returned and the input behind the brace is left. -/
theorem parse_list_brace_actions_rest (F : String → Option ObActionValue → Bool)
    (as cs : List (String × List (String × String))) (fin rest : List Token)
    (hfin : (fin = [] ∧ cs = []) ∨
      ∃ c : String × List (String × String), fin = actionToks c ∧ cs = [c])
    (k : Nat) (hk : ∀ a ∈ as, a.2.length ≤ k) (hkfin : fin.length ≤ k)
    (sk i1 i2 : String) (msgs : List Diagnostic) :
    parse_list F (k + 2 + 2 * as.length + 1) (Token.CHAR '}')
        ⟨sk, i1, i2, actionsToks (Token.CHAR ';') as ++ (fin ++ Token.CHAR '}' :: rest),
          msgs, false⟩ =
      some ((as ++ cs).map actionNode, ⟨sk, i1, i2, rest, msgs, false⟩) := by
  rw [parse_list]
  have h := parse_list_loop_plain_actions F (Token.CHAR '}') (Token.CHAR ';')
    (by decide) (by decide) as (fin ++ Token.CHAR '}' :: rest) (k + 2) []
    ⟨sk, i1, i2, actionsToks (Token.CHAR ';') as ++ (fin ++ Token.CHAR '}' :: rest), msgs,
      false⟩ rfl rfl (fun a ha => by have := hk a ha; omega)
  have h0 : lastOf ([] : List ObActionList) = LastPtr.NULL := rfl
  rw [h0] at h
  simp only [List.nil_append] at h
  rw [h]
  rcases hfin with ⟨hf, hc⟩ | ⟨c, hf, hc⟩
  · subst hf hc
    simp only [List.nil_append, List.append_nil]
    rw [parse_list_loop_end F (k + 1) (Token.CHAR '}') _ _
      ⟨sk, i1, i2, Token.CHAR '}' :: rest, msgs, false⟩ (Or.inl rfl)]
    rfl
  · subst hf hc
    have hc2 : c.2.length + 2 ≤ k + 1 := by
      simp only [actionToks, List.length_cons, optionToks_length] at hkfin
      omega
    have hp := parse_list_loop_plain F c.1 c.2 (Token.CHAR '}' :: rest) (k + 1) (Token.CHAR '}')
      (as.map actionNode) (lastOf (as.map actionNode))
      ⟨sk, i1, i2, actionToks c ++ Token.CHAR '}' :: rest, msgs, false⟩ rfl
      (by simp [actionToks]) rfl hc2 rfl
    have ha := parse_list_append_lastOf (as.map actionNode) (actionNode c)
    simp only [actionNode] at ha hp
    rw [ha] at hp
    dsimp only at hp ⊢
    rw [hp, parse_list_loop_end F k (Token.CHAR '}') _ _
      ⟨sk, i1, i2, Token.CHAR '}' :: rest, msgs, false⟩ (Or.inl rfl)]
    simp [actionNode, g_scanner_get_next_token]

/-- C13 (amended): a chain returned by `parse_filter` is `NULL` or a single
Conditional node, built exactly when `parse_filter_test` leaves the error flag
unset, and the then-branch of the node is the chain `parse_action` returned.
That chain is `NULL` in exactly three cases: the token after the test is none of
an identifier, `[` and `{` (the then-branch fails on its first token); or it is
`[` and the test of the nested conditional sets the error flag; or it is `{` and
the brace list gives the `NULL` chain.  So a `NULL` then-branch comes with the
error flag set or from a brace group, and in every other case the then-branch
is non-`NULL`.  Both exceptions occur: `[test] { separators }` without an
else-branch gives a node with a `NULL` then-branch and no error, and a token
that starts no action after the test gives a node with a `NULL` then-branch and
"Expected an action name".  A brace group of plain actions as then-branch gives
the chain of those actions. -/
theorem parse_filter_then_branch (F : String → Option ObActionValue → Bool) :
    (∀ (fuel : Nat) (s : ParseState) (r : List ObActionList) (s' : ParseState),
      parse_filter F (fuel + 3) s = some (r, s') →
      ∃ test s1, parse_filter_test F (fuel + 2) s = some (test, s1) ∧
        ((s1.e = true ∧ r = [] ∧ s' = s1) ∨
          (s1.e = false ∧ ∃ thendo s2 elsedo,
            parse_action F (fuel + 2) s1 = some (thendo, s2) ∧
            r = [ObActionList.filterset test thendo elsedo] ∧
            (thendo = [] ↔
              (((g_scanner_peek_next_token s1).isIdentifier = false ∧
                  g_scanner_peek_next_token s1 ≠ Token.CHAR '[' ∧
                  g_scanner_peek_next_token s1 ≠ Token.CHAR '{') ∨
                (g_scanner_peek_next_token s1 = Token.CHAR '[' ∧
                  ∃ test2, parse_filter_test F fuel (g_scanner_get_next_token s1).2 =
                    some (test2, s2) ∧ s2.e = true) ∨
                (g_scanner_peek_next_token s1 = Token.CHAR '{' ∧
                  parse_list F (fuel + 1) (Token.CHAR '}') (g_scanner_get_next_token s1).2 =
                    some ([], s2)))) ∧
            (thendo = [] →
              s2.e = true ∨ g_scanner_peek_next_token s1 = Token.CHAR '{')))) ∧
    (∀ (fuel : Nat) (s : ParseState) (test : List ObActionListTest) (s1 : ParseState)
        (seps rest : List Token),
      parse_filter_test F (fuel + 1 + seps.length + 2) s = some (test, s1) → s1.e = false →
      s1.toks = Token.CHAR '{' :: (seps ++ Token.CHAR '}' :: rest) →
      (∀ t ∈ seps, t.isSeparator = true) → rest.headD Token.EOF ≠ Token.CHAR '|' →
      parse_filter F (fuel + 1 + seps.length + 3) s =
        some ([ObActionList.filterset test [] []], { s1 with toks := rest })) ∧
    (∀ (fuel : Nat) (s : ParseState) (test : List ObActionListTest) (s1 : ParseState),
      parse_filter_test F (fuel + 1) s = some (test, s1) → s1.e = false →
      (g_scanner_peek_next_token s1).isIdentifier = false →
      g_scanner_peek_next_token s1 ≠ Token.CHAR '[' →
      g_scanner_peek_next_token s1 ≠ Token.CHAR '{' →
      parse_filter F (fuel + 2) s =
        some ([ObActionList.filterset test [] []],
          parse_error (g_scanner_get_next_token s1).2 G_TOKEN_NONE
            (some "Expected an action name"))) ∧
    (∀ (k : Nat) (s : ParseState) (test : List ObActionListTest) (s1 : ParseState)
        (as cs : List (String × List (String × String))) (fin rest : List Token),
      parse_filter_test F (k + 2 + 2 * as.length + 2) s = some (test, s1) → s1.e = false →
      s1.toks = Token.CHAR '{' ::
        (actionsToks (Token.CHAR ';') as ++ (fin ++ Token.CHAR '}' :: rest)) →
      ((fin = [] ∧ cs = []) ∨
        ∃ c : String × List (String × String), fin = actionToks c ∧ cs = [c]) →
      (∀ a ∈ as, a.2.length ≤ k) → fin.length ≤ k →
      rest.headD Token.EOF ≠ Token.CHAR '|' →
      parse_filter F (k + 2 + 2 * as.length + 3) s =
        some ([ObActionList.filterset test ((as ++ cs).map actionNode) []],
          { s1 with toks := rest })) := by
  refine ⟨?_, ?_, ?_, ?_⟩
  · intro fuel s r s' h
    obtain ⟨test, s1, ht, hcase⟩ := parse_filter_null_iff F (fuel + 2) s r s' h
    refine ⟨test, s1, ht, ?_⟩
    rcases hcase with hc | ⟨he, thendo, s2, elsedo, ha, hr⟩
    · exact Or.inl hc
    · refine Or.inr ⟨he, thendo, s2, elsedo, ha, hr, parse_action_null_iff F fuel s1 thendo s2 ha,
        fun hnull => ?_⟩
      rw [hnull] at ha
      exact parse_action_null_flag F (fuel + 1) s1 s2 ha
  · intro fuel s test s1 seps rest ht he htoks hseps hbar
    obtain ⟨sk, i1, i2, toks, msgs, e⟩ := s1
    dsimp only at he htoks hbar ⊢
    subst he htoks
    have hl := parse_list_separators_brace F seps rest hseps fuel
      ⟨sk, i1, i2, seps ++ Token.CHAR '}' :: rest, msgs, false⟩ rfl rfl
    have ha : parse_action F (fuel + 1 + seps.length + 2)
        ⟨sk, i1, i2, Token.CHAR '{' :: (seps ++ Token.CHAR '}' :: rest), msgs, false⟩ =
        some ([], ⟨sk, i1, i2, rest, msgs, false⟩) := by
      rw [parse_action]
      simp only [g_scanner_get_next_token, List.headD_cons, List.tail_cons]
      rw [if_pos trivial]
      exact hl
    exact parse_filter_of_then F _ s test _ [] _ ht rfl ha (Or.inr hbar)
  · intro fuel s test s1 ht he hid hb hc
    have ha : parse_action F (fuel + 1) s1 =
        some ([], parse_error (g_scanner_get_next_token s1).2 G_TOKEN_NONE
          (some "Expected an action name")) := by
      rw [parse_action]
      simp only [g_scanner_get_next_token, g_scanner_peek_next_token] at hid hb hc ⊢
      rw [if_neg hb, if_neg hc]
      cases hh : s1.toks.headD Token.EOF with
      | IDENTIFIER name => rw [hh] at hid; simp [Token.isIdentifier] at hid
      | EOF => rfl
      | CHAR c => rfl
      | OTHER n => rfl
    exact parse_filter_of_then F _ s test s1 [] _ ht he ha (Or.inl rfl)
  · intro k s test s1 as cs fin rest ht he htoks hfin hk hkfin hbar
    obtain ⟨sk, i1, i2, toks, msgs, e⟩ := s1
    dsimp only at he htoks hbar ⊢
    subst he htoks
    have hl := parse_list_brace_actions_rest F as cs fin rest hfin k hk hkfin sk i1 i2 msgs
    have ha : parse_action F (k + 2 + 2 * as.length + 2)
        ⟨sk, i1, i2, Token.CHAR '{' ::
          (actionsToks (Token.CHAR ';') as ++ (fin ++ Token.CHAR '}' :: rest)), msgs, false⟩ =
        some ((as ++ cs).map actionNode, ⟨sk, i1, i2, rest, msgs, false⟩) := by
      rw [parse_action]
      simp only [g_scanner_get_next_token, List.headD_cons, List.tail_cons]
      rw [if_pos trivial]
      exact hl
    exact parse_filter_of_then F _ s test _ _ _ ht rfl ha (Or.inr hbar)

theorem parse_filter_then_branch_witness :
    (∃ test s1, parse_filter_test (fun _ _ => true) (2 + 2)
        (ParseState.init [Token.IDENTIFIER "k", Token.CHAR ']', Token.CHAR '[',
          Token.IDENTIFIER "j", Token.CHAR ']', Token.IDENTIFIER "a"]) = some (test, s1) ∧
      ((s1.e = true ∧
          [ObActionList.filterset [ObActionListTest.mk "k" none false]
            [ObActionList.filterset [ObActionListTest.mk "j" none false]
              [ObActionList.action "a" []] []] []] = [] ∧
          ParseState.init [] = s1) ∨
        (s1.e = false ∧ ∃ thendo s2 elsedo,
          parse_action (fun _ _ => true) (2 + 2) s1 = some (thendo, s2) ∧
          [ObActionList.filterset [ObActionListTest.mk "k" none false]
            [ObActionList.filterset [ObActionListTest.mk "j" none false]
              [ObActionList.action "a" []] []] []] =
            [ObActionList.filterset test thendo elsedo] ∧
          (thendo = [] ↔
            (((g_scanner_peek_next_token s1).isIdentifier = false ∧
                g_scanner_peek_next_token s1 ≠ Token.CHAR '[' ∧
                g_scanner_peek_next_token s1 ≠ Token.CHAR '{') ∨
              (g_scanner_peek_next_token s1 = Token.CHAR '[' ∧
                ∃ test2, parse_filter_test (fun _ _ => true) 2
                  (g_scanner_get_next_token s1).2 = some (test2, s2) ∧ s2.e = true) ∨
              (g_scanner_peek_next_token s1 = Token.CHAR '{' ∧
                parse_list (fun _ _ => true) (2 + 1) (Token.CHAR '}')
                  (g_scanner_get_next_token s1).2 = some ([], s2)))) ∧
          (thendo = [] →
            s2.e = true ∨ g_scanner_peek_next_token s1 = Token.CHAR '{')))) ∧
    parse_filter (fun _ _ => true) (0 + 1 + [Token.CHAR ';'].length + 3)
        (ParseState.init [Token.IDENTIFIER "k", Token.CHAR ']', Token.CHAR '{', Token.CHAR ';',
          Token.CHAR '}', Token.CHAR '\n']) =
      some ([ObActionList.filterset [ObActionListTest.mk "k" none false] [] []],
        { ParseState.init [Token.CHAR '{', Token.CHAR ';', Token.CHAR '}', Token.CHAR '\n'] with
          toks := [Token.CHAR '\n'] }) ∧
    parse_filter (fun _ _ => true) (1 + 2)
        (ParseState.init [Token.IDENTIFIER "k", Token.CHAR ']', Token.CHAR ')']) =
      some ([ObActionList.filterset [ObActionListTest.mk "k" none false] [] []],
        parse_error (g_scanner_get_next_token (ParseState.init [Token.CHAR ')'])).2 G_TOKEN_NONE
          (some "Expected an action name")) ∧
    parse_filter (fun _ _ => true) (1 + 2 + 2 * ([("a", [])] : List (String × List (String × String))).length + 3)
        (ParseState.init (Token.IDENTIFIER "k" :: Token.CHAR ']' :: Token.CHAR '{' ::
          (actionsToks (Token.CHAR ';') [("a", [])] ++
            (actionToks ("b", []) ++ Token.CHAR '}' :: [])))) =
      some ([ObActionList.filterset [ObActionListTest.mk "k" none false]
          (([("a", [])] ++ [("b", [])]).map actionNode) []],
        { ParseState.init (Token.CHAR '{' ::
            (actionsToks (Token.CHAR ';') [("a", [])] ++
              (actionToks ("b", []) ++ Token.CHAR '}' :: []))) with toks := [] }) :=
  ⟨(parse_filter_then_branch (fun _ _ => true)).1 2
      (ParseState.init [Token.IDENTIFIER "k", Token.CHAR ']', Token.CHAR '[',
        Token.IDENTIFIER "j", Token.CHAR ']', Token.IDENTIFIER "a"])
      [ObActionList.filterset [ObActionListTest.mk "k" none false]
        [ObActionList.filterset [ObActionListTest.mk "j" none false]
          [ObActionList.action "a" []] []] []]
      (ParseState.init []) rfl,
    (parse_filter_then_branch (fun _ _ => true)).2.1 0
      (ParseState.init [Token.IDENTIFIER "k", Token.CHAR ']', Token.CHAR '{', Token.CHAR ';',
        Token.CHAR '}', Token.CHAR '\n'])
      [ObActionListTest.mk "k" none false]
      (ParseState.init [Token.CHAR '{', Token.CHAR ';', Token.CHAR '}', Token.CHAR '\n'])
      [Token.CHAR ';'] [Token.CHAR '\n'] rfl rfl rfl (by decide) (by decide),
    (parse_filter_then_branch (fun _ _ => true)).2.2.1 1
      (ParseState.init [Token.IDENTIFIER "k", Token.CHAR ']', Token.CHAR ')'])
      [ObActionListTest.mk "k" none false] (ParseState.init [Token.CHAR ')']) rfl rfl rfl
      (by decide) (by decide),
    (parse_filter_then_branch (fun _ _ => true)).2.2.2 1
      (ParseState.init (Token.IDENTIFIER "k" :: Token.CHAR ']' :: Token.CHAR '{' ::
        (actionsToks (Token.CHAR ';') [("a", [])] ++
          (actionToks ("b", []) ++ Token.CHAR '}' :: []))))
      [ObActionListTest.mk "k" none false]
      (ParseState.init (Token.CHAR '{' ::
        (actionsToks (Token.CHAR ';') [("a", [])] ++
          (actionToks ("b", []) ++ Token.CHAR '}' :: []))))
      [("a", [])] [("b", [])] (actionToks ("b", [])) [] rfl rfl rfl
      (Or.inr ⟨("b", []), rfl, rfl⟩) (by decide) (by decide) (by decide)⟩

end Openbox
